import Mathlib

/-!
Verification of the GF(2^M) arithmetic library (computation backend `gf2`,
carry-less primitives `gf2::clmul`, and table backend `gf2_lut`).

Machine integers of width `w` are modelled as natural numbers together with
explicit `% 2 ^ w` truncation at every operation where the Rust code can
wrap.  The double-width `U256` type is modelled as a structure of two
128-bit halves, exactly as in the source.
-/

/-- Fuel-based helper for `sizeN` (structural recursion so that the kernel
can evaluate it). -/
def sizeAux : Nat → Nat → Nat
  | 0, _ => 0
  | fuel + 1, n => if n = 0 then 0 else sizeAux fuel (n / 2) + 1

/-- The bit length of a natural number (equal to `Nat.size`, proved below);
`128 - x.leading_zeros()` for a `u128` value `x`. -/
def sizeN (n : Nat) : Nat := sizeAux n n

/-- Translation of `calc_degree` (lib.rs): `127 - x.leading_zeros()` for a
`u128` argument, i.e. the index of the highest set bit, `-1` for zero. -/
def calc_degree (x : Nat) : Int := 127 - ((128 - sizeN x : Nat) : Int)

/-- Translation of the macro-generated `clmul` for a `w`-bit input type with
`2*w`-bit output type: for each `i` below the input bit width, if bit `i` of
`b` is set, XOR `a <<< i` (computed in the output type) into the
accumulator. -/
def clmul (w a b : Nat) : Nat :=
  (List.range w).foldl
    (fun c i => if 0 < (b >>> i) &&& 1 then c ^^^ ((a <<< i) % 2 ^ (2 * w)) else c) 0

/-- Fuel-based helper for `cmul` (structural recursion so that the kernel
can evaluate it). -/
def cmulAux : Nat → Nat → Nat → Nat
  | 0, _, _ => 0
  | fuel + 1, a, b =>
    if b = 0 then 0 else (if b % 2 = 1 then a else 0) ^^^ cmulAux fuel (2 * a) (b / 2)

/-- Mathematical carry-less (GF(2) polynomial) product of two naturals:
the XOR over all bit positions `i` where bit `i` of `b` is set of
`a` shifted left by `i`.  This is the width-free specification that
`clmul` is proved to implement. -/
def cmul (a b : Nat) : Nat := cmulAux b a b

/-- The first `n` terms of the XOR-convolution, written as the same left
fold as the code (proof-side bridge between `clmul` and `cmul`). -/
def genConv (a b n : Nat) : Nat :=
  (List.range n).foldl (fun c i => if b.testBit i then c ^^^ (a <<< i) else c) 0

/-- Rust `!x` on a `w`-bit unsigned integer (bitwise complement). -/
def rustNot (w x : Nat) : Nat := (2 ^ w - 1) ^^^ x

/-- The double-width 256-bit integer from `gf2/clmul.rs`, two `u128` halves. -/
structure U256 where
  lower : Nat
  upper : Nat
deriving DecidableEq

/-- A `U256` whose halves are genuine `u128` values. -/
def U256.Valid (x : U256) : Prop := x.lower < 2 ^ 128 ∧ x.upper < 2 ^ 128

/-- The natural number denoted by a `U256` (little-endian halves). -/
def U256.toN (x : U256) : Nat := x.lower + 2 ^ 128 * x.upper

/-- Componentwise XOR, as in `impl BitXor for U256`. -/
def U256.xor (x y : U256) : U256 := ⟨x.lower ^^^ y.lower, x.upper ^^^ y.upper⟩

/-- Componentwise AND, as in `impl BitAnd for U256`. -/
def U256.land (x y : U256) : U256 := ⟨x.lower &&& y.lower, x.upper &&& y.upper⟩

/-- Componentwise OR, as in `impl BitOr for U256`. -/
def U256.lor (x y : U256) : U256 := ⟨x.lower ||| y.lower, x.upper ||| y.upper⟩

/-- Componentwise complement, as in `impl Not for U256`. -/
def U256.bnot (x : U256) : U256 := ⟨rustNot 128 x.lower, rustNot 128 x.upper⟩

/-- `impl Shl<usize> for U256`: shift left with spill between the halves. -/
def U256.shl (x : U256) (s : Nat) : U256 :=
  if s = 0 then x
  else if s ≤ 127 then
    ⟨(x.lower <<< s) % 2 ^ 128, ((x.upper <<< s) % 2 ^ 128) ^^^ (x.lower >>> (128 - s))⟩
  else if s ≤ 255 then ⟨0, (x.lower <<< (s - 128)) % 2 ^ 128⟩
  else ⟨0, 0⟩

/-- `impl Shr<usize> for U256`: shift right with spill between the halves. -/
def U256.shr (x : U256) (s : Nat) : U256 :=
  if s = 0 then x
  else if s ≤ 127 then
    ⟨(x.lower >>> s) ^^^ ((x.upper <<< (128 - s)) % 2 ^ 128), x.upper >>> s⟩
  else if s ≤ 255 then ⟨x.upper >>> (s - 128), 0⟩
  else ⟨0, 0⟩

/-- `U256::new(val, shift)`: place a `u128` value shifted left by `shift`
bits.  `lower` uses `checked_shl` (`None`, hence `0`, for shifts of 128 or
more); `upper` uses `checked_shr(128 - shift)` where `128 - shift` is `u32`
arithmetic, modelled with wrapping (release-mode) semantics, so that a
shift above 128 makes both halves zero. -/
def U256.new (val shift : Nat) : U256 :=
  { lower := if shift < 128 then ((val % 2 ^ 128) <<< shift) % 2 ^ 128 else 0
    upper :=
      let sv := (128 + 2 ^ 32 - shift % 2 ^ 32) % 2 ^ 32
      if sv < 128 then (val % 2 ^ 128) >>> sv else 0 }

/-- Translation of `calc_degree_256`. -/
def calc_degree_256 (x : U256) : Int :=
  if 0 < x.upper then calc_degree x.upper + 128 else calc_degree x.lower

/-- Translation of `impl CarryLessMultiply for u128` (output type `U256`). -/
def clmul128 (a b : Nat) : U256 :=
  (List.range 128).foldl
    (fun c i => if 0 < (b >>> i) &&& 1 then U256.xor c (U256.new a i) else c) ⟨0, 0⟩

/-- One pass of the long-division register loop of the macro-generated
`gf2_poly_div` for a `w`-bit element type.  The counter argument is the
current dividend bit `cur_deg + 1`, i.e. `k + 1 ↦ cur_deg = k`, matching
`for cur_deg in (0..=calc_degree(dividend)).rev()`. -/
def pdLoop (w dvd mask d : Nat) : Nat → Nat × Nat → Nat × Nat
  | 0, qr => qr
  | k + 1, qr =>
    let bit := (qr.2 >>> d) &&& 1
    let q1 := if 0 < bit then ((qr.1 <<< 1) % 2 ^ w) ||| 1 else (qr.1 <<< 1) % 2 ^ w
    let r1 := ((qr.2 <<< 1) % 2 ^ w) ||| ((dvd >>> k) &&& 1)
    let r2 := if 0 < bit then r1 ^^^ mask else r1
    pdLoop w dvd mask d k (q1, r2)

/-- The body of the macro-generated `gf2_poly_div` for a `w`-bit element
type, after the divide-by-zero check: early return for divisor `1`, then
the shift-register loop followed by masking the remainder to
`degree(divisor)` bits. -/
def polyDivCore (w dvd dvs : Nat) : Nat × Nat :=
  if dvs = 1 then (dvd, 0)
  else
    let deg := sizeN dvs - 1
    let mask := dvs &&& rustNot w ((1 <<< deg) % 2 ^ w)
    let p := pdLoop w dvd mask (deg - 1) (sizeN dvd) (0, 0)
    (p.1, p.2 &&& (((1 <<< deg) % 2 ^ w) - 1))

/-- Translation of the macro-generated `gf2_poly_div` for a `w`-bit element
type: the `panic!("Can not divide by zero")` is modelled by `none`. -/
def gf2_poly_div (w dvd dvs : Nat) : Option (Nat × Nat) :=
  if dvs = 0 then none else some (polyDivCore w dvd dvs)

/-- The register loop of `impl GF2PolyDiv for U256`, with the same counter
convention as `pdLoop`. -/
def u256pdLoop (dvd mask : U256) (d : Nat) : Nat → U256 × U256 → U256 × U256
  | 0, qr => qr
  | k + 1, qr =>
    let bit := (U256.shr qr.2 d).lower &&& 1
    let q1 :=
      if 0 < bit then
        let s := U256.shl qr.1 1
        U256.mk (s.lower ||| 1) s.upper
      else U256.shl qr.1 1
    let r1 := U256.lor (U256.shl qr.2 1) (U256.land (U256.shr dvd k) ⟨1, 0⟩)
    let r2 := if 0 < bit then U256.xor r1 mask else r1
    u256pdLoop dvd mask d k (q1, r2)

/-- Translation of `impl GF2PolyDiv for U256`; the divide-by-zero panic is
modelled by `none`. -/
def U256.gf2_poly_div (dvd dvs : U256) : Option (U256 × U256) :=
  if dvs = ⟨0, 0⟩ then none
  else if dvs = ⟨1, 0⟩ then some (dvd, ⟨0, 0⟩)
  else
    let deg := (calc_degree_256 dvs).toNat
    let mask := U256.land dvs (U256.bnot (U256.new 1 deg))
    let p := u256pdLoop dvd mask (deg - 1) (calc_degree_256 dvd + 1).toNat (⟨0, 0⟩, ⟨0, 0⟩)
    let fmask : U256 :=
      if deg < 128 then ⟨(1 <<< deg) - 1, 0⟩
      else ⟨2 ^ 128 - 1, (1 <<< (deg - 128)) - 1⟩
    some (p.1, U256.land p.2 fmask)

/-- Addition (= subtraction) of field elements in both backends: XOR of the
stored values. -/
def gfAdd (a b : Nat) : Nat := a ^^^ b

/-- Multiplication of the computation backend (`impl Mul for GF<type>`):
carry-less multiply into the double-width type, divide by the field
polynomial there, keep the remainder cast back to the storage type. -/
def gfMul (w POLY a b : Nat) : Nat :=
  (polyDivCore (2 * w) (clmul w a b) (POLY % 2 ^ (2 * w))).2 % 2 ^ w

/-- `gfMul` together with the `gf2_poly_div` divide-by-zero panic (which can
only fire when the field polynomial truncates to zero in the double-width
type). -/
def gfMulQ (w POLY a b : Nat) : Option Nat :=
  if POLY % 2 ^ (2 * w) = 0 then none else some (gfMul w POLY a b)

/-- Multiplication of the `u128` computation backend, which goes through
`U256` (`impl Mul for GFu128`). -/
def gfMul128 (POLY a b : Nat) : Option Nat :=
  (U256.gf2_poly_div (clmul128 a b) ⟨POLY % 2 ^ 128, 0⟩).map fun p => p.2.lower

/-- The `while new_r != 0` loop of `inverse` (extended Euclid over GF(2)
polynomials).  State `(t, nt, r, nr)` is `(t, new_t, r, new_r)`; the
divisions run at `u128` width and the Bezout update multiplies in the
field (`quo * nt`), truncating both operands to the storage type `W`. -/
def egcdLoop (W POLY t nt r nr : Nat) : Nat :=
  if h : nr = 0 then t
  else
    let p := polyDivCore 128 r nr
    egcdLoop W POLY nt (t ^^^ gfMul W POLY (p.1 % 2 ^ W) (nt % 2 ^ W)) nr p.2
termination_by Nat.size nr
decreasing_by
  have hb : (polyDivCore 128 r nr).2 < 2 ^ (sizeN nr - 1) := by
    by_cases h1 : nr = 1
    · subst h1; simp [polyDivCore]
    · have hle : (polyDivCore 128 r nr).2 ≤ ((1 <<< (sizeN nr - 1)) % 2 ^ 128) - 1 := by
        simp only [polyDivCore, if_neg h1]
        exact Nat.and_le_right
      have hm : ((1 <<< (sizeN nr - 1)) % 2 ^ 128) ≤ 2 ^ (sizeN nr - 1) := by
        rw [Nat.shiftLeft_eq, Nat.one_mul]
        exact Nat.le_of_lt_succ (Nat.lt_succ_of_le (Nat.mod_le _ _))
      have hp : 0 < 2 ^ (sizeN nr - 1) := Nat.pos_pow_of_pos _ (by omega)
      omega
  have key : ∀ f x k, x < 2 ^ k → sizeAux f x ≤ k := by
    intro f
    induction f with
    | zero => intro x k _; simp [sizeAux]
    | succ f ih =>
      intro x k hx
      by_cases hx0 : x = 0
      · simp [sizeAux, hx0]
      · have hk : k ≠ 0 := by
          intro hk0; subst hk0; simp at hx; omega
        have h2k : 2 ^ k = 2 * 2 ^ (k - 1) := by
          conv => lhs; rw [show k = (k - 1) + 1 by omega]
          rw [pow_succ]; ring
        have hhalf : x / 2 < 2 ^ (k - 1) := by omega
        have := ih (x / 2) (k - 1) hhalf
        simp only [sizeAux, if_neg hx0]
        omega
  have h1 : Nat.size (polyDivCore 128 r nr).2 ≤ sizeN nr - 1 := Nat.size_le.mpr hb
  have h3 : sizeN nr ≤ Nat.size nr := key nr nr (Nat.size nr) (Nat.lt_size_self nr)
  have h2 : 0 < Nat.size nr := Nat.size_pos.mpr (Nat.pos_of_ne_zero h)
  have h4 : 0 < sizeN nr := by
    rcases nr with _ | m
    · exact absurd rfl h
    · simp only [sizeN, sizeAux]
      split
      · omega
      · omega
  omega

/-- Translation of `inverse` for the computation backend: panic on zero,
otherwise run the extended Euclidean loop starting from
`(t, new_t, r, new_r) = (0, 1, POLY, a)` and return the final `t` cast to
the storage type. -/
def gfInverse (W POLY a : Nat) : Option Nat :=
  if a = 0 then none else some (egcdLoop W POLY 0 1 POLY a % 2 ^ W)

/-- Translation of `div` for the computation backend: `a * b.inverse()`. -/
def gfDiv (W POLY a b : Nat) : Option Nat :=
  (gfInverse W POLY b).bind fun ib => gfMulQ W POLY a ib

/-- `Self::M` of the table backend: `calc_degree(POLY) as usize`. -/
def degM (POLY : Nat) : Nat := sizeN POLY - 1

/-- One step of the LFSR in `generate_lut_<type>`: record whether the top
field bit is set, shift left in the `w`-bit storage type, and feed back the
polynomial (truncated to the storage type) on overflow. -/
def lfsrStep (w POLY v : Nat) : Nat :=
  let v2 := (v <<< 1) % 2 ^ w
  if 2 ^ (degM POLY - 1) ≤ v then v2 ^^^ (POLY % 2 ^ w) else v2

/-- The value of the LFSR after `i` steps starting from `1`; this is what
`exp_tbl[i]` receives in `generate_lut_<type>`. -/
def lfsrVal (w POLY : Nat) : Nat → Nat
  | 0 => 1
  | i + 1 => lfsrStep w POLY (lfsrVal w POLY i)

/-- Pointwise array update, used to model writes into the tables. -/
def updN (f : Nat → Nat) (k v : Nat) : Nat → Nat := fun j => if j = k then v else f j

/-- Pointwise array update for the (isize-valued) log table. -/
def updZ (f : Nat → Int) (k : Nat) (v : Int) : Nat → Int := fun j => if j = k then v else f j

/-- Initial table state of `generate_lut_<type>`: both arrays zero-filled,
`log_tbl[0] = -1`, LFSR value `1`. -/
def lutInit : ((Nat → Nat) × (Nat → Int)) × Nat :=
  ((fun _ => 0, fun v => if v = 0 then -1 else 0), 1)

/-- One iteration of the `while i < num_elems` loop of
`generate_lut_<type>`: `exp_tbl[i] = value; log_tbl[value] = i as isize;`
then advance the LFSR. -/
def lutStep (w POLY : Nat) (s : ((Nat → Nat) × (Nat → Int)) × Nat) (i : Nat) :
    ((Nat → Nat) × (Nat → Int)) × Nat :=
  ((updN s.1.1 i s.2, updZ s.1.2 s.2 (i : Int)), lfsrStep w POLY s.2)

/-- The tables produced by `generate_lut_<type>` for storage width `w` and
polynomial `POLY` (the loop runs `num_elems = 2^M - 1` times). -/
def lutState (w POLY : Nat) : ((Nat → Nat) × (Nat → Int)) × Nat :=
  (List.range (2 ^ degM POLY - 1)).foldl (lutStep w POLY) lutInit

/-- `TABLES.exp_tbl` of the table backend. -/
def lutExp (w POLY i : Nat) : Nat := (lutState w POLY).1.1 i

/-- `TABLES.log_tbl` of the table backend. -/
def lutLog (w POLY v : Nat) : Int := (lutState w POLY).1.2 v

/-- Translation of `alpha_pow`: normalise the isize exponent into
`[0, NUM_ELEM - 1)` by mod, add, mod, then read the exponent table.
(The Rust `%` is a truncating remainder; the three-step normalisation makes
the result equal to the Euclidean remainder used here.) -/
def alpha_pow (w POLY : Nat) (power : Int) : Nat :=
  let q : Int := ((2 ^ degM POLY : Nat) : Int) - 1
  lutExp w POLY (((power % q + q) % q).toNat)

/-- Translation of `impl Mul for GF<type>` of the table backend. -/
def lutMul (w POLY a b : Nat) : Nat :=
  if a = 0 ∨ b = 0 then 0
  else alpha_pow w POLY (lutLog w POLY a + lutLog w POLY b)

/-- Translation of `impl Div for GF<type>` of the table backend; the
`panic!("Divide by 0")` is modelled by `none`. -/
def lutDiv (w POLY a b : Nat) : Option Nat :=
  if b = 0 then none
  else if a = 0 then some 0
  else some (alpha_pow w POLY (lutLog w POLY a - lutLog w POLY b))

/-- Translation of `inverse` of the table backend:
`alpha_pow(DEGREE_MOD - log_alpha(self))`, panic (here `none`) on zero. -/
def lutInverse (w POLY a : Nat) : Option Nat :=
  if a = 0 then none
  else some (alpha_pow w POLY ((((2 ^ degM POLY : Nat) : Int) - 1) - lutLog w POLY a))

/-- `u128::count_ones`: the number of set bits. -/
def popCount (n : Nat) : Nat :=
  (List.range (sizeN n)).countP fun i => n.testBit i

/-- Translation of `validate` of the table backend: `true` means the checks
pass (the Rust function panics on failure).  `0x3` is accepted outright;
then even polynomials (`0` is a root), polynomials with an even number of
set bits (`1` is a root), and polynomials whose exponent table contains the
value `1` at an index in `[2, NUM_ELEM)` (irreducible but not primitive)
are rejected. -/
def lutValidate (w POLY : Nat) : Bool :=
  if POLY = 3 then true
  else if POLY % 2 = 0 then false
  else if popCount POLY % 2 = 0 then false
  else !((List.range' 2 (2 ^ degM POLY - 2)).any fun i => lutExp w POLY i == 1)

/-- The powers of the generator element `alpha` (value `2`) under the field
multiplication of the instantiation `(w, POLY)`. -/
def alphaPow (w POLY : Nat) : Nat → Nat
  | 0 => 1
  | i + 1 => gfMul w POLY 2 (alphaPow w POLY i)

/-- The GF(2) polynomial denoted by a natural number: bit `i` is the
coefficient of `X ^ i`.  (Proof-side bridge to Mathlib polynomials; the
executable embedding of the code never uses it.) -/
noncomputable def toPoly (x : Nat) : Polynomial (ZMod 2) :=
  ∑ i ∈ Finset.range (sizeN x), Polynomial.monomial i (if x.testBit i then 1 else 0)

/-- `POLY` is a primitive polynomial: it is irreducible over GF(2) and the
class of `X` in GF(2)[X]/(POLY) has multiplicative order `2^M - 1`, i.e.
no earlier power of `X` is congruent to `1`. -/
def IsPrimitivePoly (POLY : Nat) : Prop :=
  Irreducible (toPoly POLY) ∧
  ∀ d, 0 < d → d < 2 ^ degM POLY - 1 → ¬ toPoly POLY ∣ (Polynomial.X ^ d + 1)

/-- The class of the stored value in the quotient ring
GF(2)[X]/(POLY) (proof-side bridge; `phi` is a ring-sized reading of the
stored bits). -/
noncomputable def phi (POLY x : Nat) :
    Polynomial (ZMod 2) ⧸ Ideal.span {toPoly POLY} :=
  Ideal.Quotient.mk (Ideal.span {toPoly POLY}) (toPoly x)

/-- The log table, restricted to the nonzero elements, is a bijection onto
`[0, NUM_ELEM - 1)`: it lands in that interval, is injective, and attains
every index. -/
def LogBij (w POLY : Nat) : Prop :=
  (∀ v, 1 ≤ v → v < 2 ^ degM POLY →
    0 ≤ lutLog w POLY v ∧ lutLog w POLY v < ((2 ^ degM POLY - 1 : Nat) : Int)) ∧
  (∀ v v', 1 ≤ v → v < 2 ^ degM POLY → 1 ≤ v' → v' < 2 ^ degM POLY →
    lutLog w POLY v = lutLog w POLY v' → v = v') ∧
  (∀ i : Nat, i < 2 ^ degM POLY - 1 →
    ∃ v, 1 ≤ v ∧ v < 2 ^ degM POLY ∧ lutLog w POLY v = (i : Int))

/-! ### Basic facts about `sizeN` (the bit length) -/

theorem sizeAux_succ (f n : Nat) :
    sizeAux (f + 1) n = if n = 0 then 0 else sizeAux f (n / 2) + 1 := rfl

theorem sizeAux_fuel_irrel : ∀ f g n : Nat, n ≤ f → n ≤ g → sizeAux f n = sizeAux g n := by
  intro f
  induction f with
  | zero =>
    intro g n hf _
    interval_cases n
    cases g <;> simp [sizeAux]
  | succ f ih =>
    intro g n hf hg
    rcases g with _ | g
    · interval_cases n
      simp [sizeAux]
    · by_cases hn : n = 0
      · simp [sizeAux, hn]
      · simp only [sizeAux_succ, if_neg hn]
        have h1 : n / 2 ≤ f := by omega
        have h2 : n / 2 ≤ g := by omega
        rw [ih g (n / 2) h1 h2]

theorem sizeN_zero : sizeN 0 = 0 := rfl

theorem sizeN_rec (n : Nat) (h : n ≠ 0) : sizeN n = sizeN (n / 2) + 1 := by
  rcases n with _ | m
  · exact absurd rfl h
  · show sizeAux (m + 1) (m + 1) = sizeAux ((m + 1) / 2) ((m + 1) / 2) + 1
    rw [sizeAux_succ, if_neg h]
    congr 1
    exact sizeAux_fuel_irrel m ((m + 1) / 2) ((m + 1) / 2) (by omega) le_rfl

theorem lt_two_pow_sizeN (n : Nat) : n < 2 ^ sizeN n := by
  induction n using Nat.strong_induction_on with
  | _ n ih =>
    by_cases h : n = 0
    · subst h; simp [sizeN_zero]
    · rw [sizeN_rec n h, pow_succ]
      have := ih (n / 2) (Nat.div_lt_self (Nat.pos_of_ne_zero h) Nat.one_lt_two)
      omega

theorem sizeN_le_of_lt_two_pow {n k : Nat} (h : n < 2 ^ k) : sizeN n ≤ k := by
  induction n using Nat.strong_induction_on generalizing k with
  | _ n ih =>
    by_cases h0 : n = 0
    · subst h0; simp [sizeN_zero]
    · have hk : k ≠ 0 := by
        intro hk0
        subst hk0
        simp only [pow_zero] at h
        omega
      rw [sizeN_rec n h0]
      have h2k : 2 ^ k = 2 * 2 ^ (k - 1) := by
        conv => lhs; rw [show k = (k - 1) + 1 by omega]
        rw [pow_succ]; ring
      have hrec : n / 2 < 2 ^ (k - 1) → sizeN (n / 2) ≤ k - 1 :=
        ih (n / 2) (Nat.div_lt_self (Nat.pos_of_ne_zero h0) Nat.one_lt_two)
      have := hrec (by omega)
      omega

theorem sizeN_le {n k : Nat} : sizeN n ≤ k ↔ n < 2 ^ k :=
  ⟨fun h => lt_of_lt_of_le (lt_two_pow_sizeN n)
    (Nat.pow_le_pow_right (by omega) h), sizeN_le_of_lt_two_pow⟩

theorem sizeN_eq_zero {n : Nat} : sizeN n = 0 ↔ n = 0 := by
  constructor
  · intro h
    have := lt_two_pow_sizeN n
    rw [h] at this
    simpa using this
  · rintro rfl; rfl

theorem sizeN_pos {n : Nat} (h : n ≠ 0) : 0 < sizeN n := by
  rcases Nat.eq_zero_or_pos (sizeN n) with h0 | h0
  · exact absurd (sizeN_eq_zero.mp h0) h
  · exact h0

theorem two_pow_sizeN_sub_one_le {n : Nat} (h : n ≠ 0) : 2 ^ (sizeN n - 1) ≤ n := by
  by_contra hc
  have := sizeN_le_of_lt_two_pow (Nat.lt_of_not_le hc)
  have := sizeN_pos h
  omega

theorem sizeN_two_pow (k : Nat) : sizeN (2 ^ k) = k + 1 := by
  have h1 : sizeN (2 ^ k) ≤ k + 1 := sizeN_le_of_lt_two_pow (by
    have : 2 ^ k < 2 ^ (k + 1) := Nat.pow_lt_pow_right (by omega) (by omega)
    exact this)
  have h2 : ¬ sizeN (2 ^ k) ≤ k := by
    rw [sizeN_le]
    omega
  omega

theorem testBit_sizeN_sub_one {n : Nat} (h : n ≠ 0) :
    Nat.testBit n (sizeN n - 1) = true := by
  rw [Nat.testBit_to_div_mod]
  have h1 : 2 ^ (sizeN n - 1) ≤ n := two_pow_sizeN_sub_one_le h
  have h2 : n < 2 ^ sizeN n := lt_two_pow_sizeN n
  have h3 : 2 ^ sizeN n = 2 * 2 ^ (sizeN n - 1) := by
    conv => lhs; rw [show sizeN n = (sizeN n - 1) + 1 by
      have := sizeN_pos h; omega]
    rw [pow_succ]; ring
  have h4 : n / 2 ^ (sizeN n - 1) = 1 := by
    apply Nat.div_eq_of_lt_le
    · simpa using h1
    · omega
  simp [h4]

/-! ### Bit manipulation helper lemmas -/

theorem xor_mod_two_pow (x y n : Nat) : (x ^^^ y) % 2 ^ n = x % 2 ^ n ^^^ y % 2 ^ n := by
  apply Nat.eq_of_testBit_eq
  intro i
  by_cases h : i < n <;>
    simp [Nat.testBit_mod_two_pow, Nat.testBit_xor, h]

theorem or_mod_two_pow (x y n : Nat) : (x ||| y) % 2 ^ n = x % 2 ^ n ||| y % 2 ^ n := by
  apply Nat.eq_of_testBit_eq
  intro i
  by_cases h : i < n <;>
    simp [Nat.testBit_mod_two_pow, Nat.testBit_or, h]

theorem and_two_pow_sub_one (x n : Nat) : x &&& (2 ^ n - 1) = x % 2 ^ n := by
  apply Nat.eq_of_testBit_eq
  intro i
  by_cases h : i < n <;>
    simp [Nat.testBit_mod_two_pow, Nat.testBit_and, h]

theorem shiftLeft_one_eq (x : Nat) : x <<< 1 = 2 * x := by
  rw [Nat.shiftLeft_eq]
  ring

theorem two_mul_xor (x y : Nat) : 2 * (x ^^^ y) = 2 * x ^^^ 2 * y := by
  simp only [← shiftLeft_one_eq]
  apply Nat.eq_of_testBit_eq
  intro i
  simp [Nat.testBit_shiftLeft, Nat.testBit_xor, Bool.and_xor_distrib_left]

theorem testBit_bit_lt_two (b i : Nat) (hb : b < 2) :
    Nat.testBit b (i + 1) = false :=
  Nat.testBit_lt_two_pow (by
    calc b < 2 ^ 1 := by simpa using hb
      _ ≤ 2 ^ (i + 1) := Nat.pow_le_pow_right (by omega) (by omega))

theorem testBit_two_mul_add_bit_zero (x b : Nat) (hb : b < 2) :
    Nat.testBit (2 * x + b) 0 = decide (b = 1) := by
  rw [Nat.testBit_to_div_mod]
  simp only [pow_zero, Nat.div_one]
  interval_cases b <;> simp [Nat.mul_add_mod]

theorem testBit_two_mul_add_bit_succ (x b i : Nat) (hb : b < 2) :
    Nat.testBit (2 * x + b) (i + 1) = Nat.testBit x i := by
  rw [Nat.testBit_to_div_mod, Nat.testBit_to_div_mod]
  have hdiv : (2 * x + b) / 2 ^ (i + 1) = x / 2 ^ i := by
    rw [pow_succ, mul_comm (2 ^ i) 2, ← Nat.div_div_eq_div_mul]
    congr 1
    omega
  rw [hdiv]

theorem testBit_two_mul_zero (x : Nat) : Nat.testBit (2 * x) 0 = false := by
  have := testBit_two_mul_add_bit_zero x 0 (by omega)
  simpa using this

theorem testBit_two_mul_succ (x i : Nat) :
    Nat.testBit (2 * x) (i + 1) = Nat.testBit x i := by
  have := testBit_two_mul_add_bit_succ x 0 i (by omega)
  simpa using this

theorem two_mul_or_bit (x b : Nat) (hb : b < 2) : 2 * x ||| b = 2 * x + b := by
  apply Nat.eq_of_testBit_eq
  intro i
  rcases i with _ | i
  · rw [testBit_two_mul_add_bit_zero x b hb]
    interval_cases b <;> simp [Nat.testBit_or, testBit_two_mul_zero]
  · rw [testBit_two_mul_add_bit_succ x b i hb]
    simp [Nat.testBit_or, testBit_two_mul_succ, testBit_bit_lt_two b i hb]

theorem two_mul_xor_bit (x b : Nat) (hb : b < 2) : 2 * x ^^^ b = 2 * x + b := by
  apply Nat.eq_of_testBit_eq
  intro i
  rcases i with _ | i
  · rw [testBit_two_mul_add_bit_zero x b hb]
    interval_cases b <;> simp [Nat.testBit_xor, testBit_two_mul_zero] <;> omega
  · rw [testBit_two_mul_add_bit_succ x b i hb]
    simp [Nat.testBit_xor, testBit_two_mul_succ, testBit_bit_lt_two b i hb]


/-! ### `cmul` equations and its relation to `clmul` -/

theorem cmulAux_fuel_irrel : ∀ f g a b : Nat, b ≤ f → b ≤ g → cmulAux f a b = cmulAux g a b := by
  intro f
  induction f with
  | zero =>
    intro g a b hf _
    interval_cases b
    cases g <;> simp [cmulAux]
  | succ f ih =>
    intro g a b hf hg
    rcases g with _ | g
    · interval_cases b
      simp [cmulAux]
    · by_cases hb : b = 0
      · simp [cmulAux, hb]
      · simp only [cmulAux, if_neg hb]
        congr 1
        exact ih g (2 * a) (b / 2) (by omega) (by omega)

theorem cmul_rec (a b : Nat) :
    cmul a b = if b = 0 then 0 else (if b % 2 = 1 then a else 0) ^^^ cmul (2 * a) (b / 2) := by
  by_cases hb : b = 0
  · simp [cmul, hb, cmulAux]
  · rcases b with _ | m
    · exact absurd rfl hb
    · show cmulAux (m + 1) a (m + 1) = _
      rw [if_neg hb]
      simp only [cmulAux, if_neg hb]
      congr 1
      exact cmulAux_fuel_irrel m ((m + 1) / 2) (2 * a) ((m + 1) / 2) (by omega) le_rfl

theorem cmul_zero_right (a : Nat) : cmul a 0 = 0 := rfl

theorem cmul_zero_left (b : Nat) : cmul 0 b = 0 := by
  induction b using Nat.strong_induction_on with
  | _ b ih =>
    rw [cmul_rec]
    by_cases hb : b = 0
    · simp [hb]
    · rw [if_neg hb]
      have h2 := ih (b / 2) (Nat.div_lt_self (Nat.pos_of_ne_zero hb) Nat.one_lt_two)
      rw [Nat.mul_zero, h2]
      by_cases hm : b % 2 = 1 <;> simp [hm]

theorem cmul_one_right (a : Nat) : cmul a 1 = a := by
  rw [cmul_rec]
  norm_num
  rw [cmul_zero_right]
  simp

theorem cmul_two_mul_left (b : Nat) : ∀ a, cmul (2 * a) b = 2 * cmul a b := by
  induction b using Nat.strong_induction_on with
  | _ b ih =>
    intro a
    by_cases hb : b = 0
    · simp [hb, cmul_zero_right]
    · rw [cmul_rec (2 * a) b, cmul_rec a b, if_neg hb, if_neg hb, two_mul_xor]
      have h1 : cmul (2 * (2 * a)) (b / 2) = 2 * cmul (2 * a) (b / 2) :=
        ih (b / 2) (Nat.div_lt_self (Nat.pos_of_ne_zero hb) Nat.one_lt_two) (2 * a)
      rw [h1]
      congr 1
      by_cases hm : b % 2 = 1 <;> simp [hm]

theorem foldl_xor_init (g : Nat → Nat) (p : Nat → Bool) (L : List Nat) :
    ∀ c0 : Nat, L.foldl (fun c i => if p i then c ^^^ g i else c) c0
      = c0 ^^^ L.foldl (fun c i => if p i then c ^^^ g i else c) 0 := by
  induction L with
  | nil => intro c0; simp
  | cons x L ih =>
    intro c0
    simp only [List.foldl_cons]
    rw [ih (if p x then c0 ^^^ g x else c0), ih (if p x then 0 ^^^ g x else 0)]
    by_cases hp : p x <;> simp [hp, Nat.xor_assoc]

theorem shiftLeft_succ_eq (a i : Nat) : a <<< (i + 1) = (2 * a) <<< i := by
  rw [Nat.shiftLeft_eq, Nat.shiftLeft_eq, pow_succ]
  ring

theorem genConv_succ (a b n : Nat) :
    genConv a b (n + 1) = (if b.testBit 0 then a else 0) ^^^ genConv (2 * a) (b / 2) n := by
  rw [genConv, List.range_succ_eq_map]
  simp only [List.foldl_cons, List.foldl_map]
  have hstep : (fun (c i : Nat) => if b.testBit (Nat.succ i) then c ^^^ (a <<< Nat.succ i) else c)
      = (fun (c i : Nat) => if (b / 2).testBit i then c ^^^ ((2 * a) <<< i) else c) := by
    funext c i
    rw [Nat.testBit_add_one, shiftLeft_succ_eq]
  rw [hstep]
  rw [foldl_xor_init (fun i => (2 * a) <<< i) (fun i => (b / 2).testBit i)]
  rw [genConv]
  by_cases h0 : b.testBit 0 <;> simp [h0]

theorem genConv_eq_cmul : ∀ n a b : Nat, b < 2 ^ n → genConv a b n = cmul a b := by
  intro n
  induction n with
  | zero =>
    intro a b hb
    simp only [pow_zero] at hb
    interval_cases b
    simp [genConv, cmul_zero_right]
  | succ n ih =>
    intro a b hb
    rw [genConv_succ, cmul_rec]
    by_cases hb0 : b = 0
    · subst hb0
      have h0 : genConv (2 * a) 0 n = cmul (2 * a) 0 :=
        ih (2 * a) 0 (Nat.pos_pow_of_pos _ (by omega))
      rw [cmul_zero_right] at h0
      simp [h0]
    · rw [if_neg hb0]
      have hdiv : b / 2 < 2 ^ n := by
        have h2 : (2 : Nat) ^ (n + 1) = 2 * 2 ^ n := by rw [pow_succ]; ring
        omega
      rw [ih (2 * a) (b / 2) hdiv]
      congr 1
      rcases Nat.mod_two_eq_zero_or_one b with hm | hm <;> simp [hm]

theorem clmul_eq_genConv (w a b : Nat) (ha : a ≤ 2 ^ w) : clmul w a b = genConv a b w := by
  rw [clmul, genConv]
  apply List.foldl_ext
  intro c i hi
  rw [List.mem_range] at hi
  have h1 : 0 < (b >>> i) &&& 1 ↔ b.testBit i := by
    rw [Nat.and_one_is_mod, Nat.shiftRight_eq_div_pow, Nat.testBit_to_div_mod]
    constructor
    · intro h; simp; omega
    · intro h; simp at h; omega
  have h2 : (a <<< i) % 2 ^ (2 * w) = a <<< i := by
    apply Nat.mod_eq_of_lt
    rw [Nat.shiftLeft_eq]
    calc a * 2 ^ i < 2 ^ w * 2 ^ w := by
          apply Nat.mul_lt_mul_of_le_of_lt ha (Nat.pow_lt_pow_right (by omega) hi)
          exact Nat.pos_pow_of_pos _ (by omega)
      _ = 2 ^ (2 * w) := by rw [← pow_add]; congr 1; ring
  by_cases hbit : b.testBit i
  · rw [if_pos (h1.mpr hbit), if_pos hbit, h2]
  · rw [if_neg (fun hc => hbit (h1.mp hc)), if_neg hbit]

theorem clmul_eq_cmul (w a b : Nat) (ha : a ≤ 2 ^ w) (hb : b < 2 ^ w) :
    clmul w a b = cmul a b := by
  rw [clmul_eq_genConv w a b ha, genConv_eq_cmul w a b hb]

theorem clmul_lt (w a b : Nat) : clmul w a b < 2 ^ (2 * w) := by
  rw [clmul]
  have h : ∀ L : List Nat, ∀ c, c < 2 ^ (2 * w) →
      L.foldl (fun c i => if 0 < (b >>> i) &&& 1 then c ^^^ ((a <<< i) % 2 ^ (2 * w)) else c) c
        < 2 ^ (2 * w) := by
    intro L
    induction L with
    | nil => intro c hc; simpa using hc
    | cons x L ih =>
      intro c hc
      simp only [List.foldl_cons]
      apply ih
      by_cases hx : 0 < (b >>> x) &&& 1
      · rw [if_pos hx]
        exact Nat.xor_lt_two_pow hc (Nat.mod_lt _ (Nat.pos_pow_of_pos _ (by omega)))
      · rw [if_neg hx]; exact hc
  exact h (List.range w) 0 (Nat.pos_pow_of_pos _ (by omega))

/-- C4: for all `W`-bit operands `a`, `b`, `clmul(a, b)` returns the
`2W`-bit XOR-convolution — the XOR over all bit positions `i` where bit
`i` of `b` is set of `a` left-shifted by `i` bits with no carry
propagation, i.e. the carry-less product `cmul` — and the concrete test
vectors hold: `clmul(0xF, 0x81) = 0x078F` (u8), `clmul(0xF, 0x8001) =
0x7800F` (u16), and the `u128` case `clmul(0xF, 2^127 + 1)` yields the
`U256` with lower half `0x8000_0000_0000_0000_0000_0000_0000_000F` and
upper half `0x7`. -/
theorem claim_C4 :
    (∀ w a b : Nat, a < 2 ^ w → b < 2 ^ w →
      clmul w a b = cmul a b ∧ clmul w a b < 2 ^ (2 * w)) ∧
    clmul 8 0xF 0x81 = 0x078F ∧
    clmul 16 0xF 0x8001 = 0x7800F ∧
    clmul128 0xF 0x80000000000000000000000000000001 =
      ⟨0x8000000000000000000000000000000F, 0x7⟩ := by
  refine ⟨fun w a b ha hb => ⟨clmul_eq_cmul w a b (le_of_lt ha) hb, clmul_lt w a b⟩,
    ?_, ?_, ?_⟩
  · decide
  · decide
  · decide

/-- Witness for C4 at the concrete input `w = 8`, `a = 3`, `b = 5`. -/
theorem claim_C4_witness :
    clmul 8 3 5 = cmul 3 5 ∧ clmul 8 3 5 < 2 ^ (2 * 8) :=
  claim_C4.1 8 3 5 (by decide) (by decide)

/-! ### The bridge `toPoly` into GF(2)[X] -/

theorem coeff_toPoly (x n : Nat) :
    (toPoly x).coeff n = if x.testBit n then 1 else 0 := by
  rw [toPoly, Polynomial.finset_sum_coeff]
  simp only [Polynomial.coeff_monomial]
  rw [Finset.sum_ite_eq' (Finset.range (sizeN x)) n
    (fun i => if x.testBit i then (1 : ZMod 2) else 0)]
  by_cases h : n < sizeN x
  · simp [Finset.mem_range, h]
  · rw [if_neg (by simpa using h)]
    have hbit : x.testBit n = false := Nat.testBit_lt_two_pow
      (lt_of_lt_of_le (lt_two_pow_sizeN x) (Nat.pow_le_pow_right (by omega) (by omega)))
    simp [hbit]

theorem toPoly_zero : toPoly 0 = 0 := by
  simp [toPoly, sizeN_zero]

theorem toPoly_one : toPoly 1 = 1 := by
  rw [toPoly, show sizeN 1 = 1 from rfl, Finset.sum_range_one,
    show Nat.testBit 1 0 = true from by decide]
  simp

theorem toPoly_two : toPoly 2 = Polynomial.X := by
  rw [toPoly, show sizeN 2 = 2 from rfl, Finset.sum_range_succ, Finset.sum_range_one,
    show Nat.testBit 2 0 = false from by decide, show Nat.testBit 2 1 = true from by decide]
  simp [Polynomial.monomial_one_one_eq_X]

theorem toPoly_inj : Function.Injective toPoly := by
  intro x y h
  apply Nat.eq_of_testBit_eq
  intro i
  have hc := congrArg (fun p => Polynomial.coeff p i) h
  simp only [coeff_toPoly] at hc
  cases hx : x.testBit i <;> cases hy : y.testBit i <;> rw [hx, hy] at hc <;>
    simp at hc ⊢

theorem toPoly_eq_zero {x : Nat} : toPoly x = 0 ↔ x = 0 := by
  constructor
  · intro h
    apply toPoly_inj
    rw [h, toPoly_zero]
  · rintro rfl; exact toPoly_zero

theorem toPoly_ne_zero {x : Nat} (hx : x ≠ 0) : toPoly x ≠ 0 :=
  fun h => hx (toPoly_eq_zero.mp h)

theorem toPoly_xor (x y : Nat) : toPoly (x ^^^ y) = toPoly x + toPoly y := by
  apply Polynomial.ext
  intro n
  rw [Polynomial.coeff_add, coeff_toPoly, coeff_toPoly, coeff_toPoly, Nat.testBit_xor]
  cases hx : x.testBit n <;> cases hy : y.testBit n <;> simp [hx, hy] <;> decide

theorem toPoly_two_mul (x : Nat) : toPoly (2 * x) = Polynomial.X * toPoly x := by
  apply Polynomial.ext
  intro n
  rcases n with _ | i
  · rw [coeff_toPoly, testBit_two_mul_zero, Polynomial.coeff_X_mul_zero]
    simp
  · rw [coeff_toPoly, testBit_two_mul_succ, Polynomial.coeff_X_mul, coeff_toPoly]

theorem toPoly_cmul (b : Nat) : ∀ a, toPoly (cmul a b) = toPoly a * toPoly b := by
  induction b using Nat.strong_induction_on with
  | _ b ih =>
    intro a
    by_cases hb : b = 0
    · subst hb
      rw [cmul_zero_right, toPoly_zero, mul_zero]
    · rw [cmul_rec, if_neg hb, toPoly_xor]
      have hIH : toPoly (cmul (2 * a) (b / 2)) = toPoly (2 * a) * toPoly (b / 2) :=
        ih (b / 2) (Nat.div_lt_self (Nat.pos_of_ne_zero hb) Nat.one_lt_two) (2 * a)
      rw [hIH, toPoly_two_mul]
      have hb2 : b = 2 * (b / 2) ^^^ b % 2 := by
        rw [two_mul_xor_bit (b / 2) (b % 2) (Nat.mod_lt _ (by omega))]
        omega
      have hbp : toPoly b = Polynomial.X * toPoly (b / 2) + toPoly (b % 2) := by
        conv => lhs; rw [hb2]
        rw [toPoly_xor, toPoly_two_mul]
      rw [hbp, mul_add]
      have hlow : toPoly (if b % 2 = 1 then a else 0) = toPoly a * toPoly (b % 2) := by
        rcases Nat.mod_two_eq_zero_or_one b with hm | hm <;> rw [hm]
        · rw [if_neg (by omega), toPoly_zero, mul_zero]
        · rw [if_pos rfl, toPoly_one, mul_one]
      rw [hlow]
      ring

theorem natDegree_toPoly {x : Nat} (hx : x ≠ 0) :
    (toPoly x).natDegree = sizeN x - 1 := by
  apply le_antisymm
  · rw [Polynomial.natDegree_le_iff_coeff_eq_zero]
    intro N hN
    rw [coeff_toPoly]
    have hsz : 0 < sizeN x := sizeN_pos hx
    have hbit : x.testBit N = false := Nat.testBit_lt_two_pow
      (lt_of_lt_of_le (lt_two_pow_sizeN x) (Nat.pow_le_pow_right (by omega) (by omega)))
    simp [hbit]
  · apply Polynomial.le_natDegree_of_ne_zero
    rw [coeff_toPoly, testBit_sizeN_sub_one hx]
    simp only [if_pos]
    decide

theorem natDegree_toPoly_lt {r k : Nat} (h : r < 2 ^ k) (hk : 0 < k) :
    (toPoly r).natDegree < k := by
  by_cases hr : r = 0
  · subst hr; rw [toPoly_zero]; simpa using hk
  · rw [natDegree_toPoly hr]
    have h1 := sizeN_le_of_lt_two_pow h
    have h2 := sizeN_pos hr
    omega

theorem poly_add_self (p : Polynomial (ZMod 2)) : p + p = 0 := by
  have h2 : (1 + 1 : Polynomial (ZMod 2)) = 0 := by
    rw [← Polynomial.C_1, ← Polynomial.C_add,
      show (1 + 1 : ZMod 2) = 0 from by decide, Polynomial.C_0]
  calc p + p = (1 + 1) * p := by ring
    _ = 0 := by rw [h2]; ring

theorem cmul_division_unique {D q1 r1 q2 r2 : Nat} (hD : D ≠ 0)
    (h1 : r1 < 2 ^ (sizeN D - 1)) (h2 : r2 < 2 ^ (sizeN D - 1))
    (he : cmul q1 D ^^^ r1 = cmul q2 D ^^^ r2) : q1 = q2 ∧ r1 = r2 := by
  have hpoly : toPoly q1 * toPoly D + toPoly r1 = toPoly q2 * toPoly D + toPoly r2 := by
    rw [← toPoly_cmul, ← toPoly_cmul, ← toPoly_xor, ← toPoly_xor, he]
  have hq12 : q1 = q2 := by
    by_contra hq
    have hqp : toPoly q1 - toPoly q2 ≠ 0 := by
      intro h0
      exact hq (toPoly_inj (sub_eq_zero.mp h0))
    have hkey : (toPoly q1 - toPoly q2) * toPoly D = toPoly r2 - toPoly r1 := by
      linear_combination hpoly
    by_cases hM : sizeN D - 1 = 0
    · have hr1 : r1 = 0 := by rw [hM] at h1; simpa using h1
      have hr2 : r2 = 0 := by rw [hM] at h2; simpa using h2
      subst hr1; subst hr2
      rw [toPoly_zero, sub_zero, ← toPoly_zero] at hkey
      rcases mul_eq_zero.mp (by rw [hkey, toPoly_zero]) with h | h
      · exact hqp h
      · exact toPoly_ne_zero hD h
    · have hMpos : 0 < sizeN D - 1 := Nat.pos_of_ne_zero hM
      have hrne : toPoly r2 - toPoly r1 ≠ 0 := by
        intro h0
        rw [h0] at hkey
        rcases mul_eq_zero.mp hkey with h | h
        · exact hqp h
        · exact toPoly_ne_zero hD h
      have hlhs : sizeN D - 1 ≤ ((toPoly q1 - toPoly q2) * toPoly D).natDegree := by
        rw [Polynomial.natDegree_mul hqp (toPoly_ne_zero hD), natDegree_toPoly hD]
        omega
      have hrhs : (toPoly r2 - toPoly r1).natDegree < sizeN D - 1 := by
        calc (toPoly r2 - toPoly r1).natDegree
            ≤ max (toPoly r2).natDegree (toPoly r1).natDegree :=
              Polynomial.natDegree_sub_le _ _
          _ < sizeN D - 1 := by
              have hb1 := natDegree_toPoly_lt h1 hMpos
              have hb2 := natDegree_toPoly_lt h2 hMpos
              omega
      rw [hkey] at hlhs
      omega
  refine ⟨hq12, ?_⟩
  subst hq12
  have : r1 = cmul q1 D ^^^ (cmul q1 D ^^^ r1) := by
    rw [← Nat.xor_assoc, Nat.xor_self, Nat.zero_xor]
  rw [this, he, ← Nat.xor_assoc, Nat.xor_self, Nat.zero_xor]

theorem cmul_ne_zero {a b : Nat} (ha : a ≠ 0) (hb : b ≠ 0) : cmul a b ≠ 0 := by
  intro h
  have := toPoly_cmul b a
  rw [h, toPoly_zero] at this
  rcases mul_eq_zero.mp this.symm with hc | hc
  · exact toPoly_ne_zero ha hc
  · exact toPoly_ne_zero hb hc

theorem sizeN_cmul {a b : Nat} (ha : a ≠ 0) (hb : b ≠ 0) :
    sizeN (cmul a b) = sizeN a + sizeN b - 1 := by
  have hne := cmul_ne_zero ha hb
  have hdeg : (toPoly (cmul a b)).natDegree
      = (toPoly a).natDegree + (toPoly b).natDegree := by
    rw [toPoly_cmul]
    exact Polynomial.natDegree_mul (toPoly_ne_zero ha) (toPoly_ne_zero hb)
  rw [natDegree_toPoly hne, natDegree_toPoly ha, natDegree_toPoly hb] at hdeg
  have h1 := sizeN_pos ha
  have h2 := sizeN_pos hb
  have h3 := sizeN_pos hne
  omega

/-! ### Further `cmul` algebra and split lemmas -/

theorem cmul_xor_left (x y D : Nat) : cmul (x ^^^ y) D = cmul x D ^^^ cmul y D := by
  apply toPoly_inj
  simp only [toPoly_cmul, toPoly_xor]
  ring

theorem cmul_one_left (D : Nat) : cmul 1 D = D := by
  apply toPoly_inj
  simp only [toPoly_cmul, toPoly_one]
  ring

theorem testBit_add_two_pow_mul (x n y i : Nat) (hx : x < 2 ^ n) :
    Nat.testBit (x + 2 ^ n * y) i
      = if i < n then x.testBit i else y.testBit (i - n) := by
  by_cases h : i < n
  · rw [if_pos h, Nat.testBit_to_div_mod, Nat.testBit_to_div_mod]
    have hsplit : 2 ^ n * y = 2 ^ i * (2 ^ (n - i) * y) := by
      rw [← mul_assoc, ← pow_add]
      congr 2
      omega
    rw [hsplit, Nat.add_mul_div_left x _ (Nat.pos_pow_of_pos i (by omega))]
    have heven : 2 ^ (n - i) * y = 2 * (2 ^ (n - i - 1) * y) := by
      rw [← mul_assoc]
      congr 1
      rw [← pow_succ']
      congr 1
      omega
    rw [heven, Nat.add_mul_mod_self_left]
  · rw [if_neg h, Nat.testBit_to_div_mod, Nat.testBit_to_div_mod]
    have hsplit : (2 : Nat) ^ i = 2 ^ n * 2 ^ (i - n) := by
      rw [← pow_add]
      congr 1
      omega
    rw [hsplit, ← Nat.div_div_eq_div_mul,
      Nat.add_mul_div_left x _ (Nat.pos_pow_of_pos n (by omega)),
      Nat.div_eq_of_lt hx, Nat.zero_add]

theorem testBit_two_pow_mul (n y i : Nat) :
    Nat.testBit (2 ^ n * y) i = if i < n then false else y.testBit (i - n) := by
  have := testBit_add_two_pow_mul 0 n y i (Nat.pos_pow_of_pos n (by omega))
  simpa using this

theorem xor_of_split (x n y : Nat) (hx : x < 2 ^ n) : x ^^^ 2 ^ n * y = x + 2 ^ n * y := by
  apply Nat.eq_of_testBit_eq
  intro i
  rw [Nat.testBit_xor, testBit_add_two_pow_mul x n y i hx, testBit_two_pow_mul]
  by_cases h : i < n
  · simp [h]
  · have hbx : x.testBit i = false := Nat.testBit_lt_two_pow
      (lt_of_lt_of_le hx (Nat.pow_le_pow_right (by omega) (by omega)))
    simp [h, hbx]

theorem xor_left_comm_nat (a b c : Nat) : a ^^^ (b ^^^ c) = b ^^^ (a ^^^ c) := by
  rw [← Nat.xor_assoc, Nat.xor_comm a b, Nat.xor_assoc]

/-! ### Correctness of the polynomial long-division loop -/

theorem shiftRight_succ_decomp (x k : Nat) :
    x >>> k = 2 * (x >>> (k + 1)) + ((x >>> k) &&& 1) := by
  rw [Nat.and_one_is_mod, Nat.shiftRight_eq_div_pow x k, Nat.shiftRight_eq_div_pow x (k + 1),
    pow_succ, ← Nat.div_div_eq_div_mul]
  omega

theorem shiftRight_and_one_le (x k : Nat) : (x >>> k) &&& 1 ≤ 1 :=
  Nat.and_le_right

theorem mod_mod_two_pow_of_le (x : Nat) {a b : Nat} (h : a ≤ b) :
    (x % 2 ^ b) % 2 ^ a = x % 2 ^ a :=
  Nat.mod_mod_of_dvd x (pow_dvd_pow 2 h)

theorem two_mul_mod_two_pow (r deg : Nat) (h : 1 ≤ deg) :
    (2 * r) % 2 ^ deg = 2 * (r % 2 ^ (deg - 1)) := by
  have hsplit : (2 : Nat) ^ deg = 2 * 2 ^ (deg - 1) := by
    conv => lhs; rw [show deg = (deg - 1) + 1 by omega]
    rw [pow_succ]; ring
  rw [hsplit, Nat.mul_mod_mul_left]

theorem mod_two_pow_decomp (r d : Nat) :
    r % 2 ^ (d + 1) = r % 2 ^ d + 2 ^ d * ((r / 2 ^ d) % 2) := by
  have h1 : r % 2 ^ (d + 1) / 2 ^ d = (r / 2 ^ d) % 2 := by
    rw [pow_succ]
    exact Nat.mod_mul_right_div_self r (2 ^ d) 2
  have h2 : r % 2 ^ (d + 1) % 2 ^ d = r % 2 ^ d := mod_mod_two_pow_of_le r (by omega)
  have h3 := Nat.div_add_mod (r % 2 ^ (d + 1)) (2 ^ d)
  rw [h1, h2] at h3
  omega



theorem xor5 (a v rl i dm : Nat) :
    (a ^^^ v) ^^^ ((rl ^^^ i) ^^^ dm) = a ^^^ ((rl ^^^ (v ^^^ dm)) ^^^ i) := by
  apply Nat.eq_of_testBit_eq
  intro j
  simp only [Nat.testBit_xor]
  cases a.testBit j <;> cases v.testBit j <;> cases rl.testBit j <;>
    cases i.testBit j <;> cases dm.testBit j <;> rfl

theorem pdLoop_invariant (w dvd dvs mask : Nat)
    (hdvs2 : 2 ≤ dvs) (hdvsw : dvs < 2 ^ w) (hdvdw : dvd < 2 ^ w)
    (hmask : mask % 2 ^ (sizeN dvs - 1) = dvs % 2 ^ (sizeN dvs - 1))
    (hmaskw : mask < 2 ^ w) :
    ∀ k, k ≤ sizeN dvd → ∀ q r, q < 2 ^ (sizeN dvd - k) → r < 2 ^ w →
      cmul q dvs ^^^ (r % 2 ^ (sizeN dvs - 1)) = dvd >>> k →
      cmul (pdLoop w dvd mask (sizeN dvs - 1 - 1) k (q, r)).1 dvs ^^^
        ((pdLoop w dvd mask (sizeN dvs - 1 - 1) k (q, r)).2 % 2 ^ (sizeN dvs - 1)) = dvd ∧
      (pdLoop w dvd mask (sizeN dvs - 1 - 1) k (q, r)).1 < 2 ^ sizeN dvd := by
  have hw2 : 2 ≤ w := by
    by_contra hw
    interval_cases w <;> omega
  have hdegw : sizeN dvs ≤ w := sizeN_le_of_lt_two_pow hdvsw
  have hdeg1 : 2 ≤ sizeN dvs := by
    by_contra hs
    have h1 : sizeN dvs ≤ 1 := by omega
    rw [sizeN_le] at h1
    omega
  have hsdvd : sizeN dvd ≤ w := sizeN_le_of_lt_two_pow hdvdw
  have hdvslt : dvs < 2 ^ (sizeN dvs - 1 + 1) := by
    have h := lt_two_pow_sizeN dvs
    rw [show sizeN dvs - 1 + 1 = sizeN dvs by omega]
    exact h
  have hdvsge : 2 ^ (sizeN dvs - 1) ≤ dvs := two_pow_sizeN_sub_one_le (by omega)
  have hdiv1 : dvs / 2 ^ (sizeN dvs - 1) = 1 := by
    apply Nat.div_eq_of_lt_le
    · simpa using hdvsge
    · rw [pow_succ] at hdvslt
      omega
  have hdvssplit : dvs = dvs % 2 ^ (sizeN dvs - 1) + 2 ^ (sizeN dvs - 1) := by
    have h := Nat.div_add_mod dvs (2 ^ (sizeN dvs - 1))
    rw [hdiv1] at h
    omega
  have hxorsplit : dvs ^^^ dvs % 2 ^ (sizeN dvs - 1) = 2 ^ (sizeN dvs - 1) := by
    have h1 : dvs % 2 ^ (sizeN dvs - 1) ^^^ 2 ^ (sizeN dvs - 1) * 1
        = dvs % 2 ^ (sizeN dvs - 1) + 2 ^ (sizeN dvs - 1) * 1 :=
      xor_of_split _ _ 1 (Nat.mod_lt _ (Nat.pos_pow_of_pos _ (by omega)))
    rw [mul_one] at h1
    rw [← hdvssplit] at h1
    have h2 : dvs ^^^ dvs % 2 ^ (sizeN dvs - 1)
        = (dvs % 2 ^ (sizeN dvs - 1) ^^^ 2 ^ (sizeN dvs - 1)) ^^^ dvs % 2 ^ (sizeN dvs - 1) := by
      rw [h1]
    rw [h2, Nat.xor_comm (dvs % 2 ^ (sizeN dvs - 1)) (2 ^ (sizeN dvs - 1)), Nat.xor_assoc,
      Nat.xor_self, Nat.xor_zero]
  have hdegpos : (1 : Nat) < 2 ^ (sizeN dvs - 1) := by
    have h : (2 : Nat) ^ 1 ≤ 2 ^ (sizeN dvs - 1) := Nat.pow_le_pow_right (by omega) (by omega)
    omega
  intro k
  induction k with
  | zero =>
    intro _ q r hq hr hinv
    rw [Nat.shiftRight_zero] at hinv
    exact ⟨hinv, by simpa using hq⟩
  | succ k ih =>
    intro hk1 q r hq hr hinv
    have hk : k ≤ sizeN dvd := by omega
    have hstep : pdLoop w dvd mask (sizeN dvs - 1 - 1) (k + 1) (q, r)
        = pdLoop w dvd mask (sizeN dvs - 1 - 1) k
          (if 0 < (r >>> (sizeN dvs - 1 - 1)) &&& 1
             then ((q <<< 1) % 2 ^ w) ||| 1 else (q <<< 1) % 2 ^ w,
           if 0 < (r >>> (sizeN dvs - 1 - 1)) &&& 1
             then (((r <<< 1) % 2 ^ w) ||| ((dvd >>> k) &&& 1)) ^^^ mask
             else ((r <<< 1) % 2 ^ w) ||| ((dvd >>> k) &&& 1)) := rfl
    rw [hstep]
    have hBle : (r >>> (sizeN dvs - 1 - 1)) &&& 1 ≤ 1 := shiftRight_and_one_le _ _
    have hIle : (dvd >>> k) &&& 1 ≤ 1 := shiftRight_and_one_le _ _
    have hssplit : (2 : Nat) ^ (sizeN dvd - k) = 2 * 2 ^ (sizeN dvd - (k + 1)) := by
      conv => lhs; rw [show sizeN dvd - k = (sizeN dvd - (k + 1)) + 1 by omega]
      rw [pow_succ]; ring
    have hq2lt : 2 * q < 2 ^ (sizeN dvd - k) := by omega
    have hq2w : 2 * q < 2 ^ w :=
      lt_of_lt_of_le hq2lt (Nat.pow_le_pow_right (by omega) (by omega))
    have hqshift : (q <<< 1) % 2 ^ w = 2 * q := by
      rw [shiftLeft_one_eq]
      exact Nat.mod_eq_of_lt hq2w
    have hr1mod : (((r <<< 1) % 2 ^ w) ||| ((dvd >>> k) &&& 1)) % 2 ^ (sizeN dvs - 1)
        = 2 * (r % 2 ^ (sizeN dvs - 1 - 1)) ^^^ ((dvd >>> k) &&& 1) := by
      rw [or_mod_two_pow, shiftLeft_one_eq, mod_mod_two_pow_of_le (2 * r) (by omega),
        two_mul_mod_two_pow r (sizeN dvs - 1) (by omega),
        Nat.mod_eq_of_lt (lt_of_le_of_lt hIle hdegpos),
        two_mul_or_bit _ _ (by omega), ← two_mul_xor_bit _ _ (by omega)]
    have hBval : (r >>> (sizeN dvs - 1 - 1)) &&& 1 = (r / 2 ^ (sizeN dvs - 1 - 1)) % 2 := by
      rw [Nat.and_one_is_mod, Nat.shiftRight_eq_div_pow]
    have hRdec : r % 2 ^ (sizeN dvs - 1)
        = r % 2 ^ (sizeN dvs - 1 - 1)
          + 2 ^ (sizeN dvs - 1 - 1) * ((r >>> (sizeN dvs - 1 - 1)) &&& 1) := by
      rw [hBval]
      have h := mod_two_pow_decomp r (sizeN dvs - 1 - 1)
      rw [show sizeN dvs - 1 - 1 + 1 = sizeN dvs - 1 by omega] at h
      exact h
    have hRlow : r % 2 ^ (sizeN dvs - 1 - 1) < 2 ^ (sizeN dvs - 1 - 1) :=
      Nat.mod_lt _ (Nat.pos_pow_of_pos _ (by omega))
    have hdegsplit : (2 : Nat) ^ (sizeN dvs - 1) = 2 * 2 ^ (sizeN dvs - 1 - 1) := by
      conv => lhs; rw [show sizeN dvs - 1 = (sizeN dvs - 1 - 1) + 1 by omega]
      rw [pow_succ]; ring
    have htarget : dvd >>> k = 2 * (dvd >>> (k + 1)) + ((dvd >>> k) &&& 1) :=
      shiftRight_succ_decomp dvd k
    have h2R : 2 * (r % 2 ^ (sizeN dvs - 1))
        = 2 * (r % 2 ^ (sizeN dvs - 1 - 1))
          ^^^ 2 ^ (sizeN dvs - 1) * ((r >>> (sizeN dvs - 1 - 1)) &&& 1) := by
      rw [xor_of_split _ _ _ (by omega)]
      rw [hRdec, hdegsplit]
      ring
    by_cases hbit : 0 < (r >>> (sizeN dvs - 1 - 1)) &&& 1
    · have hB1 : (r >>> (sizeN dvs - 1 - 1)) &&& 1 = 1 := by omega
      rw [if_pos hbit, if_pos hbit]
      have hq1 : ((q <<< 1) % 2 ^ w) ||| 1 = 2 * q + 1 := by
        rw [hqshift]
        exact two_mul_or_bit q 1 (by omega)
      have h2R1 : 2 * (r % 2 ^ (sizeN dvs - 1))
          = 2 * (r % 2 ^ (sizeN dvs - 1 - 1)) ^^^ 2 ^ (sizeN dvs - 1) := by
        rw [h2R, hB1, mul_one]
      refine ih hk _ _ ?_ ?_ ?_
      · rw [hq1]
        omega
      · apply Nat.xor_lt_two_pow _ hmaskw
        apply Nat.or_lt_two_pow (Nat.mod_lt _ (Nat.pos_pow_of_pos _ (by omega)))
        have hh : (2 : Nat) ^ 1 ≤ 2 ^ w := Nat.pow_le_pow_right (by omega) (by omega)
        omega
      · have hq1c : cmul (2 * q + 1) dvs = 2 * cmul q dvs ^^^ dvs := by
          rw [← two_mul_xor_bit q 1 (by omega), cmul_xor_left, cmul_two_mul_left,
            cmul_one_left]
        calc cmul (((q <<< 1) % 2 ^ w) ||| 1) dvs
              ^^^ ((((r <<< 1) % 2 ^ w ||| ((dvd >>> k) &&& 1)) ^^^ mask) % 2 ^ (sizeN dvs - 1))
            = (2 * cmul q dvs ^^^ dvs)
              ^^^ ((2 * (r % 2 ^ (sizeN dvs - 1 - 1)) ^^^ ((dvd >>> k) &&& 1))
                ^^^ dvs % 2 ^ (sizeN dvs - 1)) := by
              rw [hq1, hq1c, xor_mod_two_pow, hr1mod, hmask]
          _ = 2 * cmul q dvs
              ^^^ ((2 * (r % 2 ^ (sizeN dvs - 1 - 1)) ^^^ (dvs ^^^ dvs % 2 ^ (sizeN dvs - 1)))
                ^^^ ((dvd >>> k) &&& 1)) :=
              xor5 (2 * cmul q dvs) dvs (2 * (r % 2 ^ (sizeN dvs - 1 - 1)))
                ((dvd >>> k) &&& 1) (dvs % 2 ^ (sizeN dvs - 1))
          _ = 2 * cmul q dvs
              ^^^ (2 * (r % 2 ^ (sizeN dvs - 1)) ^^^ ((dvd >>> k) &&& 1)) := by
              rw [hxorsplit, ← h2R1]
          _ = 2 * (cmul q dvs ^^^ r % 2 ^ (sizeN dvs - 1)) ^^^ ((dvd >>> k) &&& 1) := by
              rw [two_mul_xor, Nat.xor_assoc]
          _ = 2 * (dvd >>> (k + 1)) ^^^ ((dvd >>> k) &&& 1) := by rw [hinv]
          _ = 2 * (dvd >>> (k + 1)) + ((dvd >>> k) &&& 1) := two_mul_xor_bit _ _ (by omega)
          _ = dvd >>> k := htarget.symm
    · have hB0 : (r >>> (sizeN dvs - 1 - 1)) &&& 1 = 0 := by omega
      rw [if_neg hbit, if_neg hbit]
      refine ih hk _ _ ?_ ?_ ?_
      · rw [hqshift]
        omega
      · apply Nat.or_lt_two_pow (Nat.mod_lt _ (Nat.pos_pow_of_pos _ (by omega)))
        have hh : (2 : Nat) ^ 1 ≤ 2 ^ w := Nat.pow_le_pow_right (by omega) (by omega)
        omega
      · calc cmul ((q <<< 1) % 2 ^ w) dvs
              ^^^ ((((r <<< 1) % 2 ^ w) ||| ((dvd >>> k) &&& 1)) % 2 ^ (sizeN dvs - 1))
            = 2 * cmul q dvs
              ^^^ (2 * (r % 2 ^ (sizeN dvs - 1 - 1)) ^^^ ((dvd >>> k) &&& 1)) := by
              rw [hqshift, cmul_two_mul_left dvs q, hr1mod]
          _ = 2 * cmul q dvs
              ^^^ (2 * (r % 2 ^ (sizeN dvs - 1)) ^^^ ((dvd >>> k) &&& 1)) := by
              rw [h2R, hB0, mul_zero, Nat.xor_zero]
          _ = 2 * (cmul q dvs ^^^ r % 2 ^ (sizeN dvs - 1)) ^^^ ((dvd >>> k) &&& 1) := by
              rw [two_mul_xor, Nat.xor_assoc]
          _ = 2 * (dvd >>> (k + 1)) ^^^ ((dvd >>> k) &&& 1) := by rw [hinv]
          _ = 2 * (dvd >>> (k + 1)) + ((dvd >>> k) &&& 1) := two_mul_xor_bit _ _ (by omega)
          _ = dvd >>> k := htarget.symm

theorem polyDivCore_mask_eq (w dvs : Nat) (hdvs2 : 2 ≤ dvs) (hdvsw : dvs < 2 ^ w) :
    dvs &&& rustNot w ((1 <<< (sizeN dvs - 1)) % 2 ^ w)
      = dvs % 2 ^ (sizeN dvs - 1) := by
  have hdeg1 : 2 ≤ sizeN dvs := by
    by_contra hs
    have h1 : sizeN dvs ≤ 1 := by omega
    rw [sizeN_le] at h1
    omega
  have hdegw : sizeN dvs ≤ w := sizeN_le_of_lt_two_pow hdvsw
  have hsh : (1 <<< (sizeN dvs - 1)) % 2 ^ w = 2 ^ (sizeN dvs - 1) := by
    rw [Nat.shiftLeft_eq, one_mul]
    exact Nat.mod_eq_of_lt (Nat.pow_lt_pow_right (by omega) (by omega))
  rw [hsh, rustNot]
  apply Nat.eq_of_testBit_eq
  intro i
  rw [Nat.testBit_and, Nat.testBit_xor, Nat.testBit_two_pow_sub_one,
    Nat.testBit_two_pow, Nat.testBit_mod_two_pow]
  by_cases hlt : i < sizeN dvs - 1
  · have h1 : i < w := by omega
    have h2 : ¬(sizeN dvs - 1 = i) := by omega
    simp [h1, h2, hlt]
  · by_cases heq : i = sizeN dvs - 1
    · subst heq
      have hw1 : sizeN dvs - 1 < w := by omega
      simp [hlt, hw1]
    · have h3 : sizeN dvs ≤ i := by omega
      have hbit : dvs.testBit i = false := Nat.testBit_lt_two_pow
        (lt_of_lt_of_le (lt_two_pow_sizeN dvs) (Nat.pow_le_pow_right (by omega) h3))
      simp [hbit, hlt]

theorem polyDivCore_one (w dvd : Nat) : polyDivCore w dvd 1 = (dvd, 0) := by
  simp [polyDivCore]

theorem polyDivCore_spec (w dvd dvs : Nat) (hdvs0 : dvs ≠ 0)
    (hdvsw : dvs < 2 ^ w) (hdvdw : dvd < 2 ^ w) :
    dvd = cmul (polyDivCore w dvd dvs).1 dvs ^^^ (polyDivCore w dvd dvs).2 ∧
    (polyDivCore w dvd dvs).2 < 2 ^ (sizeN dvs - 1) ∧
    (polyDivCore w dvd dvs).1 < 2 ^ sizeN dvd := by
  by_cases h1 : dvs = 1
  · subst h1
    rw [polyDivCore_one]
    refine ⟨by rw [cmul_one_right, Nat.xor_zero], by simpa using Nat.one_pos, ?_⟩
    exact lt_two_pow_sizeN dvd
  · have hdvs2 : 2 ≤ dvs := by omega
    have hdeg1 : 2 ≤ sizeN dvs := by
      by_contra hs
      have hx : sizeN dvs ≤ 1 := by omega
      rw [sizeN_le] at hx
      omega
    have hdegw : sizeN dvs ≤ w := sizeN_le_of_lt_two_pow hdvsw
    have hmaskeq := polyDivCore_mask_eq w dvs hdvs2 hdvsw
    have hmaskw : dvs &&& rustNot w ((1 <<< (sizeN dvs - 1)) % 2 ^ w) < 2 ^ w :=
      lt_of_le_of_lt Nat.and_le_left hdvsw
    have hinv0 : cmul 0 dvs ^^^ ((0 : Nat) % 2 ^ (sizeN dvs - 1)) = dvd >>> sizeN dvd := by
      rw [cmul_zero_left, Nat.zero_mod, Nat.xor_zero, Nat.shiftRight_eq_div_pow]
      rw [Nat.div_eq_of_lt (lt_two_pow_sizeN dvd)]
    have hmaskmod : (dvs &&& rustNot w ((1 <<< (sizeN dvs - 1)) % 2 ^ w)) % 2 ^ (sizeN dvs - 1)
        = dvs % 2 ^ (sizeN dvs - 1) := by
      rw [hmaskeq]
      exact Nat.mod_mod_of_dvd dvs dvd_rfl
    have hmain := pdLoop_invariant w dvd dvs
      (dvs &&& rustNot w ((1 <<< (sizeN dvs - 1)) % 2 ^ w))
      hdvs2 hdvsw hdvdw hmaskmod hmaskw (sizeN dvd) le_rfl 0 0
      (by simpa using Nat.one_pos) (Nat.pos_pow_of_pos _ (by omega)) hinv0
    have hsh : (1 <<< (sizeN dvs - 1)) % 2 ^ w = 2 ^ (sizeN dvs - 1) := by
      rw [Nat.shiftLeft_eq, one_mul]
      exact Nat.mod_eq_of_lt (Nat.pow_lt_pow_right (by omega) (by omega))
    have hres : polyDivCore w dvd dvs
        = ((pdLoop w dvd (dvs &&& rustNot w ((1 <<< (sizeN dvs - 1)) % 2 ^ w))
            (sizeN dvs - 1 - 1) (sizeN dvd) (0, 0)).1,
           (pdLoop w dvd (dvs &&& rustNot w ((1 <<< (sizeN dvs - 1)) % 2 ^ w))
            (sizeN dvs - 1 - 1) (sizeN dvd) (0, 0)).2 % 2 ^ (sizeN dvs - 1)) := by
      simp only [polyDivCore, if_neg h1]
      rw [hsh, and_two_pow_sub_one]
    rw [hres]
    exact ⟨hmain.1.symm, Nat.mod_lt _ (Nat.pos_pow_of_pos _ (by omega)), hmain.2⟩

theorem polyDivCore_unique (w dvd dvs q r : Nat) (hdvs0 : dvs ≠ 0)
    (hdvsw : dvs < 2 ^ w) (hdvdw : dvd < 2 ^ w)
    (hr : r < 2 ^ (sizeN dvs - 1)) (he : dvd = cmul q dvs ^^^ r) :
    polyDivCore w dvd dvs = (q, r) := by
  obtain ⟨hid, hrem, _⟩ := polyDivCore_spec w dvd dvs hdvs0 hdvsw hdvdw
  have hu := cmul_division_unique hdvs0 hrem hr (by rw [← hid, ← he])
  rw [Prod.ext_iff]
  exact hu

/-! ### `U256` corresponds to a 256-bit natural number -/

theorem toN_lt {x : U256} (hx : x.Valid) : x.toN < 2 ^ 256 := by
  obtain ⟨hl, hu⟩ := hx
  have h : (2 : Nat) ^ 256 = 2 ^ 128 * 2 ^ 128 := by rw [← pow_add]
  rw [U256.toN]
  calc x.lower + 2 ^ 128 * x.upper < 2 ^ 128 + 2 ^ 128 * x.upper := by omega
    _ ≤ 2 ^ 128 + 2 ^ 128 * (2 ^ 128 - 1) := by
        have := Nat.mul_le_mul_left (2 ^ 128) (show x.upper ≤ 2 ^ 128 - 1 by omega)
        omega
    _ ≤ 2 ^ 256 := by
        rw [h, Nat.mul_sub_one]
        have hpos : 0 < (2 : Nat) ^ 128 := Nat.pos_pow_of_pos _ (by omega)
        have hsq : (2 : Nat) ^ 128 ≤ 2 ^ 128 * 2 ^ 128 := Nat.le_mul_of_pos_left _ hpos
        omega

theorem toN_mod_128 {x : U256} (hx : x.Valid) : x.toN % 2 ^ 128 = x.lower := by
  rw [U256.toN, Nat.add_mul_mod_self_left]
  exact Nat.mod_eq_of_lt hx.1

theorem toN_div_128 {x : U256} (hx : x.Valid) : x.toN / 2 ^ 128 = x.upper := by
  rw [U256.toN, Nat.add_mul_div_left _ _ (Nat.pos_pow_of_pos _ (by omega)),
    Nat.div_eq_of_lt hx.1, Nat.zero_add]

theorem toN_inj {x y : U256} (hx : x.Valid) (hy : y.Valid) (h : x.toN = y.toN) : x = y := by
  have h1 : x.lower = y.lower := by rw [← toN_mod_128 hx, ← toN_mod_128 hy, h]
  have h2 : x.upper = y.upper := by rw [← toN_div_128 hx, ← toN_div_128 hy, h]
  cases x; cases y
  simp_all

theorem toN_eq_zero {x : U256} (hx : x.Valid) : x.toN = 0 ↔ x = ⟨0, 0⟩ := by
  constructor
  · intro h
    exact toN_inj hx ⟨Nat.pos_pow_of_pos _ (by omega), Nat.pos_pow_of_pos _ (by omega)⟩ h
  · rintro rfl; rfl

theorem toN_eq_one {x : U256} (hx : x.Valid) : x.toN = 1 ↔ x = ⟨1, 0⟩ := by
  constructor
  · intro h
    refine toN_inj hx ⟨?_, Nat.pos_pow_of_pos _ (by omega)⟩ h
    have : (1 : Nat) < 2 ^ 128 := by
      have : (2 : Nat) ^ 1 ≤ 2 ^ 128 := Nat.pow_le_pow_right (by omega) (by omega)
      omega
    exact this
  · rintro rfl
    show (1 : Nat) + 2 ^ 128 * 0 = 1
    ring

theorem split_xor (l1 u1 l2 u2 : Nat) (h1 : l1 < 2 ^ 128) (h2 : l2 < 2 ^ 128) :
    (l1 + 2 ^ 128 * u1) ^^^ (l2 + 2 ^ 128 * u2) = (l1 ^^^ l2) + 2 ^ 128 * (u1 ^^^ u2) := by
  apply Nat.eq_of_testBit_eq
  intro i
  rw [Nat.testBit_xor, testBit_add_two_pow_mul _ _ _ _ h1, testBit_add_two_pow_mul _ _ _ _ h2,
    testBit_add_two_pow_mul _ _ _ _ (Nat.xor_lt_two_pow h1 h2)]
  by_cases h : i < 128 <;> simp [h, Nat.testBit_xor]

theorem split_or (l1 u1 l2 u2 : Nat) (h1 : l1 < 2 ^ 128) (h2 : l2 < 2 ^ 128) :
    (l1 + 2 ^ 128 * u1) ||| (l2 + 2 ^ 128 * u2) = (l1 ||| l2) + 2 ^ 128 * (u1 ||| u2) := by
  apply Nat.eq_of_testBit_eq
  intro i
  rw [Nat.testBit_or, testBit_add_two_pow_mul _ _ _ _ h1, testBit_add_two_pow_mul _ _ _ _ h2,
    testBit_add_two_pow_mul _ _ _ _ (Nat.or_lt_two_pow h1 h2)]
  by_cases h : i < 128 <;> simp [h, Nat.testBit_or]

theorem split_and (l1 u1 l2 u2 : Nat) (h1 : l1 < 2 ^ 128) (h2 : l2 < 2 ^ 128) :
    (l1 + 2 ^ 128 * u1) &&& (l2 + 2 ^ 128 * u2) = (l1 &&& l2) + 2 ^ 128 * (u1 &&& u2) := by
  apply Nat.eq_of_testBit_eq
  intro i
  rw [Nat.testBit_and, testBit_add_two_pow_mul _ _ _ _ h1, testBit_add_two_pow_mul _ _ _ _ h2,
    testBit_add_two_pow_mul _ _ _ _ (lt_of_le_of_lt Nat.and_le_left h1)]
  by_cases h : i < 128 <;> simp [h, Nat.testBit_and]

theorem toN_xor {x y : U256} (hx : x.Valid) (hy : y.Valid) :
    (U256.xor x y).toN = x.toN ^^^ y.toN ∧ (U256.xor x y).Valid := by
  constructor
  · rw [U256.toN, U256.toN, U256.toN, U256.xor, split_xor _ _ _ _ hx.1 hy.1]
  · exact ⟨Nat.xor_lt_two_pow hx.1 hy.1, Nat.xor_lt_two_pow hx.2 hy.2⟩

theorem toN_lor {x y : U256} (hx : x.Valid) (hy : y.Valid) :
    (U256.lor x y).toN = x.toN ||| y.toN ∧ (U256.lor x y).Valid := by
  constructor
  · rw [U256.toN, U256.toN, U256.toN, U256.lor, split_or _ _ _ _ hx.1 hy.1]
  · exact ⟨Nat.or_lt_two_pow hx.1 hy.1, Nat.or_lt_two_pow hx.2 hy.2⟩

theorem toN_land {x y : U256} (hx : x.Valid) (hy : y.Valid) :
    (U256.land x y).toN = x.toN &&& y.toN ∧ (U256.land x y).Valid := by
  constructor
  · rw [U256.toN, U256.toN, U256.toN, U256.land, split_and _ _ _ _ hx.1 hy.1]
  · exact ⟨lt_of_le_of_lt Nat.and_le_left hx.1, lt_of_le_of_lt Nat.and_le_left hx.2⟩

theorem and_mod_two_pow (x y n : Nat) : (x &&& y) % 2 ^ n = x % 2 ^ n &&& y % 2 ^ n := by
  apply Nat.eq_of_testBit_eq
  intro i
  by_cases h : i < n <;>
    simp [Nat.testBit_mod_two_pow, Nat.testBit_and, h]

theorem two_pow_sub_one_mod {a b : Nat} (h : b ≤ a) : (2 ^ a - 1) % 2 ^ b = 2 ^ b - 1 := by
  rw [← and_two_pow_sub_one]
  apply Nat.eq_of_testBit_eq
  intro i
  rw [Nat.testBit_and, Nat.testBit_two_pow_sub_one, Nat.testBit_two_pow_sub_one]
  by_cases hi : i < b
  · simp [hi, lt_of_lt_of_le hi h]
  · simp [hi]

theorem toN_and_one (x : U256) : x.toN &&& 1 = x.lower &&& 1 := by
  rw [Nat.and_one_is_mod, Nat.and_one_is_mod, U256.toN]
  have h : (2 : Nat) ^ 128 * x.upper = 2 * (2 ^ 127 * x.upper) := by
    rw [← mul_assoc]
    norm_num
  rw [h, Nat.add_mul_mod_self_left]

theorem or_one_split (l u : Nat) (hl : l < 2 ^ 128) :
    (l + 2 ^ 128 * u) ||| 1 = (l ||| 1) + 2 ^ 128 * u := by
  have hor : l ||| 1 < 2 ^ 128 := Nat.or_lt_two_pow hl (by norm_num)
  apply Nat.eq_of_testBit_eq
  intro i
  rw [Nat.testBit_or, testBit_add_two_pow_mul _ _ _ _ hl, testBit_add_two_pow_mul _ _ _ _ hor]
  by_cases h : i < 128
  · simp [h, Nat.testBit_or]
  · have h2 : (2 : Nat) ^ 1 ≤ 2 ^ i := Nat.pow_le_pow_right (by omega) (by omega)
    have h3 : (1 : Nat) < 2 ^ i := by
      have : (1 : Nat) < 2 ^ 1 := by norm_num
      omega
    have h1 : Nat.testBit 1 i = false := Nat.testBit_lt_two_pow h3
    simp [h, h1]

theorem toN_mod_le_128 (x : U256) {n : Nat} (hn : n ≤ 128) :
    x.toN % 2 ^ n = x.lower % 2 ^ n := by
  rw [U256.toN,
    show (2 : Nat) ^ 128 * x.upper = 2 ^ n * (2 ^ (128 - n) * x.upper) by
      rw [← mul_assoc, ← pow_add]
      congr 2
      omega,
    Nat.add_mul_mod_self_left]

theorem split_shl1 (l u : Nat) (hl : l < 2 ^ 128) :
    (l <<< 1) % 2 ^ 128 + 2 ^ 128 * (((u <<< 1) % 2 ^ 128) ^^^ (l >>> 127))
      = (2 * (l + 2 ^ 128 * u)) % 2 ^ 256 := by
  have hlow : (l <<< 1) % 2 ^ 128 < 2 ^ 128 :=
    Nat.mod_lt _ (Nat.pos_pow_of_pos _ (by omega))
  have hR : ∀ i, Nat.testBit ((2 * (l + 2 ^ 128 * u)) % 2 ^ 256) i
      = (decide (i < 256) && (decide (1 ≤ i) && Nat.testBit (l + 2 ^ 128 * u) (i - 1))) := by
    intro i
    rw [show 2 * (l + 2 ^ 128 * u) = (l + 2 ^ 128 * u) <<< 1 by rw [Nat.shiftLeft_eq]; ring,
      Nat.testBit_mod_two_pow, Nat.testBit_shiftLeft]
  apply Nat.eq_of_testBit_eq
  intro i
  rw [testBit_add_two_pow_mul _ _ _ _ hlow, hR i]
  by_cases h1 : i < 128
  · rw [if_pos h1, Nat.testBit_mod_two_pow, Nat.testBit_shiftLeft]
    by_cases h0 : i = 0
    · subst h0; simp
    · rw [testBit_add_two_pow_mul _ _ _ _ hl, if_pos (show i - 1 < 128 by omega)]
      simp [show (1 : Nat) ≤ i by omega, show i < 256 by omega, h1]
  · rw [if_neg h1, Nat.testBit_xor, Nat.testBit_mod_two_pow, Nat.testBit_shiftLeft,
      Nat.testBit_shiftRight]
    by_cases h2 : i < 256
    · rw [testBit_add_two_pow_mul _ _ _ _ hl]
      by_cases h3 : i = 128
      · subst h3
        simp [show (0 : Nat) < 128 by omega]
      · rw [if_neg (show ¬ i - 1 < 128 by omega)]
        have hbl : l.testBit (127 + (i - 128)) = false :=
          Nat.testBit_lt_two_pow
            (lt_of_lt_of_le hl (Nat.pow_le_pow_right (by omega) (by omega)))
        rw [hbl]
        simp [show (1 : Nat) ≤ i - 128 by omega, show i - 128 < 128 by omega, h2,
          show (1 : Nat) ≤ i by omega, show i - 128 - 1 = i - 1 - 128 by omega]
    · have hbl : l.testBit (127 + (i - 128)) = false :=
        Nat.testBit_lt_two_pow
          (lt_of_lt_of_le hl (Nat.pow_le_pow_right (by omega) (by omega)))
      rw [hbl]
      simp [show ¬ i - 128 < 128 by omega, h2]

theorem split_shr_small (l u s : Nat) (hl : l < 2 ^ 128)
    (hs0 : 1 ≤ s) (hs1 : s ≤ 127) :
    ((l >>> s) ^^^ ((u <<< (128 - s)) % 2 ^ 128)) + 2 ^ 128 * (u >>> s)
      = (l + 2 ^ 128 * u) >>> s := by
  have hlowv : (l >>> s) ^^^ ((u <<< (128 - s)) % 2 ^ 128) < 2 ^ 128 := by
    apply Nat.xor_lt_two_pow _ (Nat.mod_lt _ (Nat.pos_pow_of_pos _ (by omega)))
    calc l >>> s ≤ l := by
          rw [Nat.shiftRight_eq_div_pow]; exact Nat.div_le_self _ _
      _ < 2 ^ 128 := hl
  have hR : ∀ i, Nat.testBit ((l + 2 ^ 128 * u) >>> s) i
      = Nat.testBit (l + 2 ^ 128 * u) (s + i) := by
    intro i; rw [Nat.testBit_shiftRight]
  apply Nat.eq_of_testBit_eq
  intro i
  rw [testBit_add_two_pow_mul _ _ _ _ hlowv, hR i, testBit_add_two_pow_mul _ _ _ _ hl]
  by_cases h1 : i < 128
  · rw [if_pos h1, Nat.testBit_xor, Nat.testBit_shiftRight, Nat.testBit_mod_two_pow,
      Nat.testBit_shiftLeft]
    by_cases h2 : s + i < 128
    · rw [if_pos h2]
      simp [h1, show ¬ 128 - s ≤ i by omega]
    · rw [if_neg h2]
      have hbl : l.testBit (s + i) = false :=
        Nat.testBit_lt_two_pow
          (lt_of_lt_of_le hl (Nat.pow_le_pow_right (by omega) (by omega)))
      rw [hbl]
      simp [h1, show 128 - s ≤ i by omega, show i - (128 - s) = s + i - 128 by omega]
  · rw [if_neg h1, Nat.testBit_shiftRight, if_neg (show ¬ s + i < 128 by omega),
      show s + (i - 128) = s + i - 128 by omega]

theorem toN_shl1 {x : U256} (hx : x.Valid) :
    (U256.shl x 1).toN = (2 * x.toN) % 2 ^ 256 ∧ (U256.shl x 1).Valid := by
  obtain ⟨hl, hu⟩ := hx
  have hshl : U256.shl x 1
      = ⟨(x.lower <<< 1) % 2 ^ 128, ((x.upper <<< 1) % 2 ^ 128) ^^^ (x.lower >>> 127)⟩ := by
    rw [U256.shl]
    norm_num
  constructor
  · rw [hshl]
    exact split_shl1 x.lower x.upper hl
  · rw [hshl]
    refine ⟨Nat.mod_lt _ (Nat.pos_pow_of_pos _ (by omega)), ?_⟩
    apply Nat.xor_lt_two_pow (Nat.mod_lt _ (Nat.pos_pow_of_pos _ (by omega)))
    calc x.lower >>> 127 ≤ x.lower := by
          rw [Nat.shiftRight_eq_div_pow]; exact Nat.div_le_self _ _
      _ < 2 ^ 128 := hl

theorem toN_shr {x : U256} (hx : x.Valid) (s : Nat) :
    (U256.shr x s).toN = x.toN >>> s ∧ (U256.shr x s).Valid := by
  obtain ⟨hl, hu⟩ := hx
  by_cases hs0 : s = 0
  · subst hs0
    rw [U256.shr]
    simp [Nat.shiftRight_zero]
    exact ⟨hl, hu⟩
  by_cases hs1 : s ≤ 127
  · have hshr : U256.shr x s
        = ⟨(x.lower >>> s) ^^^ ((x.upper <<< (128 - s)) % 2 ^ 128), x.upper >>> s⟩ := by
      rw [U256.shr, if_neg hs0, if_pos hs1]
    have hlowv : (x.lower >>> s) ^^^ ((x.upper <<< (128 - s)) % 2 ^ 128) < 2 ^ 128 := by
      apply Nat.xor_lt_two_pow _ (Nat.mod_lt _ (Nat.pos_pow_of_pos _ (by omega)))
      calc x.lower >>> s ≤ x.lower := by
            rw [Nat.shiftRight_eq_div_pow]; exact Nat.div_le_self _ _
        _ < 2 ^ 128 := hl
    have hupv : x.upper >>> s < 2 ^ 128 := by
      calc x.upper >>> s ≤ x.upper := by
            rw [Nat.shiftRight_eq_div_pow]; exact Nat.div_le_self _ _
        _ < 2 ^ 128 := hu
    refine ⟨?_, by rw [hshr]; exact ⟨hlowv, hupv⟩⟩
    rw [hshr]
    exact split_shr_small x.lower x.upper s hl (by omega) hs1
  by_cases hs2 : s ≤ 255
  · have hshr : U256.shr x s = ⟨x.upper >>> (s - 128), 0⟩ := by
      rw [U256.shr, if_neg hs0, if_neg hs1, if_pos hs2]
    have hupv : x.upper >>> (s - 128) < 2 ^ 128 := by
      calc x.upper >>> (s - 128) ≤ x.upper := by
            rw [Nat.shiftRight_eq_div_pow]; exact Nat.div_le_self _ _
        _ < 2 ^ 128 := hu
    refine ⟨?_, by rw [hshr]; exact ⟨hupv, Nat.pos_pow_of_pos _ (by omega)⟩⟩
    rw [hshr]
    have hsplit : s = 128 + (s - 128) := by omega
    rw [show U256.toN ⟨x.upper >>> (s - 128), 0⟩ = x.upper >>> (s - 128) by
        rw [U256.toN]; ring]
    conv => rhs; rw [hsplit, Nat.shiftRight_add]
    rw [show x.toN >>> 128 = x.toN / 2 ^ 128 from Nat.shiftRight_eq_div_pow _ _,
      toN_div_128 ⟨hl, hu⟩]
  · have hshr : U256.shr x s = ⟨0, 0⟩ := by
      rw [U256.shr, if_neg hs0, if_neg hs1, if_neg hs2]
    refine ⟨?_, by
      rw [hshr]
      exact ⟨Nat.pos_pow_of_pos _ (by omega), Nat.pos_pow_of_pos _ (by omega)⟩⟩
    rw [hshr]
    have hlt : x.toN < 2 ^ s :=
      lt_of_lt_of_le (toN_lt ⟨hl, hu⟩) (Nat.pow_le_pow_right (by omega) (by omega))
    rw [Nat.shiftRight_eq_div_pow, Nat.div_eq_of_lt hlt]
    rfl

theorem calc_degree_eq {y : Nat} (hy : y < 2 ^ 128) :
    calc_degree y = (sizeN y : Int) - 1 := by
  have h := sizeN_le_of_lt_two_pow hy
  rw [calc_degree]
  omega

theorem sizeN_toN_of_upper_pos {x : U256} (hx : x.Valid) (h : 0 < x.upper) :
    sizeN x.toN = sizeN x.upper + 128 := by
  obtain ⟨hl, hu⟩ := hx
  apply le_antisymm
  · apply sizeN_le_of_lt_two_pow
    have hx1 : 2 ^ 128 * (x.upper + 1) = 2 ^ 128 * x.upper + 2 ^ 128 := by ring
    calc x.toN < 2 ^ 128 * (x.upper + 1) := by rw [U256.toN]; omega
      _ ≤ 2 ^ 128 * 2 ^ sizeN x.upper :=
          Nat.mul_le_mul_left _ (lt_two_pow_sizeN x.upper)
      _ = 2 ^ (sizeN x.upper + 128) := by rw [pow_add]; ring
  · have h1 : 2 ^ (sizeN x.upper - 1) ≤ x.upper := two_pow_sizeN_sub_one_le (by omega)
    have h2 : 2 ^ (128 + (sizeN x.upper - 1)) ≤ x.toN := by
      calc 2 ^ (128 + (sizeN x.upper - 1)) = 2 ^ 128 * 2 ^ (sizeN x.upper - 1) := by
            rw [pow_add]
        _ ≤ 2 ^ 128 * x.upper := Nat.mul_le_mul_left _ h1
        _ ≤ x.toN := by rw [U256.toN]; omega
    have h3 : 0 < sizeN x.upper := sizeN_pos (by omega)
    by_contra hc
    have h4 : sizeN x.toN ≤ 128 + (sizeN x.upper - 1) := by omega
    have h5 : x.toN < 2 ^ (128 + (sizeN x.upper - 1)) :=
      lt_of_lt_of_le (lt_two_pow_sizeN x.toN) (Nat.pow_le_pow_right (by omega) h4)
    omega

theorem calc_degree_256_eq {x : U256} (hx : x.Valid) :
    calc_degree_256 x = (sizeN x.toN : Int) - 1 := by
  rw [calc_degree_256]
  by_cases h : 0 < x.upper
  · rw [if_pos h, calc_degree_eq hx.2, sizeN_toN_of_upper_pos hx h]
    push_cast
    ring
  · rw [if_neg h]
    have hu : x.upper = 0 := by omega
    have hN : x.toN = x.lower := by rw [U256.toN, hu]; ring
    rw [calc_degree_eq hx.1, hN]

theorem new_one_small {deg : Nat} (h : deg ≤ 127) : U256.new 1 deg = ⟨2 ^ deg, 0⟩ := by
  have h32 : (2 : Nat) ^ 32 = 4294967296 := by norm_num
  have h128 : (1 : Nat) < 2 ^ 128 := by norm_num
  have hsv : (128 + 2 ^ 32 - deg % 2 ^ 32) % 2 ^ 32 = 128 - deg := by omega
  rw [U256.new]
  congr 1
  · rw [if_pos (show deg < 128 by omega), Nat.mod_eq_of_lt h128, Nat.shiftLeft_eq, one_mul]
    exact Nat.mod_eq_of_lt (Nat.pow_lt_pow_right (by omega) (by omega))
  · show (if (128 + 2 ^ 32 - deg % 2 ^ 32) % 2 ^ 32 < 128
        then (1 % 2 ^ 128) >>> ((128 + 2 ^ 32 - deg % 2 ^ 32) % 2 ^ 32) else 0) = 0
    rw [hsv]
    by_cases h0 : deg = 0
    · subst h0
      rw [if_neg (by omega)]
    · rw [if_pos (show 128 - deg < 128 by omega), Nat.mod_eq_of_lt h128,
        Nat.shiftRight_eq_div_pow]
      apply Nat.div_eq_of_lt
      calc (1 : Nat) < 2 ^ 1 := by norm_num
        _ ≤ 2 ^ (128 - deg) := Nat.pow_le_pow_right (by omega) (by omega)

theorem new_one_128 : U256.new 1 128 = ⟨0, 1⟩ := by
  have h32 : (2 : Nat) ^ 32 = 4294967296 := by norm_num
  have hsv : (128 + 2 ^ 32 - 128 % 2 ^ 32) % 2 ^ 32 = 0 := by omega
  rw [U256.new]
  simp only [hsv]
  norm_num

theorem new_one_big {deg : Nat} (h1 : 129 ≤ deg) (h2 : deg ≤ 255) :
    U256.new 1 deg = ⟨0, 0⟩ := by
  have h32 : (2 : Nat) ^ 32 = 4294967296 := by norm_num
  have hsv : ¬ ((128 + 2 ^ 32 - deg % 2 ^ 32) % 2 ^ 32 < 128) := by omega
  rw [U256.new]
  congr 1
  · rw [if_neg (show ¬ deg < 128 by omega)]
  · show (if (128 + 2 ^ 32 - deg % 2 ^ 32) % 2 ^ 32 < 128
        then (1 % 2 ^ 128) >>> ((128 + 2 ^ 32 - deg % 2 ^ 32) % 2 ^ 32) else 0) = 0
    rw [if_neg hsv]

theorem degN_eq {dvs : U256} (hv : dvs.Valid) (h0 : dvs.toN ≠ 0) :
    (calc_degree_256 dvs).toNat = sizeN dvs.toN - 1 := by
  rw [calc_degree_256_eq hv]
  have := sizeN_pos h0
  omega

theorem degN_le {dvs : U256} (hv : dvs.Valid) : (calc_degree_256 dvs).toNat ≤ 255 := by
  rw [calc_degree_256_eq hv]
  have := sizeN_le_of_lt_two_pow (toN_lt hv)
  omega

theorem loopcount_eq {dvd : U256} (hv : dvd.Valid) :
    (calc_degree_256 dvd + 1).toNat = sizeN dvd.toN := by
  rw [calc_degree_256_eq hv]
  omega

theorem u256_mask_mod {dvs : U256} (hv : dvs.Valid) (deg : Nat) (hd : deg ≤ 255) :
    (U256.land dvs (U256.bnot (U256.new 1 deg))).toN % 2 ^ deg = dvs.toN % 2 ^ deg
    ∧ (U256.land dvs (U256.bnot (U256.new 1 deg))).Valid := by
  have hnot0 : rustNot 128 0 = 2 ^ 128 - 1 := by rw [rustNot, Nat.xor_zero]
  refine ⟨?_, lt_of_le_of_lt Nat.and_le_left hv.1, lt_of_le_of_lt Nat.and_le_left hv.2⟩
  by_cases hA : deg ≤ 127
  · rw [new_one_small hA]
    have hml : (U256.land dvs (U256.bnot ⟨2 ^ deg, 0⟩)).toN % 2 ^ deg
        = (dvs.lower &&& rustNot 128 (2 ^ deg)) % 2 ^ deg := by
      rw [toN_mod_le_128 _ (by omega)]
      rfl
    rw [hml, and_mod_two_pow]
    have hnot : rustNot 128 (2 ^ deg) % 2 ^ deg = 2 ^ deg - 1 := by
      rw [rustNot, xor_mod_two_pow, two_pow_sub_one_mod (by omega), Nat.mod_self, Nat.xor_zero]
    rw [hnot, and_two_pow_sub_one, Nat.mod_mod_of_dvd _ dvd_rfl, toN_mod_le_128 _ (by omega)]
  by_cases hB : deg = 128
  · subst hB
    rw [new_one_128]
    calc (U256.land dvs (U256.bnot ⟨0, 1⟩)).toN % 2 ^ 128
        = (dvs.lower &&& rustNot 128 0) % 2 ^ 128 := by
          rw [toN_mod_le_128 _ le_rfl]
          rfl
      _ = (dvs.lower % 2 ^ 128) % 2 ^ 128 := by rw [hnot0, and_two_pow_sub_one]
      _ = dvs.toN % 2 ^ 128 := by rw [Nat.mod_mod_of_dvd _ dvd_rfl, toN_mod_le_128 _ le_rfl]
  · rw [new_one_big (by omega) hd]
    have hmeq : U256.land dvs (U256.bnot ⟨0, 0⟩) = dvs := by
      obtain ⟨hl, hu⟩ := hv
      show (⟨dvs.lower &&& rustNot 128 0, dvs.upper &&& rustNot 128 0⟩ : U256) = dvs
      rw [hnot0, and_two_pow_sub_one, and_two_pow_sub_one, Nat.mod_eq_of_lt hl,
        Nat.mod_eq_of_lt hu]
    rw [hmeq]

set_option maxRecDepth 4000 in
theorem fmask_spec (deg : Nat) (hd : deg ≤ 255) :
    (if deg < 128 then (⟨(1 <<< deg) - 1, 0⟩ : U256)
      else ⟨2 ^ 128 - 1, (1 <<< (deg - 128)) - 1⟩).toN = 2 ^ deg - 1
    ∧ (if deg < 128 then (⟨(1 <<< deg) - 1, 0⟩ : U256)
      else ⟨2 ^ 128 - 1, (1 <<< (deg - 128)) - 1⟩).Valid := by
  by_cases h : deg < 128
  · rw [if_pos h]
    refine ⟨?_, ?_, ?_⟩
    · show (1 <<< deg) - 1 + 2 ^ 128 * 0 = 2 ^ deg - 1
      rw [Nat.shiftLeft_eq, one_mul]
      omega
    · show (1 <<< deg) - 1 < 2 ^ 128
      rw [Nat.shiftLeft_eq, one_mul]
      have h1 : (2 : Nat) ^ deg ≤ 2 ^ 127 := Nat.pow_le_pow_right (by omega) (by omega)
      have h2 : (2 : Nat) ^ 127 < 2 ^ 128 := Nat.pow_lt_pow_right (by omega) (by omega)
      omega
    · show (0 : Nat) < 2 ^ 128
      exact Nat.pos_pow_of_pos _ (by omega)
  · rw [if_neg h]
    refine ⟨?_, ?_, ?_⟩
    · show 2 ^ 128 - 1 + 2 ^ 128 * ((1 <<< (deg - 128)) - 1) = 2 ^ deg - 1
      rw [Nat.shiftLeft_eq, one_mul]
      have hK : 2 ^ (deg - 128) - 1 + 1 = 2 ^ (deg - 128) := by
        have := Nat.pos_pow_of_pos (deg - 128) (show 0 < 2 by omega)
        omega
      have hmul : (2 : Nat) ^ 128 * (2 ^ (deg - 128) - 1 + 1)
          = 2 ^ 128 * (2 ^ (deg - 128) - 1) + 2 ^ 128 := by ring
      rw [hK] at hmul
      have hsplit : (2 : Nat) ^ 128 * 2 ^ (deg - 128) = 2 ^ deg := by
        rw [← pow_add]
        congr 1
        omega
      have hge : (2 : Nat) ^ 128 ≤ 2 ^ deg := Nat.pow_le_pow_right (by omega) (by omega)
      omega
    · show (2 : Nat) ^ 128 - 1 < 2 ^ 128
      have := Nat.pos_pow_of_pos 128 (show 0 < 2 by omega)
      omega
    · show (1 <<< (deg - 128)) - 1 < 2 ^ 128
      rw [Nat.shiftLeft_eq, one_mul]
      have h1 : (2 : Nat) ^ (deg - 128) ≤ 2 ^ 127 := Nat.pow_le_pow_right (by omega) (by omega)
      have h2 : (2 : Nat) ^ 127 < 2 ^ 128 := Nat.pow_lt_pow_right (by omega) (by omega)
      omega

theorem u256pd_step (dvd mask : U256) (hdvd : dvd.Valid) (hmask : mask.Valid) (d k : Nat)
    (qr : U256 × U256) (h1 : qr.1.Valid) (h2 : qr.2.Valid) :
    ∃ q1 r2 : U256, q1.Valid ∧ r2.Valid ∧
      u256pdLoop dvd mask d (k + 1) qr = u256pdLoop dvd mask d k (q1, r2) ∧
      pdLoop 256 dvd.toN mask.toN d (k + 1) (qr.1.toN, qr.2.toN)
        = pdLoop 256 dvd.toN mask.toN d k (q1.toN, r2.toN) := by
  obtain ⟨hshr2, hshr2v⟩ := toN_shr h2 d
  have hbit : (U256.shr qr.2 d).lower &&& 1 = (qr.2.toN >>> d) &&& 1 := by
    rw [← toN_and_one, hshr2]
  obtain ⟨hshl1, hshl1v⟩ := toN_shl1 h1
  obtain ⟨hshl2, hshl2v⟩ := toN_shl1 h2
  obtain ⟨hshrd, hshrdv⟩ := toN_shr hdvd k
  have honev : (⟨1, 0⟩ : U256).Valid := ⟨by norm_num, by norm_num⟩
  obtain ⟨hland, hlandv⟩ := toN_land hshrdv honev
  have hone : (⟨1, 0⟩ : U256).toN = 1 := by
    show 1 + 2 ^ 128 * 0 = 1
    ring
  obtain ⟨hlor, hlorv⟩ := toN_lor hshl2v hlandv
  have hlandN : (U256.land (U256.shr dvd k) ⟨1, 0⟩).toN = (dvd.toN >>> k) &&& 1 := by
    rw [hland, hshrd, hone]
  have hr1N : (U256.lor (U256.shl qr.2 1) (U256.land (U256.shr dvd k) ⟨1, 0⟩)).toN
      = ((qr.2.toN <<< 1) % 2 ^ 256) ||| ((dvd.toN >>> k) &&& 1) := by
    rw [hlor, hshl2, hlandN, shiftLeft_one_eq]
  by_cases hb : 0 < (U256.shr qr.2 d).lower &&& 1
  · have hbN : 0 < (qr.2.toN >>> d) &&& 1 := by rw [← hbit]; exact hb
    refine ⟨⟨(U256.shl qr.1 1).lower ||| 1, (U256.shl qr.1 1).upper⟩,
      U256.xor (U256.lor (U256.shl qr.2 1) (U256.land (U256.shr dvd k) ⟨1, 0⟩)) mask,
      ⟨Nat.or_lt_two_pow hshl1v.1 (by norm_num), hshl1v.2⟩,
      (toN_xor hlorv hmask).2, ?_, ?_⟩
    · show u256pdLoop dvd mask d k
        ((if 0 < (U256.shr qr.2 d).lower &&& 1
          then U256.mk ((U256.shl qr.1 1).lower ||| 1) (U256.shl qr.1 1).upper
          else U256.shl qr.1 1),
         (if 0 < (U256.shr qr.2 d).lower &&& 1
          then U256.xor (U256.lor (U256.shl qr.2 1) (U256.land (U256.shr dvd k) ⟨1, 0⟩)) mask
          else U256.lor (U256.shl qr.2 1) (U256.land (U256.shr dvd k) ⟨1, 0⟩))) = _
      rw [if_pos hb, if_pos hb]
    · have hq1N : (U256.mk ((U256.shl qr.1 1).lower ||| 1) (U256.shl qr.1 1).upper).toN
          = ((qr.1.toN <<< 1) % 2 ^ 256) ||| 1 := by
        show ((U256.shl qr.1 1).lower ||| 1) + 2 ^ 128 * (U256.shl qr.1 1).upper = _
        rw [← or_one_split _ _ hshl1v.1,
          show (U256.shl qr.1 1).lower + 2 ^ 128 * (U256.shl qr.1 1).upper
            = (U256.shl qr.1 1).toN from rfl,
          hshl1, shiftLeft_one_eq]
      have hr2N :
          (U256.xor (U256.lor (U256.shl qr.2 1) (U256.land (U256.shr dvd k) ⟨1, 0⟩)) mask).toN
          = (((qr.2.toN <<< 1) % 2 ^ 256) ||| ((dvd.toN >>> k) &&& 1)) ^^^ mask.toN := by
        rw [(toN_xor hlorv hmask).1, hr1N]
      show pdLoop 256 dvd.toN mask.toN d k
        ((if 0 < (qr.2.toN >>> d) &&& 1
          then ((qr.1.toN <<< 1) % 2 ^ 256) ||| 1 else (qr.1.toN <<< 1) % 2 ^ 256),
         (if 0 < (qr.2.toN >>> d) &&& 1
          then (((qr.2.toN <<< 1) % 2 ^ 256) ||| ((dvd.toN >>> k) &&& 1)) ^^^ mask.toN
          else ((qr.2.toN <<< 1) % 2 ^ 256) ||| ((dvd.toN >>> k) &&& 1))) = _
      rw [if_pos hbN, if_pos hbN, hq1N, hr2N]
  · have hbN : ¬ 0 < (qr.2.toN >>> d) &&& 1 := by rw [← hbit]; exact hb
    refine ⟨U256.shl qr.1 1,
      U256.lor (U256.shl qr.2 1) (U256.land (U256.shr dvd k) ⟨1, 0⟩),
      hshl1v, hlorv, ?_, ?_⟩
    · show u256pdLoop dvd mask d k
        ((if 0 < (U256.shr qr.2 d).lower &&& 1
          then U256.mk ((U256.shl qr.1 1).lower ||| 1) (U256.shl qr.1 1).upper
          else U256.shl qr.1 1),
         (if 0 < (U256.shr qr.2 d).lower &&& 1
          then U256.xor (U256.lor (U256.shl qr.2 1) (U256.land (U256.shr dvd k) ⟨1, 0⟩)) mask
          else U256.lor (U256.shl qr.2 1) (U256.land (U256.shr dvd k) ⟨1, 0⟩))) = _
      rw [if_neg hb, if_neg hb]
    · show pdLoop 256 dvd.toN mask.toN d k
        ((if 0 < (qr.2.toN >>> d) &&& 1
          then ((qr.1.toN <<< 1) % 2 ^ 256) ||| 1 else (qr.1.toN <<< 1) % 2 ^ 256),
         (if 0 < (qr.2.toN >>> d) &&& 1
          then (((qr.2.toN <<< 1) % 2 ^ 256) ||| ((dvd.toN >>> k) &&& 1)) ^^^ mask.toN
          else ((qr.2.toN <<< 1) % 2 ^ 256) ||| ((dvd.toN >>> k) &&& 1))) = _
      rw [if_neg hbN, if_neg hbN, hshl1, hr1N, shiftLeft_one_eq]

theorem u256pdLoop_toN (dvd mask : U256) (hdvd : dvd.Valid) (hmask : mask.Valid) (d : Nat) :
    ∀ k qr, (qr : U256 × U256).1.Valid → qr.2.Valid →
      ((u256pdLoop dvd mask d k qr).1.toN, (u256pdLoop dvd mask d k qr).2.toN)
        = pdLoop 256 dvd.toN mask.toN d k (qr.1.toN, qr.2.toN)
      ∧ (u256pdLoop dvd mask d k qr).1.Valid ∧ (u256pdLoop dvd mask d k qr).2.Valid := by
  intro k
  induction k with
  | zero =>
    intro qr h1 h2
    exact ⟨rfl, h1, h2⟩
  | succ k ih =>
    intro qr h1 h2
    obtain ⟨q1, r2, hv1, hv2, hU, hN⟩ := u256pd_step dvd mask hdvd hmask d k qr h1 h2
    rw [hU, hN]
    exact ih (q1, r2) hv1 hv2

theorem u256_poly_div_spec (dvd dvs : U256) (hdvd : dvd.Valid) (hdvs : dvs.Valid)
    (h0 : dvs.toN ≠ 0) :
    ∃ p : U256 × U256, U256.gf2_poly_div dvd dvs = some p ∧ p.1.Valid ∧ p.2.Valid ∧
      dvd.toN = cmul p.1.toN dvs.toN ^^^ p.2.toN ∧
      p.2.toN < 2 ^ (sizeN dvs.toN - 1) ∧
      p.1.toN < 2 ^ sizeN dvd.toN ∧
      (dvs.toN = 1 → p = (dvd, ⟨0, 0⟩)) := by
  have hzv : (⟨0, 0⟩ : U256).Valid :=
    ⟨Nat.pos_pow_of_pos _ (by omega), Nat.pos_pow_of_pos _ (by omega)⟩
  have hz : (⟨0, 0⟩ : U256).toN = 0 := rfl
  by_cases h1 : dvs.toN = 1
  · have hdvs1 : dvs = ⟨1, 0⟩ := (toN_eq_one hdvs).mp h1
    refine ⟨(dvd, ⟨0, 0⟩), ?_, hdvd, hzv, ?_, ?_, lt_two_pow_sizeN _, fun _ => rfl⟩
    · rw [hdvs1]
      simp only [U256.gf2_poly_div]
      simp
    · show dvd.toN = cmul dvd.toN dvs.toN ^^^ (⟨0, 0⟩ : U256).toN
      rw [h1, cmul_one_right, hz, Nat.xor_zero]
    · show (⟨0, 0⟩ : U256).toN < 2 ^ (sizeN dvs.toN - 1)
      rw [hz, h1]
      exact Nat.pos_pow_of_pos _ (by omega)
  · have h2 : dvs ≠ ⟨0, 0⟩ := fun hc => h0 (by rw [hc]; rfl)
    have h3 : dvs ≠ ⟨1, 0⟩ := fun hc => h1 (by rw [hc]; rfl)
    have hdeg : (calc_degree_256 dvs).toNat = sizeN dvs.toN - 1 := degN_eq hdvs h0
    have hdle : sizeN dvs.toN - 1 ≤ 255 := by
      have := sizeN_le_of_lt_two_pow (toN_lt hdvs)
      omega
    obtain ⟨hmm, hmv⟩ := u256_mask_mod hdvs (sizeN dvs.toN - 1) hdle
    obtain ⟨hfm, hfv⟩ := fmask_spec (sizeN dvs.toN - 1) hdle
    have hloop := u256pdLoop_toN dvd (U256.land dvs (U256.bnot (U256.new 1 (sizeN dvs.toN - 1)))) hdvd hmv
      (sizeN dvs.toN - 1 - 1) (sizeN dvd.toN) (⟨0, 0⟩, ⟨0, 0⟩) hzv hzv
    rw [hz] at hloop
    have hdvs2 : 2 ≤ dvs.toN := by
      have := Nat.pos_of_ne_zero h0
      omega
    have hinv0 : cmul 0 dvs.toN ^^^ ((0 : Nat) % 2 ^ (sizeN dvs.toN - 1))
        = dvd.toN >>> sizeN dvd.toN := by
      rw [cmul_zero_left, Nat.zero_mod, Nat.xor_zero, Nat.shiftRight_eq_div_pow,
        Nat.div_eq_of_lt (lt_two_pow_sizeN _)]
    have hmain := pdLoop_invariant 256 dvd.toN dvs.toN (U256.land dvs (U256.bnot (U256.new 1 (sizeN dvs.toN - 1)))).toN
      hdvs2 (toN_lt hdvs) (toN_lt hdvd) hmm (toN_lt hmv) (sizeN dvd.toN) le_rfl 0 0
      (by simpa using Nat.one_pos) (Nat.pos_pow_of_pos _ (by omega)) hinv0
    have hq : (u256pdLoop dvd (U256.land dvs (U256.bnot (U256.new 1 (sizeN dvs.toN - 1)))) (sizeN dvs.toN - 1 - 1) (sizeN dvd.toN) (⟨0, 0⟩, ⟨0, 0⟩)).1.toN = (pdLoop 256 dvd.toN (U256.land dvs (U256.bnot (U256.new 1 (sizeN dvs.toN - 1)))).toN (sizeN dvs.toN - 1 - 1) (sizeN dvd.toN) (0, 0)).1 := congrArg Prod.fst hloop.1
    have hr : (u256pdLoop dvd (U256.land dvs (U256.bnot (U256.new 1 (sizeN dvs.toN - 1)))) (sizeN dvs.toN - 1 - 1) (sizeN dvd.toN) (⟨0, 0⟩, ⟨0, 0⟩)).2.toN = (pdLoop 256 dvd.toN (U256.land dvs (U256.bnot (U256.new 1 (sizeN dvs.toN - 1)))).toN (sizeN dvs.toN - 1 - 1) (sizeN dvd.toN) (0, 0)).2 := congrArg Prod.snd hloop.1
    have hunfold : U256.gf2_poly_div dvd dvs
        = some ((u256pdLoop dvd (U256.land dvs (U256.bnot (U256.new 1 (sizeN dvs.toN - 1)))) (sizeN dvs.toN - 1 - 1) (sizeN dvd.toN) (⟨0, 0⟩, ⟨0, 0⟩)).1, U256.land (u256pdLoop dvd (U256.land dvs (U256.bnot (U256.new 1 (sizeN dvs.toN - 1)))) (sizeN dvs.toN - 1 - 1) (sizeN dvd.toN) (⟨0, 0⟩, ⟨0, 0⟩)).2 (if sizeN dvs.toN - 1 < 128 then (⟨(1 <<< (sizeN dvs.toN - 1)) - 1, 0⟩ : U256) else ⟨2 ^ 128 - 1, (1 <<< (sizeN dvs.toN - 1 - 128)) - 1⟩)) := by
      simp only [U256.gf2_poly_div, if_neg h2, if_neg h3]
      show some ((u256pdLoop dvd (U256.land dvs (U256.bnot (U256.new 1 (calc_degree_256 dvs).toNat))) ((calc_degree_256 dvs).toNat - 1) (calc_degree_256 dvd + 1).toNat (⟨0, 0⟩, ⟨0, 0⟩)).1, U256.land (u256pdLoop dvd (U256.land dvs (U256.bnot (U256.new 1 (calc_degree_256 dvs).toNat))) ((calc_degree_256 dvs).toNat - 1) (calc_degree_256 dvd + 1).toNat (⟨0, 0⟩, ⟨0, 0⟩)).2 (if (calc_degree_256 dvs).toNat < 128 then (⟨(1 <<< (calc_degree_256 dvs).toNat) - 1, 0⟩ : U256) else ⟨2 ^ 128 - 1, (1 <<< ((calc_degree_256 dvs).toNat - 128)) - 1⟩)) = _
      rw [hdeg, loopcount_eq hdvd]
    obtain ⟨hlandN, hlandv⟩ := toN_land hloop.2.2 hfv
    have hp2 : (U256.land (u256pdLoop dvd (U256.land dvs (U256.bnot (U256.new 1 (sizeN dvs.toN - 1)))) (sizeN dvs.toN - 1 - 1) (sizeN dvd.toN) (⟨0, 0⟩, ⟨0, 0⟩)).2 (if sizeN dvs.toN - 1 < 128 then (⟨(1 <<< (sizeN dvs.toN - 1)) - 1, 0⟩ : U256) else ⟨2 ^ 128 - 1, (1 <<< (sizeN dvs.toN - 1 - 128)) - 1⟩)).toN = (pdLoop 256 dvd.toN (U256.land dvs (U256.bnot (U256.new 1 (sizeN dvs.toN - 1)))).toN (sizeN dvs.toN - 1 - 1) (sizeN dvd.toN) (0, 0)).2 % 2 ^ (sizeN dvs.toN - 1) := by
      rw [hlandN, hfm, and_two_pow_sub_one, hr]
    refine ⟨((u256pdLoop dvd (U256.land dvs (U256.bnot (U256.new 1 (sizeN dvs.toN - 1)))) (sizeN dvs.toN - 1 - 1) (sizeN dvd.toN) (⟨0, 0⟩, ⟨0, 0⟩)).1, U256.land (u256pdLoop dvd (U256.land dvs (U256.bnot (U256.new 1 (sizeN dvs.toN - 1)))) (sizeN dvs.toN - 1 - 1) (sizeN dvd.toN) (⟨0, 0⟩, ⟨0, 0⟩)).2 (if sizeN dvs.toN - 1 < 128 then (⟨(1 <<< (sizeN dvs.toN - 1)) - 1, 0⟩ : U256) else ⟨2 ^ 128 - 1, (1 <<< (sizeN dvs.toN - 1 - 128)) - 1⟩)), hunfold, hloop.2.1, hlandv, ?_, ?_, ?_,
      fun hc => absurd hc h1⟩
    · show dvd.toN = cmul (u256pdLoop dvd (U256.land dvs (U256.bnot (U256.new 1 (sizeN dvs.toN - 1)))) (sizeN dvs.toN - 1 - 1) (sizeN dvd.toN) (⟨0, 0⟩, ⟨0, 0⟩)).1.toN dvs.toN ^^^ (U256.land (u256pdLoop dvd (U256.land dvs (U256.bnot (U256.new 1 (sizeN dvs.toN - 1)))) (sizeN dvs.toN - 1 - 1) (sizeN dvd.toN) (⟨0, 0⟩, ⟨0, 0⟩)).2 (if sizeN dvs.toN - 1 < 128 then (⟨(1 <<< (sizeN dvs.toN - 1)) - 1, 0⟩ : U256) else ⟨2 ^ 128 - 1, (1 <<< (sizeN dvs.toN - 1 - 128)) - 1⟩)).toN
      rw [hp2, hq]
      exact hmain.1.symm
    · show (U256.land (u256pdLoop dvd (U256.land dvs (U256.bnot (U256.new 1 (sizeN dvs.toN - 1)))) (sizeN dvs.toN - 1 - 1) (sizeN dvd.toN) (⟨0, 0⟩, ⟨0, 0⟩)).2 (if sizeN dvs.toN - 1 < 128 then (⟨(1 <<< (sizeN dvs.toN - 1)) - 1, 0⟩ : U256) else ⟨2 ^ 128 - 1, (1 <<< (sizeN dvs.toN - 1 - 128)) - 1⟩)).toN < 2 ^ (sizeN dvs.toN - 1)
      rw [hp2]
      exact Nat.mod_lt _ (Nat.pos_pow_of_pos _ (by omega))
    · show (u256pdLoop dvd (U256.land dvs (U256.bnot (U256.new 1 (sizeN dvs.toN - 1)))) (sizeN dvs.toN - 1 - 1) (sizeN dvd.toN) (⟨0, 0⟩, ⟨0, 0⟩)).1.toN < 2 ^ sizeN dvd.toN
      rw [hq]
      exact hmain.2

/-- C3: for every non-zero divisor, `gf2_poly_div` returns `(quotient,
remainder)` with `dividend = clmul(quotient, divisor) XOR remainder` and
`degree(remainder) < degree(divisor)`; it signals the divide-by-zero error
exactly when the divisor is zero, and divisor `1` yields `(dividend, 0)`.
This holds for the integer widths and for the double-width `U256` version. -/
theorem claim_C3 :
    (∀ w dvd dvs : Nat, 1 ≤ w → w ≤ 128 → dvd < 2 ^ w → dvs < 2 ^ w →
      (gf2_poly_div w dvd dvs = none ↔ dvs = 0) ∧
      (dvs ≠ 0 → ∃ q r : Nat, gf2_poly_div w dvd dvs = some (q, r) ∧
        dvd = cmul q dvs ^^^ r ∧ calc_degree r < calc_degree dvs ∧
        (dvs = 1 → q = dvd ∧ r = 0))) ∧
    (∀ dvd dvs : U256, dvd.Valid → dvs.Valid →
      (U256.gf2_poly_div dvd dvs = none ↔ dvs.toN = 0) ∧
      (dvs.toN ≠ 0 → ∃ p : U256 × U256, U256.gf2_poly_div dvd dvs = some p ∧
        dvd.toN = cmul p.1.toN dvs.toN ^^^ p.2.toN ∧
        calc_degree_256 p.2 < calc_degree_256 dvs ∧
        (dvs.toN = 1 → p = (dvd, ⟨0, 0⟩)))) := by
  constructor
  · intro w dvd dvs hw1 hw128 hdvd hdvs
    constructor
    · rw [gf2_poly_div]
      constructor
      · intro h
        by_contra h0
        rw [if_neg h0] at h
        exact Option.noConfusion h
      · intro h
        rw [if_pos h]
    · intro h0
      obtain ⟨hid, hrem, hqb⟩ := polyDivCore_spec w dvd dvs h0 hdvs hdvd
      refine ⟨(polyDivCore w dvd dvs).1, (polyDivCore w dvd dvs).2, ?_, hid, ?_, ?_⟩
      · rw [gf2_poly_div, if_neg h0]
      · have hr128 : (polyDivCore w dvd dvs).2 < 2 ^ 128 := by
          apply lt_of_lt_of_le hrem
          apply Nat.pow_le_pow_right (by omega)
          have := sizeN_le_of_lt_two_pow hdvs
          omega
        have hdvs128 : dvs < 2 ^ 128 :=
          lt_of_lt_of_le hdvs (Nat.pow_le_pow_right (by omega) hw128)
        rw [calc_degree_eq hr128, calc_degree_eq hdvs128]
        have h1 : sizeN (polyDivCore w dvd dvs).2 ≤ sizeN dvs - 1 :=
          sizeN_le_of_lt_two_pow hrem
        have h2 : 0 < sizeN dvs := sizeN_pos h0
        omega
      · intro hds1
        subst hds1
        rw [polyDivCore_one]
        exact ⟨rfl, rfl⟩
  · intro dvd dvs hdvd hdvs
    constructor
    · constructor
      · intro h
        by_contra hc
        obtain ⟨p, hp, _⟩ := u256_poly_div_spec dvd dvs hdvd hdvs hc
        rw [hp] at h
        exact Option.noConfusion h
      · intro h
        have hzero := (toN_eq_zero hdvs).mp h
        rw [hzero]
        simp [U256.gf2_poly_div]
    · intro h0
      obtain ⟨p, hp, hpv1, hpv2, hid, hrem, hqb, hone⟩ :=
        u256_poly_div_spec dvd dvs hdvd hdvs h0
      refine ⟨p, hp, hid, ?_, hone⟩
      rw [calc_degree_256_eq hpv2, calc_degree_256_eq hdvs]
      have h1 : sizeN p.2.toN ≤ sizeN dvs.toN - 1 := sizeN_le_of_lt_two_pow hrem
      have h2 : 0 < sizeN dvs.toN := sizeN_pos h0
      omega

/-- Witness for C3 at width 8 with dividend `0xCA` and divisor `0x1D`, and
the `U256` pair with the same values in the lower halves. -/
theorem claim_C3_witness :
    (∃ q r : Nat, gf2_poly_div 8 202 29 = some (q, r) ∧ 202 = cmul q 29 ^^^ r ∧
      calc_degree r < calc_degree 29 ∧ ((29 : Nat) = 1 → q = 202 ∧ r = 0)) ∧
    (∃ p : U256 × U256, U256.gf2_poly_div ⟨202, 0⟩ ⟨29, 0⟩ = some p ∧
      (U256.mk 202 0).toN = cmul p.1.toN (U256.mk 29 0).toN ^^^ p.2.toN ∧
      calc_degree_256 p.2 < calc_degree_256 ⟨29, 0⟩ ∧
      ((U256.mk 29 0).toN = 1 → p = (⟨202, 0⟩, ⟨0, 0⟩))) :=
  ⟨(claim_C3.1 8 202 29 (by norm_num) (by norm_num) (by norm_num) (by norm_num)).2
      (by norm_num),
   (claim_C3.2 ⟨202, 0⟩ ⟨29, 0⟩ ⟨by norm_num, by norm_num⟩ ⟨by norm_num, by norm_num⟩).2
      (by norm_num [U256.toN])⟩

/-! ### Bounds: closure of the field operations -/

theorem two_le_of_degM_pos {POLY : Nat} (h : 1 ≤ degM POLY) : 2 ≤ POLY := by
  rw [degM] at h
  by_contra hc
  have h1 : POLY < 2 := by omega
  have h2 : (2 : Nat) ^ 1 = 2 := by norm_num
  have h3 : sizeN POLY ≤ 1 := sizeN_le.mpr (by omega)
  omega

theorem gfMul_lt {w POLY : Nat} (a b : Nat) (hw : 1 ≤ w) (hd1 : 1 ≤ degM POLY)
    (hdw : degM POLY ≤ w) : gfMul w POLY a b < 2 ^ degM POLY := by
  have hP2 : 2 ≤ POLY := two_le_of_degM_pos hd1
  have hs1 : 0 < sizeN POLY := sizeN_pos (by omega)
  have hsw : sizeN POLY ≤ w + 1 := by
    rw [degM] at hdw
    omega
  have hPlt : POLY < 2 ^ (2 * w) := by
    calc POLY < 2 ^ sizeN POLY := lt_two_pow_sizeN POLY
      _ ≤ 2 ^ (2 * w) := Nat.pow_le_pow_right (by omega) (by omega)
  have hmod : POLY % 2 ^ (2 * w) = POLY := Nat.mod_eq_of_lt hPlt
  rw [gfMul, hmod]
  obtain ⟨_, hrem, _⟩ :=
    polyDivCore_spec (2 * w) (clmul w a b) POLY (by omega) hPlt (clmul_lt w a b)
  calc (polyDivCore (2 * w) (clmul w a b) POLY).2 % 2 ^ w
      ≤ (polyDivCore (2 * w) (clmul w a b) POLY).2 := Nat.mod_le _ _
    _ < 2 ^ (sizeN POLY - 1) := hrem
    _ = 2 ^ degM POLY := by rw [degM]

theorem xor_lt_of_testBit_eq {x y n : Nat} (hx : x < 2 ^ (n + 1)) (hy : y < 2 ^ (n + 1))
    (h : x.testBit n = y.testBit n) : x ^^^ y < 2 ^ n := by
  apply Nat.lt_pow_two_of_testBit
  intro i hi
  rw [Nat.testBit_xor]
  by_cases hin : i = n
  · subst hin
    rw [h, Bool.xor_self]
  · have h1 : x.testBit i = false :=
      Nat.testBit_lt_two_pow (lt_of_lt_of_le hx (Nat.pow_le_pow_right (by omega) (by omega)))
    have h2 : y.testBit i = false :=
      Nat.testBit_lt_two_pow (lt_of_lt_of_le hy (Nat.pow_le_pow_right (by omega) (by omega)))
    rw [h1, h2]
    rfl

theorem lfsrStep_lt {w POLY v : Nat} (hd1 : 1 ≤ degM POLY) (hdw : degM POLY ≤ w)
    (hv : v < 2 ^ degM POLY) : lfsrStep w POLY v < 2 ^ degM POLY := by
  have hP2 : 2 ≤ POLY := two_le_of_degM_pos hd1
  have hs1 : 0 < sizeN POLY := sizeN_pos (by omega)
  have hsP : sizeN POLY = degM POLY + 1 := by
    rw [degM]
    omega
  have hPlt : POLY < 2 ^ (degM POLY + 1) := by
    rw [← hsP]
    exact lt_two_pow_sizeN POLY
  have hMsplit : (2 : Nat) ^ (degM POLY + 1) = 2 * 2 ^ degM POLY := by
    rw [pow_succ]
    ring
  simp only [lfsrStep]
  by_cases h : 2 ^ (degM POLY - 1) ≤ v
  · rw [if_pos h]
    apply xor_lt_of_testBit_eq
    · calc (v <<< 1) % 2 ^ w ≤ v <<< 1 := Nat.mod_le _ _
        _ = 2 * v := shiftLeft_one_eq v
        _ < 2 ^ (degM POLY + 1) := by omega
    · calc POLY % 2 ^ w ≤ POLY := Nat.mod_le _ _
        _ < 2 ^ (degM POLY + 1) := hPlt
    · by_cases hMw : degM POLY = w
      · rw [← hMw, Nat.testBit_mod_two_pow, Nat.testBit_mod_two_pow]
        simp
      · have hMw' : degM POLY < w := by omega
        have hwsplit : (2 : Nat) ^ (degM POLY + 1) ≤ 2 ^ w :=
          Nat.pow_le_pow_right (by omega) (by omega)
        have h2v : (v <<< 1) % 2 ^ w = 2 * v := by
          rw [shiftLeft_one_eq]
          apply Nat.mod_eq_of_lt
          omega
        have hPm : POLY % 2 ^ w = POLY := Nat.mod_eq_of_lt (by omega)
        have hvne : v ≠ 0 := by
          have := Nat.pos_pow_of_pos (degM POLY - 1) (show 0 < 2 by omega)
          omega
        have hsv : sizeN v = degM POLY := by
          have h1 : sizeN v ≤ degM POLY := sizeN_le.mpr hv
          by_contra hc
          have h2 : sizeN v ≤ degM POLY - 1 := by
            have := sizeN_pos hvne
            omega
          have h3 : v < 2 ^ (degM POLY - 1) := sizeN_le.mp h2
          omega
        have htv : v.testBit (degM POLY - 1) = true := by
          rw [show degM POLY - 1 = sizeN v - 1 by omega]
          exact testBit_sizeN_sub_one hvne
        have htP : POLY.testBit (degM POLY) = true := by
          rw [show degM POLY = sizeN POLY - 1 by omega]
          exact testBit_sizeN_sub_one (by omega)
        rw [h2v, hPm, show degM POLY = (degM POLY - 1) + 1 by omega,
          testBit_two_mul_succ, htv, show (degM POLY - 1) + 1 = degM POLY by omega, htP]
  · rw [if_neg h]
    have hvlt : v < 2 ^ (degM POLY - 1) := by omega
    have hsplit2 : (2 : Nat) ^ degM POLY = 2 * 2 ^ (degM POLY - 1) := by
      conv => lhs; rw [show degM POLY = (degM POLY - 1) + 1 by omega]
      rw [pow_succ]
      ring
    calc (v <<< 1) % 2 ^ w ≤ v <<< 1 := Nat.mod_le _ _
      _ = 2 * v := shiftLeft_one_eq v
      _ < 2 ^ degM POLY := by omega

theorem lfsrVal_lt {w POLY : Nat} (hd1 : 1 ≤ degM POLY) (hdw : degM POLY ≤ w) :
    ∀ i, lfsrVal w POLY i < 2 ^ degM POLY := by
  intro i
  induction i with
  | zero =>
    show 1 < 2 ^ degM POLY
    calc (1 : Nat) < 2 ^ 1 := by norm_num
      _ ≤ 2 ^ degM POLY := Nat.pow_le_pow_right (by omega) (by omega)
  | succ i ih => exact lfsrStep_lt hd1 hdw ih

theorem lutFold_spec (w POLY K : Nat) :
    ((List.range K).foldl (lutStep w POLY) lutInit).2 = lfsrVal w POLY K ∧
    ∀ j, ((List.range K).foldl (lutStep w POLY) lutInit).1.1 j
      = if j < K then lfsrVal w POLY j else 0 := by
  induction K with
  | zero =>
    constructor
    · rfl
    · intro j
      rw [if_neg (by omega)]
      rfl
  | succ K ih =>
    rw [List.range_succ, List.foldl_append, List.foldl_cons, List.foldl_nil]
    constructor
    · show lfsrStep w POLY ((List.range K).foldl (lutStep w POLY) lutInit).2
        = lfsrVal w POLY (K + 1)
      rw [ih.1]
      rfl
    · intro j
      show (if j = K then ((List.range K).foldl (lutStep w POLY) lutInit).2
        else ((List.range K).foldl (lutStep w POLY) lutInit).1.1 j) = _
      by_cases hj : j = K
      · rw [if_pos hj, ih.1, if_pos (by omega), hj]
      · rw [if_neg hj, ih.2 j]
        by_cases hjK : j < K
        · rw [if_pos hjK, if_pos (by omega)]
        · rw [if_neg hjK, if_neg (by omega)]

theorem lutExp_lt {w POLY : Nat} (hd1 : 1 ≤ degM POLY) (hdw : degM POLY ≤ w) (i : Nat) :
    lutExp w POLY i < 2 ^ degM POLY := by
  rw [lutExp, lutState, (lutFold_spec w POLY (2 ^ degM POLY - 1)).2 i]
  by_cases hi : i < 2 ^ degM POLY - 1
  · rw [if_pos hi]
    exact lfsrVal_lt hd1 hdw i
  · rw [if_neg hi]
    exact Nat.pos_pow_of_pos _ (by omega)

theorem new_valid (val shift : Nat) : (U256.new val shift).Valid := by
  refine ⟨?_, ?_⟩
  · show (if shift < 128 then ((val % 2 ^ 128) <<< shift) % 2 ^ 128 else 0) < 2 ^ 128
    by_cases h : shift < 128
    · rw [if_pos h]
      exact Nat.mod_lt _ (Nat.pos_pow_of_pos _ (by omega))
    · rw [if_neg h]
      exact Nat.pos_pow_of_pos _ (by omega)
  · show (if (128 + 2 ^ 32 - shift % 2 ^ 32) % 2 ^ 32 < 128
        then (val % 2 ^ 128) >>> ((128 + 2 ^ 32 - shift % 2 ^ 32) % 2 ^ 32) else 0) < 2 ^ 128
    by_cases h : (128 + 2 ^ 32 - shift % 2 ^ 32) % 2 ^ 32 < 128
    · rw [if_pos h]
      calc (val % 2 ^ 128) >>> ((128 + 2 ^ 32 - shift % 2 ^ 32) % 2 ^ 32)
          ≤ val % 2 ^ 128 := by
            rw [Nat.shiftRight_eq_div_pow]
            exact Nat.div_le_self _ _
        _ < 2 ^ 128 := Nat.mod_lt _ (Nat.pos_pow_of_pos _ (by omega))
    · rw [if_neg h]
      exact Nat.pos_pow_of_pos _ (by omega)

theorem clmul128_valid (a b : Nat) : (clmul128 a b).Valid := by
  rw [clmul128]
  have hgen : ∀ (L : List Nat) (c : U256), c.Valid →
      (L.foldl (fun c i => if 0 < (b >>> i) &&& 1 then U256.xor c (U256.new a i) else c)
        c).Valid := by
    intro L
    induction L with
    | nil => intro c hc; exact hc
    | cons x xs ih =>
      intro c hc
      rw [List.foldl_cons]
      apply ih
      by_cases h : 0 < (b >>> x) &&& 1
      · rw [if_pos h]
        exact (toN_xor hc (new_valid a x)).2
      · rw [if_neg h]
        exact hc
  exact hgen _ _ ⟨Nat.pos_pow_of_pos _ (by omega), Nat.pos_pow_of_pos _ (by omega)⟩

/-- C10 (implicit): in the computation backend, for every defining
polynomial with `1 ≤ degree ≤ W` and all raw storage-type operand values
(including out-of-range ones), multiplication never fails and its result is
strictly below `2^degree(POLY)`, because `gf2_poly_div` masks the remainder
to `degree(divisor)` bits.  Stated for the integer storage widths and for
the `u128` width that computes through `U256`. -/
theorem claim_C10 :
    (∀ w POLY a b : Nat, 1 ≤ w → 1 ≤ degM POLY → degM POLY ≤ w →
      a < 2 ^ w → b < 2 ^ w →
      ∃ c, gfMulQ w POLY a b = some c ∧ c < 2 ^ degM POLY) ∧
    (∀ POLY a b : Nat, 1 ≤ degM POLY → POLY < 2 ^ 128 →
      a < 2 ^ 128 → b < 2 ^ 128 →
      ∃ c, gfMul128 POLY a b = some c ∧ c < 2 ^ degM POLY) := by
  constructor
  · intro w POLY a b hw hd1 hdw ha hb
    have hP2 : 2 ≤ POLY := two_le_of_degM_pos hd1
    have hs1 : 0 < sizeN POLY := sizeN_pos (by omega)
    have hsw : sizeN POLY ≤ w + 1 := by
      rw [degM] at hdw
      omega
    have hPlt : POLY < 2 ^ (2 * w) := by
      calc POLY < 2 ^ sizeN POLY := lt_two_pow_sizeN POLY
        _ ≤ 2 ^ (2 * w) := Nat.pow_le_pow_right (by omega) (by omega)
    have hne : POLY % 2 ^ (2 * w) ≠ 0 := by
      rw [Nat.mod_eq_of_lt hPlt]
      omega
    exact ⟨gfMul w POLY a b, by rw [gfMulQ, if_neg hne], gfMul_lt a b hw hd1 hdw⟩
  · intro POLY a b hd1 hP ha hb
    have hP2 : 2 ≤ POLY := two_le_of_degM_pos hd1
    have hmod : POLY % 2 ^ 128 = POLY := Nat.mod_eq_of_lt hP
    have hdvsv : (⟨POLY % 2 ^ 128, 0⟩ : U256).Valid :=
      ⟨Nat.mod_lt _ (Nat.pos_pow_of_pos _ (by omega)), Nat.pos_pow_of_pos _ (by omega)⟩
    have htoN : (⟨POLY % 2 ^ 128, 0⟩ : U256).toN = POLY := by
      show POLY % 2 ^ 128 + 2 ^ 128 * 0 = POLY
      rw [hmod]
      ring
    obtain ⟨p, hp, hpv1, hpv2, hid, hrem, hqb, hone⟩ :=
      u256_poly_div_spec (clmul128 a b) ⟨POLY % 2 ^ 128, 0⟩ (clmul128_valid a b) hdvsv
        (by rw [htoN]; omega)
    rw [htoN] at hrem
    have hsM : sizeN POLY - 1 = degM POLY := by rw [degM]
    rw [hsM] at hrem
    have hrem128 : p.2.toN < 2 ^ 128 := by
      apply lt_of_lt_of_le hrem
      apply Nat.pow_le_pow_right (by omega)
      rw [degM] at hd1 ⊢
      have := sizeN_le_of_lt_two_pow hP
      omega
    refine ⟨p.2.lower, ?_, ?_⟩
    · rw [gfMul128, hp]
      rfl
    · rw [← toN_mod_128 hpv2, Nat.mod_eq_of_lt hrem128]
      exact hrem

/-- Witness for C10 at `(w, POLY) = (8, 0x11D)` with operands `0xCA` and
`0x53`, and the same polynomial through the `u128`/`U256` path. -/
theorem claim_C10_witness :
    (∃ c, gfMulQ 8 285 202 83 = some c ∧ c < 2 ^ degM 285) ∧
    (∃ c, gfMul128 285 202 83 = some c ∧ c < 2 ^ degM 285) :=
  ⟨claim_C10.1 8 285 202 83 (by norm_num) (by decide) (by decide) (by norm_num) (by norm_num),
   claim_C10.2 285 202 83 (by decide) (by norm_num) (by norm_num) (by norm_num)⟩

/-- C9: in both backends, sums and products of elements with values below
`NUM_ELEM = 2^M` again have values below `2^M` (addition is the shared XOR;
`gfMul` is the computation backend, `lutMul` the table backend). -/
theorem claim_C9 :
    ∀ w POLY a b : Nat, 1 ≤ w → 1 ≤ degM POLY → degM POLY ≤ w →
      a < 2 ^ degM POLY → b < 2 ^ degM POLY →
      gfAdd a b < 2 ^ degM POLY ∧ gfMul w POLY a b < 2 ^ degM POLY ∧
      lutMul w POLY a b < 2 ^ degM POLY := by
  intro w POLY a b hw hd1 hdw ha hb
  refine ⟨Nat.xor_lt_two_pow ha hb, gfMul_lt a b hw hd1 hdw, ?_⟩
  rw [lutMul]
  by_cases h : a = 0 ∨ b = 0
  · rw [if_pos h]
    exact Nat.pos_pow_of_pos _ (by omega)
  · rw [if_neg h]
    exact lutExp_lt hd1 hdw _

/-- Witness for C9 at `(w, POLY) = (8, 0x11D)` with operands `7` and `0xC8`. -/
theorem claim_C9_witness :
    gfAdd 7 200 < 2 ^ degM 285 ∧ gfMul 8 285 7 200 < 2 ^ degM 285 ∧
    lutMul 8 285 7 200 < 2 ^ degM 285 :=
  claim_C9 8 285 7 200 (by norm_num) (by decide) (by decide) (by decide) (by decide)

/-- C6: in both backends, division fails (with the divide-by-zero panic)
exactly when the divisor is `ZERO`, and `inverse` fails exactly on `ZERO`;
in particular `ONE / ZERO` and `ZERO.inverse()` fail.  `none` models the
panic, so no partial result is produced on failure. -/
theorem claim_C6 :
    ∀ w POLY a b : Nat, 1 ≤ w → 1 ≤ degM POLY → degM POLY ≤ w →
      (gfDiv w POLY a b = none ↔ b = 0) ∧
      (gfInverse w POLY a = none ↔ a = 0) ∧
      (lutDiv w POLY a b = none ↔ b = 0) ∧
      (lutInverse w POLY a = none ↔ a = 0) ∧
      gfDiv w POLY 1 0 = none ∧ gfInverse w POLY 0 = none ∧
      lutDiv w POLY 1 0 = none ∧ lutInverse w POLY 0 = none := by
  intro w POLY a b hw hd1 hdw
  have hP2 : 2 ≤ POLY := two_le_of_degM_pos hd1
  have hs1 : 0 < sizeN POLY := sizeN_pos (by omega)
  have hsw : sizeN POLY ≤ w + 1 := by
    rw [degM] at hdw
    omega
  have hPlt : POLY < 2 ^ (2 * w) := by
    calc POLY < 2 ^ sizeN POLY := lt_two_pow_sizeN POLY
      _ ≤ 2 ^ (2 * w) := Nat.pow_le_pow_right (by omega) (by omega)
  have hne : POLY % 2 ^ (2 * w) ≠ 0 := by
    rw [Nat.mod_eq_of_lt hPlt]
    omega
  have hdiv : ∀ x y : Nat, gfDiv w POLY x y = none ↔ y = 0 := by
    intro x y
    constructor
    · intro hcon
      by_contra hy
      rw [gfDiv, gfInverse, if_neg hy, Option.some_bind, gfMulQ, if_neg hne] at hcon
      exact Option.noConfusion hcon
    · intro hy
      rw [gfDiv, gfInverse, if_pos hy, Option.none_bind]
  have hinv : ∀ x : Nat, gfInverse w POLY x = none ↔ x = 0 := by
    intro x
    constructor
    · intro hcon
      by_contra hx
      rw [gfInverse, if_neg hx] at hcon
      exact Option.noConfusion hcon
    · intro hx
      rw [gfInverse, if_pos hx]
  have hldiv : ∀ x y : Nat, lutDiv w POLY x y = none ↔ y = 0 := by
    intro x y
    constructor
    · intro hcon
      by_contra hy
      rw [lutDiv, if_neg hy] at hcon
      by_cases hx : x = 0
      · rw [if_pos hx] at hcon
        exact Option.noConfusion hcon
      · rw [if_neg hx] at hcon
        exact Option.noConfusion hcon
    · intro hy
      rw [lutDiv, if_pos hy]
  have hlinv : ∀ x : Nat, lutInverse w POLY x = none ↔ x = 0 := by
    intro x
    constructor
    · intro hcon
      by_contra hx
      rw [lutInverse, if_neg hx] at hcon
      exact Option.noConfusion hcon
    · intro hx
      rw [lutInverse, if_pos hx]
  exact ⟨hdiv a b, hinv a, hldiv a b, hlinv a,
    (hdiv 1 0).mpr rfl, (hinv 0).mpr rfl, (hldiv 1 0).mpr rfl, (hlinv 0).mpr rfl⟩

/-- Witness for C6 at `(w, POLY) = (8, 0x11D)` with `a = 1`, `b = 0`. -/
theorem claim_C6_witness :
    (gfDiv 8 285 1 0 = none ↔ (0 : Nat) = 0) ∧
    (gfInverse 8 285 1 = none ↔ (1 : Nat) = 0) ∧
    (lutDiv 8 285 1 0 = none ↔ (0 : Nat) = 0) ∧
    (lutInverse 8 285 1 = none ↔ (1 : Nat) = 0) ∧
    gfDiv 8 285 1 0 = none ∧ gfInverse 8 285 0 = none ∧
    lutDiv 8 285 1 0 = none ∧ lutInverse 8 285 0 = none :=
  claim_C6 8 285 1 0 (by norm_num) (by decide) (by decide)

/-- C8 (amended): `validate` rejects every polynomial other than the
special-cased `0x3` that is even-valued, has an even number of set bits,
or whose exponent table contains the value `1` at an index in
`[2, NUM_ELEM)`.  The original claim's "no exception for any particular
POLY" clause is refuted by `claim_C8_counterexample`: `POLY = 0x3` is
accepted outright even though its popcount is even. -/
theorem claim_C8 :
    ∀ w POLY : Nat, POLY ≠ 3 →
      (POLY % 2 = 0 ∨ popCount POLY % 2 = 0 ∨
        ∃ i, 2 ≤ i ∧ i < 2 ^ degM POLY ∧ lutExp w POLY i = 1) →
      lutValidate w POLY = false := by
  intro w POLY h3 hcases
  rw [lutValidate, if_neg h3]
  rcases hcases with h | h | ⟨i, hi2, hiK, hexp⟩
  · rw [if_pos h]
  · by_cases he : POLY % 2 = 0
    · rw [if_pos he]
    · rw [if_neg he, if_pos h]
  · by_cases he : POLY % 2 = 0
    · rw [if_pos he]
    · rw [if_neg he]
      by_cases hp : popCount POLY % 2 = 0
      · rw [if_pos hp]
      · rw [if_neg hp]
        have hany : ((List.range' 2 (2 ^ degM POLY - 2)).any
            fun i => lutExp w POLY i == 1) = true := by
          rw [List.any_eq_true]
          refine ⟨i, ?_, by rw [hexp]; rfl⟩
          rw [List.mem_range'_1]
          exact ⟨hi2, by omega⟩
        rw [hany]
        rfl

/-- Witness for the amended C8 at `(w, POLY) = (8, 0x5)`: `0x5` has an even
number of set bits, so validation rejects it. -/
theorem claim_C8_witness : lutValidate 8 5 = false :=
  claim_C8 8 5 (by decide) (Or.inr (Or.inl (by decide)))

/-- Counterexample to the original C8: the table-backend validation accepts
`POLY = 0x3` outright although its number of set bits is even (so the
claimed even-popcount rejection does not apply to it). -/
theorem claim_C8_counterexample : lutValidate 16 3 = true ∧ popCount 3 % 2 = 0 := by
  constructor
  · rfl
  · decide

/-! ### The quotient ring GF(2)[X]/(POLY) -/

theorem phi_xor (POLY x y : Nat) : phi POLY (x ^^^ y) = phi POLY x + phi POLY y := by
  rw [phi, phi, phi, toPoly_xor, map_add]

theorem phi_cmul (POLY x y : Nat) : phi POLY (cmul x y) = phi POLY x * phi POLY y := by
  rw [phi, phi, phi, toPoly_cmul, map_mul]

theorem phi_zero (POLY : Nat) : phi POLY 0 = 0 := by
  rw [phi, toPoly_zero, map_zero]

theorem phi_one (POLY : Nat) : phi POLY 1 = 1 := by
  rw [phi, toPoly_one, map_one]

theorem phi_self (POLY : Nat) : phi POLY POLY = 0 := by
  rw [phi, Ideal.Quotient.eq_zero_iff_mem]
  exact Ideal.subset_span (Set.mem_singleton _)

theorem quot_add_self (POLY : Nat) (u : Polynomial (ZMod 2) ⧸ Ideal.span {toPoly POLY}) :
    u + u = 0 := by
  have h2 : ((1 : Polynomial (ZMod 2) ⧸ Ideal.span {toPoly POLY}) + 1) = 0 := by
    have h1 : ((1 : Polynomial (ZMod 2) ⧸ Ideal.span {toPoly POLY}) + 1)
        = Ideal.Quotient.mk (Ideal.span {toPoly POLY}) (1 + 1) := by
      rw [map_add, map_one]
    rw [h1, poly_add_self 1, map_zero]
  calc u + u = (1 + 1) * u := by ring
    _ = 0 := by rw [h2, zero_mul]

theorem phi_inj {POLY x y : Nat} (hd1 : 1 ≤ degM POLY)
    (hx : x < 2 ^ degM POLY) (hy : y < 2 ^ degM POLY) (h : phi POLY x = phi POLY y) :
    x = y := by
  have hP0 : POLY ≠ 0 := by
    have := two_le_of_degM_pos hd1
    omega
  rw [phi, phi, Ideal.Quotient.eq, Ideal.mem_span_singleton] at h
  have hsub : toPoly x - toPoly y = toPoly (x ^^^ y) := by
    rw [toPoly_xor, sub_eq_iff_eq_add]
    rw [add_assoc, poly_add_self, add_zero]
  rw [hsub] at h
  have hdeg : (toPoly (x ^^^ y)).natDegree < (toPoly POLY).natDegree := by
    rw [natDegree_toPoly hP0]
    exact natDegree_toPoly_lt (Nat.xor_lt_two_pow hx hy) hd1
  have hz : toPoly (x ^^^ y) = 0 := Polynomial.eq_zero_of_dvd_of_natDegree_lt h hdeg
  exact Nat.xor_eq_zero.mp (toPoly_eq_zero.mp hz)

theorem phi_gfMul {w POLY : Nat} (x y : Nat) (hw : 1 ≤ w) (hd1 : 1 ≤ degM POLY)
    (hdw : degM POLY ≤ w) (hx : x < 2 ^ w) (hy : y < 2 ^ w) :
    phi POLY (gfMul w POLY x y) = phi POLY x * phi POLY y := by
  have hP2 : 2 ≤ POLY := two_le_of_degM_pos hd1
  have hs1 : 0 < sizeN POLY := sizeN_pos (by omega)
  have hsw : sizeN POLY ≤ w + 1 := by
    rw [degM] at hdw
    omega
  have hPlt : POLY < 2 ^ (2 * w) := by
    calc POLY < 2 ^ sizeN POLY := lt_two_pow_sizeN POLY
      _ ≤ 2 ^ (2 * w) := Nat.pow_le_pow_right (by omega) (by omega)
  have hmod : POLY % 2 ^ (2 * w) = POLY := Nat.mod_eq_of_lt hPlt
  obtain ⟨hid, hrem, _⟩ :=
    polyDivCore_spec (2 * w) (clmul w x y) POLY (by omega) hPlt (clmul_lt w x y)
  have hcl : clmul w x y = cmul x y := clmul_eq_cmul w x y (le_of_lt hx) hy
  have hremw : (polyDivCore (2 * w) (clmul w x y) POLY).2 < 2 ^ w := by
    apply lt_of_lt_of_le hrem
    apply Nat.pow_le_pow_right (by omega)
    rw [degM] at hdw
    omega
  rw [gfMul, hmod, Nat.mod_eq_of_lt hremw]
  have h1 : phi POLY (clmul w x y)
      = phi POLY ((polyDivCore (2 * w) (clmul w x y) POLY).2) := by
    conv => lhs; rw [hid]
    rw [phi_xor, phi_cmul, phi_self, mul_zero, zero_add]
  rw [← h1, hcl, phi_cmul]

theorem gcd_one_of_divides {POLY a r : Nat} (hirr : Irreducible (toPoly POLY))
    (ha0 : a ≠ 0) (hd1 : 1 ≤ degM POLY) (haM : a < 2 ^ degM POLY)
    (hrP : toPoly r ∣ toPoly POLY) (hra : toPoly r ∣ toPoly a) : r = 1 := by
  obtain ⟨c, hc⟩ := hrP
  rcases hirr.isUnit_or_isUnit hc with hu | hu
  · rw [Polynomial.isUnit_iff] at hu
    obtain ⟨u, hu1, hu2⟩ := hu
    have hall : ∀ v : ZMod 2, v ≠ 0 → v = 1 := by decide
    have hu1' : u = 1 := hall u hu1.ne_zero
    rw [hu1', Polynomial.C_1] at hu2
    apply toPoly_inj
    rw [← hu2, toPoly_one]
  · exfalso
    obtain ⟨v, hv⟩ := hu
    have hPr : toPoly POLY ∣ toPoly r := by
      refine ⟨(↑v⁻¹ : Polynomial (ZMod 2)), ?_⟩
      rw [hc, ← hv, mul_assoc, Units.mul_inv, mul_one]
    have hPa : toPoly POLY ∣ toPoly a := dvd_trans hPr hra
    have hP0 : POLY ≠ 0 := by
      have := two_le_of_degM_pos hd1
      omega
    have hdeg : (toPoly a).natDegree < (toPoly POLY).natDegree := by
      rw [natDegree_toPoly hP0]
      exact natDegree_toPoly_lt haM hd1
    exact toPoly_ne_zero ha0 (Polynomial.eq_zero_of_dvd_of_natDegree_lt hPa hdeg)

theorem polyDivCore_quot_sizeN (w dvd dvs : Nat) (hdvs0 : dvs ≠ 0)
    (hdvsw : dvs < 2 ^ w) (hdvdw : dvd < 2 ^ w) :
    sizeN (polyDivCore w dvd dvs).1 ≤ sizeN dvd - sizeN dvs + 1 := by
  obtain ⟨hid, hrem, _⟩ := polyDivCore_spec w dvd dvs hdvs0 hdvsw hdvdw
  by_cases hq0 : (polyDivCore w dvd dvs).1 = 0
  · rw [hq0, show sizeN 0 = 0 from rfl]
    omega
  · have hs := sizeN_cmul hq0 hdvs0
    have h1 : dvd ^^^ (polyDivCore w dvd dvs).2
        = cmul (polyDivCore w dvd dvs).1 dvs := by
      conv => lhs; lhs; rw [hid]
      rw [Nat.xor_assoc, Nat.xor_self, Nat.xor_zero]
    have hsr : sizeN (polyDivCore w dvd dvs).2 ≤ sizeN dvs - 1 := sizeN_le.mpr hrem
    have hmax : sizeN (cmul (polyDivCore w dvd dvs).1 dvs)
        ≤ max (sizeN dvd) (sizeN (polyDivCore w dvd dvs).2) := by
      rw [← h1]
      apply sizeN_le.mpr
      apply Nat.xor_lt_two_pow
      · exact lt_of_lt_of_le (lt_two_pow_sizeN _)
          (Nat.pow_le_pow_right (by omega) (le_max_left _ _))
      · exact lt_of_lt_of_le (lt_two_pow_sizeN _)
          (Nat.pow_le_pow_right (by omega) (le_max_right _ _))
    have hq1 : 0 < sizeN (polyDivCore w dvd dvs).1 := sizeN_pos hq0
    have hd1 : 0 < sizeN dvs := sizeN_pos hdvs0
    rw [hs] at hmax
    omega

theorem egcd_correct {W POLY : Nat} (a : Nat)
    (hw : 1 ≤ W) (hW128 : W ≤ 128)
    (hd1 : 1 ≤ degM POLY) (hdW : degM POLY ≤ W) (hP128 : POLY < 2 ^ 128)
    (hirr : Irreducible (toPoly POLY)) (ha0 : a ≠ 0) (haM : a < 2 ^ degM POLY) :
    ∀ n t nt r nr, sizeN nr ≤ n →
      t < 2 ^ degM POLY → nt < 2 ^ degM POLY →
      r ≠ 0 → r < 2 ^ 128 → nr < 2 ^ 128 →
      sizeN r ≤ degM POLY + 1 → sizeN nr ≤ degM POLY →
      phi POLY t * phi POLY a = phi POLY r →
      phi POLY nt * phi POLY a = phi POLY nr →
      (∀ p : Polynomial (ZMod 2), p ∣ toPoly r → p ∣ toPoly nr →
        p ∣ toPoly POLY ∧ p ∣ toPoly a) →
      egcdLoop W POLY t nt r nr < 2 ^ degM POLY ∧
      phi POLY (egcdLoop W POLY t nt r nr) * phi POLY a = 1 := by
  have hMW : (2 : Nat) ^ degM POLY ≤ 2 ^ W := Nat.pow_le_pow_right (by omega) hdW
  have hend : ∀ t nt r : Nat, t < 2 ^ degM POLY → r ≠ 0 →
      phi POLY t * phi POLY a = phi POLY r →
      (∀ p : Polynomial (ZMod 2), p ∣ toPoly r → p ∣ toPoly 0 →
        p ∣ toPoly POLY ∧ p ∣ toPoly a) →
      egcdLoop W POLY t nt r 0 < 2 ^ degM POLY ∧
      phi POLY (egcdLoop W POLY t nt r 0) * phi POLY a = 1 := by
    intro t nt r ht hr0 hpt hcd
    have hz : egcdLoop W POLY t nt r 0 = t := by
      rw [egcdLoop, dif_pos rfl]
    have hdv := hcd (toPoly r) dvd_rfl (by rw [toPoly_zero]; exact dvd_zero _)
    have hr1 : r = 1 := gcd_one_of_divides hirr ha0 hd1 haM hdv.1 hdv.2
    rw [hz]
    refine ⟨ht, ?_⟩
    rw [hpt, hr1, phi_one]
  intro n
  induction n with
  | zero =>
    intro t nt r nr hsz ht hnt hr0 hr128 hnr128 hszr hsznr hpt hpnt hcd
    have hnr : nr = 0 := sizeN_eq_zero.mp (by omega)
    subst hnr
    exact hend t nt r ht hr0 hpt hcd
  | succ n ih =>
    intro t nt r nr hsz ht hnt hr0 hr128 hnr128 hszr hsznr hpt hpnt hcd
    by_cases hnr0 : nr = 0
    · subst hnr0
      exact hend t nt r ht hr0 hpt hcd
    by_cases hnr1 : nr = 1
    · subst hnr1
      have hstep : egcdLoop W POLY t nt r 1 = nt := by
        rw [egcdLoop, dif_neg (by omega : ¬ (1 : Nat) = 0), polyDivCore_one]
        rw [egcdLoop, dif_pos rfl]
      rw [hstep]
      refine ⟨hnt, ?_⟩
      rw [hpnt, phi_one]
    · have hnr2 : 2 ≤ nr := by omega
      obtain ⟨hid, hrem, hqb⟩ := polyDivCore_spec 128 r nr hnr0 hnr128 hr128
      have hsznr2 : 2 ≤ sizeN nr := by
        by_contra hc
        have hle : sizeN nr ≤ 1 := by omega
        rw [sizeN_le] at hle
        omega
      have hqs : sizeN (polyDivCore 128 r nr).1 ≤ degM POLY :=
        le_trans (polyDivCore_quot_sizeN 128 r nr hnr0 hnr128 hr128) (by omega)
      have hq : (polyDivCore 128 r nr).1 < 2 ^ degM POLY :=
        lt_of_lt_of_le (lt_two_pow_sizeN _) (Nat.pow_le_pow_right (by omega) hqs)
      have hqW : (polyDivCore 128 r nr).1 % 2 ^ W = (polyDivCore 128 r nr).1 :=
        Nat.mod_eq_of_lt (lt_of_lt_of_le hq hMW)
      have hntW : nt % 2 ^ W = nt := Nat.mod_eq_of_lt (lt_of_lt_of_le hnt hMW)
      have hstep : egcdLoop W POLY t nt r nr
          = egcdLoop W POLY nt
              (t ^^^ gfMul W POLY ((polyDivCore 128 r nr).1 % 2 ^ W) (nt % 2 ^ W))
              nr (polyDivCore 128 r nr).2 := by
        rw [egcdLoop, dif_neg hnr0]
      rw [hstep]
      have hsrem : sizeN (polyDivCore 128 r nr).2 ≤ sizeN nr - 1 := sizeN_le.mpr hrem
      have hphiq : phi POLY (gfMul W POLY ((polyDivCore 128 r nr).1 % 2 ^ W) (nt % 2 ^ W))
          = phi POLY (polyDivCore 128 r nr).1 * phi POLY nt := by
        rw [hqW, hntW]
        exact phi_gfMul _ _ hw hd1 hdW (lt_of_lt_of_le hq hMW) (lt_of_lt_of_le hnt hMW)
      have hphirem : phi POLY (polyDivCore 128 r nr).2
          = phi POLY r + phi POLY (polyDivCore 128 r nr).1 * phi POLY nr := by
        have h1 : phi POLY r = phi POLY (polyDivCore 128 r nr).1 * phi POLY nr
            + phi POLY (polyDivCore 128 r nr).2 := by
          conv => lhs; rw [hid]
          rw [phi_xor, phi_cmul]
        rw [h1, add_comm, ← add_assoc, quot_add_self, zero_add]
      apply ih
      · omega
      · exact hnt
      · exact Nat.xor_lt_two_pow ht (gfMul_lt _ _ hw hd1 hdW)
      · exact hnr0
      · exact hnr128
      · calc (polyDivCore 128 r nr).2 < 2 ^ (sizeN nr - 1) := hrem
          _ ≤ 2 ^ 128 := Nat.pow_le_pow_right (by omega) (by omega)
      · omega
      · omega
      · exact hpnt
      · rw [phi_xor, hphiq]
        calc (phi POLY t + phi POLY (polyDivCore 128 r nr).1 * phi POLY nt) * phi POLY a
            = phi POLY t * phi POLY a
              + phi POLY (polyDivCore 128 r nr).1 * (phi POLY nt * phi POLY a) := by ring
          _ = phi POLY r + phi POLY (polyDivCore 128 r nr).1 * phi POLY nr := by
              rw [hpt, hpnt]
          _ = phi POLY (polyDivCore 128 r nr).2 := hphirem.symm
      · intro p hpnr hprem
        refine hcd p ?_ hpnr
        conv => rhs; rw [hid]
        rw [toPoly_xor, toPoly_cmul]
        exact dvd_add (Dvd.dvd.mul_left hpnr _) hprem

theorem toPoly_three : toPoly 3 = Polynomial.X + 1 := by
  rw [toPoly, show sizeN 3 = 2 from rfl, Finset.sum_range_succ, Finset.sum_range_one,
    show Nat.testBit 3 0 = true from by decide, show Nat.testBit 3 1 = true from by decide]
  simp [Polynomial.monomial_one_one_eq_X]
  rw [add_comm]

theorem irreducible_toPoly_three : Irreducible (toPoly 3) := by
  have h : toPoly 3 = Polynomial.X - Polynomial.C 1 := by
    rw [toPoly_three, Polynomial.C_1, sub_eq_add_neg]
    congr 1
    exact eq_neg_of_add_eq_zero_left (poly_add_self 1)
  rw [h]
  exact Polynomial.irreducible_X_sub_C 1

theorem gfInverse_correct {W POLY : Nat} (a : Nat)
    (hw : 1 ≤ W) (hW128 : W ≤ 128) (hP128 : POLY < 2 ^ 128)
    (hirr : Irreducible (toPoly POLY)) (hd1 : 1 ≤ degM POLY) (hdW : degM POLY ≤ W)
    (ha0 : a ≠ 0) (haM : a < 2 ^ degM POLY) :
    ∃ t, gfInverse W POLY a = some t ∧ t < 2 ^ degM POLY ∧
      phi POLY t * phi POLY a = 1 := by
  have hP2 := two_le_of_degM_pos hd1
  have hMW : (2 : Nat) ^ degM POLY ≤ 2 ^ W := Nat.pow_le_pow_right (by omega) hdW
  have hM128 : (2 : Nat) ^ degM POLY ≤ 2 ^ 128 :=
    Nat.pow_le_pow_right (by omega) (by omega)
  have hone : (1 : Nat) < 2 ^ degM POLY :=
    lt_of_lt_of_le (by norm_num : (1 : Nat) < 2 ^ 1) (Nat.pow_le_pow_right (by omega) hd1)
  have hszP : sizeN POLY ≤ degM POLY + 1 := by
    rw [degM]
    have := sizeN_pos (show POLY ≠ 0 by omega)
    omega
  have hinit := egcd_correct a hw hW128 hd1 hdW hP128 hirr ha0 haM (sizeN a) 0 1 POLY a
    le_rfl
    (Nat.pos_pow_of_pos _ (by omega))
    hone
    (by omega)
    hP128
    (lt_of_lt_of_le haM hM128)
    hszP
    (sizeN_le.mpr haM)
    (by rw [phi_zero, zero_mul, phi_self])
    (by rw [phi_one, one_mul])
    (fun p h1 h2 => ⟨h1, h2⟩)
  obtain ⟨htlt, hphit⟩ := hinit
  have htW : egcdLoop W POLY 0 1 POLY a % 2 ^ W = egcdLoop W POLY 0 1 POLY a :=
    Nat.mod_eq_of_lt (lt_of_lt_of_le htlt hMW)
  refine ⟨egcdLoop W POLY 0 1 POLY a, ?_, htlt, hphit⟩
  rw [gfInverse, if_neg ha0, htW]

/-- C2: for an irreducible defining polynomial fitting the storage width
and any nonzero in-range element `a`, the computation backend's extended
Euclidean `inverse` succeeds, `a * inverse(a) = ONE`, and `a / a = ONE`. -/
theorem claim_C2 :
    ∀ W POLY a : Nat, 1 ≤ W → W ≤ 128 → POLY < 2 ^ 128 →
      Irreducible (toPoly POLY) → 1 ≤ degM POLY → degM POLY ≤ W →
      a ≠ 0 → a < 2 ^ degM POLY →
      ∃ t, gfInverse W POLY a = some t ∧ gfMul W POLY a t = 1 ∧
        gfDiv W POLY a a = some 1 := by
  intro W POLY a hw hW128 hP128 hirr hd1 hdW ha0 haM
  have hP2 := two_le_of_degM_pos hd1
  have hMW : (2 : Nat) ^ degM POLY ≤ 2 ^ W := Nat.pow_le_pow_right (by omega) hdW
  have hone : (1 : Nat) < 2 ^ degM POLY :=
    lt_of_lt_of_le (by norm_num : (1 : Nat) < 2 ^ 1) (Nat.pow_le_pow_right (by omega) hd1)
  obtain ⟨t, hts, htM, htphi⟩ := gfInverse_correct a hw hW128 hP128 hirr hd1 hdW ha0 haM
  have hmul1 : gfMul W POLY a t = 1 := by
    apply phi_inj hd1 (gfMul_lt _ _ hw hd1 hdW) hone
    rw [phi_gfMul _ _ hw hd1 hdW (lt_of_lt_of_le haM hMW) (lt_of_lt_of_le htM hMW),
      phi_one, mul_comm]
    exact htphi
  have hszP : sizeN POLY ≤ degM POLY + 1 := by
    rw [degM]
    have := sizeN_pos (show POLY ≠ 0 by omega)
    omega
  have hPlt2w : POLY < 2 ^ (2 * W) := by
    calc POLY < 2 ^ sizeN POLY := lt_two_pow_sizeN POLY
      _ ≤ 2 ^ (2 * W) := Nat.pow_le_pow_right (by omega) (by omega)
  have hne : POLY % 2 ^ (2 * W) ≠ 0 := by
    rw [Nat.mod_eq_of_lt hPlt2w]
    omega
  exact ⟨t, hts, hmul1, by rw [gfDiv, hts, Option.some_bind, gfMulQ, if_neg hne, hmul1]⟩

/-- Witness for C2 at `(W, POLY, a) = (8, 0x3, 1)`. -/
theorem claim_C2_witness :
    ∃ t, gfInverse 8 3 1 = some t ∧ gfMul 8 3 1 t = 1 ∧ gfDiv 8 3 1 1 = some 1 :=
  claim_C2 8 3 1 (by norm_num) (by norm_num) (by norm_num) irreducible_toPoly_three
    (by decide) (by decide) (by decide) (by decide)

/-! ### The LFSR of the table generator is multiplication by alpha -/

theorem gfMul_two_eq_lfsrStep {w POLY v : Nat} (hw : 1 ≤ w) (hd1 : 1 ≤ degM POLY)
    (hdw : degM POLY ≤ w) (hv : v < 2 ^ degM POLY) :
    gfMul w POLY 2 v = lfsrStep w POLY v := by
  have hP2 : 2 ≤ POLY := two_le_of_degM_pos hd1
  have hs1 : 0 < sizeN POLY := sizeN_pos (by omega)
  have hsP : sizeN POLY = degM POLY + 1 := by
    rw [degM]
    omega
  have hPlt : POLY < 2 ^ (degM POLY + 1) := by
    rw [← hsP]
    exact lt_two_pow_sizeN POLY
  have hPge : 2 ^ degM POLY ≤ POLY := by
    have := two_pow_sizeN_sub_one_le (show POLY ≠ 0 by omega)
    rw [hsP] at this
    simpa using this
  have hMw : (2 : Nat) ^ degM POLY ≤ 2 ^ w := Nat.pow_le_pow_right (by omega) hdw
  have hM1w : (2 : Nat) ^ (degM POLY + 1) ≤ 2 ^ (2 * w) :=
    Nat.pow_le_pow_right (by omega) (by omega)
  have hP2w : POLY < 2 ^ (2 * w) := by omega
  have hmod : POLY % 2 ^ (2 * w) = POLY := Nat.mod_eq_of_lt hP2w
  have h2le : (2 : Nat) ≤ 2 ^ w := by
    calc (2 : Nat) = 2 ^ 1 := by norm_num
      _ ≤ 2 ^ w := Nat.pow_le_pow_right (by omega) (by omega)
  have hvw : v < 2 ^ w := lt_of_lt_of_le hv hMw
  have hcl : clmul w 2 v = cmul 2 v := clmul_eq_cmul w 2 v h2le hvw
  have hc2 : cmul 2 v = 2 * v := by
    apply toPoly_inj
    rw [toPoly_cmul, toPoly_two, ← toPoly_two_mul]
  have hMsplit : (2 : Nat) ^ (degM POLY + 1) = 2 * 2 ^ degM POLY := by
    rw [pow_succ]
    ring
  by_cases h : 2 ^ (degM POLY - 1) ≤ v
  · have h2v : 2 * v < 2 ^ (degM POLY + 1) := by omega
    have hvne : v ≠ 0 := by
      have := Nat.pos_pow_of_pos (degM POLY - 1) (show 0 < 2 by omega)
      omega
    have hsv : sizeN v = degM POLY := by
      have h1 : sizeN v ≤ degM POLY := sizeN_le.mpr hv
      by_contra hc
      have h2 : sizeN v ≤ degM POLY - 1 := by
        have := sizeN_pos hvne
        omega
      have h3 : v < 2 ^ (degM POLY - 1) := sizeN_le.mp h2
      omega
    have htv : (2 * v).testBit (degM POLY) = true := by
      rw [show degM POLY = (degM POLY - 1) + 1 by omega, testBit_two_mul_succ,
        show degM POLY - 1 = sizeN v - 1 by omega]
      exact testBit_sizeN_sub_one hvne
    have htP : POLY.testBit (degM POLY) = true := by
      rw [show degM POLY = sizeN POLY - 1 by omega]
      exact testBit_sizeN_sub_one (by omega)
    have hxlt : 2 * v ^^^ POLY < 2 ^ degM POLY := by
      apply xor_lt_of_testBit_eq h2v hPlt
      rw [htv, htP]
    have hdiv : polyDivCore (2 * w) (2 * v) POLY = (1, 2 * v ^^^ POLY) := by
      apply polyDivCore_unique (2 * w) (2 * v) POLY 1 (2 * v ^^^ POLY) (by omega) hP2w
        (by omega)
      · rw [hsP]
        simpa using hxlt
      · rw [cmul_one_left, xor_left_comm_nat, Nat.xor_self, Nat.xor_zero]
    rw [gfMul, hmod, hcl, hc2, hdiv]
    have hstep : lfsrStep w POLY v = ((v <<< 1) % 2 ^ w) ^^^ (POLY % 2 ^ w) := by
      simp only [lfsrStep, if_pos h]
    rw [hstep, show ((1 : Nat), 2 * v ^^^ POLY).2 = 2 * v ^^^ POLY from rfl,
      xor_mod_two_pow, shiftLeft_one_eq]
  · have h2v : 2 * v < 2 ^ degM POLY := by
      have hvlt : v < 2 ^ (degM POLY - 1) := by omega
      have hsplit2 : (2 : Nat) ^ degM POLY = 2 * 2 ^ (degM POLY - 1) := by
        conv => lhs; rw [show degM POLY = (degM POLY - 1) + 1 by omega]
        rw [pow_succ]
        ring
      omega
    have hdiv : polyDivCore (2 * w) (2 * v) POLY = (0, 2 * v) := by
      apply polyDivCore_unique (2 * w) (2 * v) POLY 0 (2 * v) (by omega) hP2w (by omega)
      · rw [hsP]
        simpa using h2v
      · rw [cmul_zero_left, Nat.zero_xor]
    rw [gfMul, hmod, hcl, hc2, hdiv]
    have hstep : lfsrStep w POLY v = (v <<< 1) % 2 ^ w := by
      simp only [lfsrStep, if_neg h]
    rw [hstep, show ((0 : Nat), 2 * v).2 = 2 * v from rfl, shiftLeft_one_eq,
      Nat.mod_eq_of_lt (lt_of_lt_of_le h2v hMw)]

theorem alphaPow_lt {w POLY : Nat} (hw : 1 ≤ w) (hd1 : 1 ≤ degM POLY)
    (hdw : degM POLY ≤ w) : ∀ i, alphaPow w POLY i < 2 ^ degM POLY := by
  intro i
  induction i with
  | zero =>
    show 1 < 2 ^ degM POLY
    calc (1 : Nat) < 2 ^ 1 := by norm_num
      _ ≤ 2 ^ degM POLY := Nat.pow_le_pow_right (by omega) (by omega)
  | succ i ih => exact gfMul_lt _ _ hw hd1 hdw

theorem lfsrVal_eq_alphaPow {w POLY : Nat} (hw : 1 ≤ w) (hd1 : 1 ≤ degM POLY)
    (hdw : degM POLY ≤ w) : ∀ i, lfsrVal w POLY i = alphaPow w POLY i := by
  intro i
  induction i with
  | zero => rfl
  | succ i ih =>
    show lfsrStep w POLY (lfsrVal w POLY i) = gfMul w POLY 2 (alphaPow w POLY i)
    rw [ih, gfMul_two_eq_lfsrStep hw hd1 hdw (alphaPow_lt hw hd1 hdw i)]

theorem phi_alphaPow {w POLY : Nat} (hw2 : 2 ≤ w) (hd1 : 1 ≤ degM POLY)
    (hdw : degM POLY ≤ w) :
    ∀ i, phi POLY (alphaPow w POLY i) = (phi POLY 2) ^ i := by
  have h2w : (2 : Nat) < 2 ^ w := by
    calc (2 : Nat) < 2 ^ 2 := by norm_num
      _ ≤ 2 ^ w := Nat.pow_le_pow_right (by omega) hw2
  intro i
  induction i with
  | zero => exact phi_one POLY
  | succ i ih =>
    show phi POLY (gfMul w POLY 2 (alphaPow w POLY i)) = _
    rw [phi_gfMul 2 _ (by omega) hd1 hdw h2w
      (lt_of_lt_of_le (alphaPow_lt (by omega) hd1 hdw i)
        (Nat.pow_le_pow_right (by omega) hdw)), ih, pow_succ]
    ring

theorem not_dvd_X_pow {POLY : Nat} (hirr : Irreducible (toPoly POLY))
    (hd2 : 2 ≤ degM POLY) (i : Nat) :
    ¬ toPoly POLY ∣ (Polynomial.X : Polynomial (ZMod 2)) ^ i := by
  intro h
  have hP0 : POLY ≠ 0 := by
    have := two_le_of_degM_pos (show 1 ≤ degM POLY by omega)
    omega
  by_cases hi : i = 0
  · subst hi
    rw [pow_zero] at h
    exact hirr.not_unit (isUnit_of_dvd_one h)
  · have hX : toPoly POLY ∣ (Polynomial.X : Polynomial (ZMod 2)) :=
      hirr.prime.dvd_of_dvd_pow h
    have hdeg : (Polynomial.X : Polynomial (ZMod 2)).natDegree
        < (toPoly POLY).natDegree := by
      rw [natDegree_toPoly hP0, Polynomial.natDegree_X]
      rw [degM] at hd2
      omega
    exact Polynomial.X_ne_zero (Polynomial.eq_zero_of_dvd_of_natDegree_lt hX hdeg)

theorem phi_two_pow_ne_zero {POLY : Nat} (hirr : Irreducible (toPoly POLY))
    (hd2 : 2 ≤ degM POLY) (i : Nat) : (phi POLY 2) ^ i ≠ 0 := by
  intro h
  have h2 : phi POLY 2 = Ideal.Quotient.mk (Ideal.span {toPoly POLY}) Polynomial.X := by
    rw [phi, toPoly_two]
  rw [h2, ← map_pow, Ideal.Quotient.eq_zero_iff_mem, Ideal.mem_span_singleton] at h
  exact not_dvd_X_pow hirr hd2 i h

theorem alphaPow_ne_zero {w POLY : Nat} (hw : 1 ≤ w) (hprim : IsPrimitivePoly POLY)
    (hd1 : 1 ≤ degM POLY) (hdw : degM POLY ≤ w) (i : Nat)
    (hi : i < 2 ^ degM POLY - 1) : alphaPow w POLY i ≠ 0 := by
  by_cases hd2 : 2 ≤ degM POLY
  · intro h
    have hphi := phi_alphaPow (by omega) hd1 hdw i
    rw [h, phi_zero] at hphi
    exact phi_two_pow_ne_zero hprim.1 hd2 i hphi.symm
  · have hM1 : degM POLY = 1 := by omega
    rw [hM1] at hi
    have hi0 : i = 0 := by omega
    subst hi0
    show (1 : Nat) ≠ 0
    omega

theorem alphaPow_inj {w POLY : Nat} (hw : 1 ≤ w) (hprim : IsPrimitivePoly POLY)
    (hd1 : 1 ≤ degM POLY) (hdw : degM POLY ≤ w) :
    ∀ i j, i < 2 ^ degM POLY - 1 → j < 2 ^ degM POLY - 1 →
      alphaPow w POLY i = alphaPow w POLY j → i = j := by
  by_cases hd2 : 2 ≤ degM POLY
  case neg =>
    intro i j hi hj _
    have hM1 : degM POLY = 1 := by omega
    rw [hM1] at hi hj
    omega
  case pos =>
  have key : ∀ i j, i < j → j < 2 ^ degM POLY - 1 →
      alphaPow w POLY i ≠ alphaPow w POLY j := by
    intro i j hij hj heq
    have h1 : (phi POLY 2) ^ i = (phi POLY 2) ^ j := by
      rw [← phi_alphaPow (by omega) hd1 hdw i, ← phi_alphaPow (by omega) hd1 hdw j, heq]
    have h2 : phi POLY 2 = Ideal.Quotient.mk (Ideal.span {toPoly POLY}) Polynomial.X := by
      rw [phi, toPoly_two]
    rw [h2, ← map_pow, ← map_pow, Ideal.Quotient.eq, Ideal.mem_span_singleton] at h1
    have hXj : (Polynomial.X : Polynomial (ZMod 2)) ^ j
        = Polynomial.X ^ i * Polynomial.X ^ (j - i) := by
      rw [← pow_add]
      congr 1
      omega
    have hsplit : (Polynomial.X : Polynomial (ZMod 2)) ^ i - Polynomial.X ^ j
        = Polynomial.X ^ i * (Polynomial.X ^ (j - i) + 1) := by
      have hneg : (Polynomial.X : Polynomial (ZMod 2)) ^ j = -(Polynomial.X ^ j) :=
        (eq_neg_of_add_eq_zero_left (poly_add_self _)).symm ▸ rfl
      calc (Polynomial.X : Polynomial (ZMod 2)) ^ i - Polynomial.X ^ j
          = Polynomial.X ^ i + Polynomial.X ^ j := by
            rw [sub_eq_add_neg]
            congr 1
            exact (eq_neg_of_add_eq_zero_left (poly_add_self _)).symm
        _ = Polynomial.X ^ i * (Polynomial.X ^ (j - i) + 1) := by
            rw [mul_add, mul_one, ← pow_add, show i + (j - i) = j by omega, add_comm]
    rw [hsplit] at h1
    rcases hprim.1.prime.2.2 _ _ h1 with hc | hc
    · exact not_dvd_X_pow hprim.1 hd2 i hc
    · have hd0 : 0 < j - i := by omega
      have hdlt : j - i < 2 ^ degM POLY - 1 := by omega
      exact hprim.2 (j - i) hd0 hdlt hc
  intro i j hi hj heq
  rcases lt_trichotomy i j with h | h | h
  · exact absurd heq (key i j h hj)
  · exact h
  · exact absurd heq.symm (key j i h hi)

theorem lutFold_log (w POLY K : Nat)
    (hinj : ∀ i j, i < K → j < K → lfsrVal w POLY i = lfsrVal w POLY j → i = j) :
    (∀ j, j < K → ((List.range K).foldl (lutStep w POLY) lutInit).1.2 (lfsrVal w POLY j)
      = (j : Int)) ∧
    (∀ v, (∀ j, j < K → lfsrVal w POLY j ≠ v) →
      ((List.range K).foldl (lutStep w POLY) lutInit).1.2 v = lutInit.1.2 v) := by
  induction K with
  | zero =>
    constructor
    · intro j hj
      omega
    · intro v _
      rfl
  | succ K ih =>
    obtain ⟨ih1, ih2⟩ := ih (fun i j hi hj => hinj i j (by omega) (by omega))
    rw [List.range_succ, List.foldl_append, List.foldl_cons, List.foldl_nil]
    constructor
    · intro j hj
      show (updZ ((List.range K).foldl (lutStep w POLY) lutInit).1.2
        ((List.range K).foldl (lutStep w POLY) lutInit).2 (K : Int)) (lfsrVal w POLY j)
        = (j : Int)
      rw [(lutFold_spec w POLY K).1]
      simp only [updZ]
      by_cases hjK : j = K
      · subst hjK
        rw [if_pos rfl]
      · have hne : lfsrVal w POLY j ≠ lfsrVal w POLY K :=
          fun he => hjK (hinj j K (by omega) (by omega) he)
        rw [if_neg hne]
        exact ih1 j (by omega)
    · intro v hv
      show (updZ ((List.range K).foldl (lutStep w POLY) lutInit).1.2
        ((List.range K).foldl (lutStep w POLY) lutInit).2 (K : Int)) v = lutInit.1.2 v
      rw [(lutFold_spec w POLY K).1]
      simp only [updZ]
      rw [if_neg (fun he => hv K (by omega) he.symm)]
      exact ih2 v (fun j hj => hv j (by omega))

theorem alphaPow_surj {w POLY : Nat} (hw : 1 ≤ w) (hprim : IsPrimitivePoly POLY)
    (hd1 : 1 ≤ degM POLY) (hdw : degM POLY ≤ w) :
    ∀ v, v ≠ 0 → v < 2 ^ degM POLY →
      ∃ i, i < 2 ^ degM POLY - 1 ∧ alphaPow w POLY i = v := by
  intro v hv0 hvM
  have himg : Finset.image (fun i => alphaPow w POLY i)
      (Finset.range (2 ^ degM POLY - 1)) ⊆ Finset.Ico 1 (2 ^ degM POLY) := by
    intro x hx
    rw [Finset.mem_image] at hx
    obtain ⟨i, hi, hxi⟩ := hx
    rw [Finset.mem_range] at hi
    rw [Finset.mem_Ico]
    subst hxi
    have h1 := alphaPow_ne_zero hw hprim hd1 hdw i hi
    have h2 := alphaPow_lt hw hd1 hdw i
    omega
  have hinj : Set.InjOn (fun i => alphaPow w POLY i)
      (Finset.range (2 ^ degM POLY - 1)) := by
    intro i hi j hj he
    rw [Finset.coe_range, Set.mem_Iio] at hi hj
    exact alphaPow_inj hw hprim hd1 hdw i j hi hj he
  have hcard := Finset.card_image_of_injOn hinj
  rw [Finset.card_range] at hcard
  have heq : Finset.image (fun i => alphaPow w POLY i)
      (Finset.range (2 ^ degM POLY - 1)) = Finset.Ico 1 (2 ^ degM POLY) := by
    apply Finset.eq_of_subset_of_card_le himg
    rw [Nat.card_Ico, hcard]
  have hvmem : v ∈ Finset.Ico 1 (2 ^ degM POLY) := Finset.mem_Ico.mpr ⟨by omega, hvM⟩
  rw [← heq, Finset.mem_image] at hvmem
  obtain ⟨i, hi, hiv⟩ := hvmem
  rw [Finset.mem_range] at hi
  exact ⟨i, hi, hiv⟩

/-- C5: for a primitive polynomial of degree `M` fitting the storage width,
the generated tables satisfy `exp_tbl[i] = alpha^i` for every
`i < NUM_ELEM - 1` (alpha = the element of value 2, powers by field
multiplication), `log_tbl[v]` is the unique exponent of every nonzero
`v < NUM_ELEM`, and `log_tbl[0] = -1`. -/
theorem claim_C5 :
    ∀ w POLY : Nat, 1 ≤ w → IsPrimitivePoly POLY → 1 ≤ degM POLY → degM POLY ≤ w →
      (∀ i, i < 2 ^ degM POLY - 1 → lutExp w POLY i = alphaPow w POLY i) ∧
      (∀ v, v ≠ 0 → v < 2 ^ degM POLY →
        ∃ i : Nat, i < 2 ^ degM POLY - 1 ∧ lutLog w POLY v = (i : Int) ∧
          lutExp w POLY i = v ∧
          ∀ j, j < 2 ^ degM POLY - 1 → lutExp w POLY j = v → j = i) ∧
      lutLog w POLY 0 = -1 := by
  intro w POLY hw hprim hd1 hdw
  have hexp : ∀ i, i < 2 ^ degM POLY - 1 → lutExp w POLY i = lfsrVal w POLY i := by
    intro i hi
    rw [lutExp, lutState, (lutFold_spec w POLY _).2 i, if_pos hi]
  have hinj : ∀ i j, i < 2 ^ degM POLY - 1 → j < 2 ^ degM POLY - 1 →
      lfsrVal w POLY i = lfsrVal w POLY j → i = j := by
    intro i j hi hj he
    apply alphaPow_inj hw hprim hd1 hdw i j hi hj
    rw [← lfsrVal_eq_alphaPow hw hd1 hdw, ← lfsrVal_eq_alphaPow hw hd1 hdw, he]
  obtain ⟨hlog1, hlog2⟩ := lutFold_log w POLY (2 ^ degM POLY - 1) hinj
  refine ⟨?_, ?_, ?_⟩
  · intro i hi
    rw [hexp i hi, lfsrVal_eq_alphaPow hw hd1 hdw]
  · intro v hv0 hvM
    obtain ⟨i, hi, hiv⟩ := alphaPow_surj hw hprim hd1 hdw v hv0 hvM
    refine ⟨i, hi, ?_, ?_, ?_⟩
    · rw [lutLog, lutState, ← hiv, ← lfsrVal_eq_alphaPow hw hd1 hdw]
      exact hlog1 i hi
    · rw [hexp i hi, lfsrVal_eq_alphaPow hw hd1 hdw, hiv]
    · intro j hj hjv
      apply alphaPow_inj hw hprim hd1 hdw j i hj hi
      rw [hiv, ← hjv, hexp j hj, lfsrVal_eq_alphaPow hw hd1 hdw]
  · have h0 : ((List.range (2 ^ degM POLY - 1)).foldl (lutStep w POLY) lutInit).1.2 0
        = lutInit.1.2 0 := by
      apply hlog2 0
      intro j hj
      rw [lfsrVal_eq_alphaPow hw hd1 hdw]
      exact alphaPow_ne_zero hw hprim hd1 hdw j hj
    rw [lutLog, lutState, h0]
    rfl

theorem isPrimitive_three : IsPrimitivePoly 3 := by
  refine ⟨irreducible_toPoly_three, ?_⟩
  intro d h1 h2
  rw [show degM 3 = 1 from rfl] at h2
  exfalso
  omega

/-- Witness for C5 at `(w, POLY) = (8, 0x3)`. -/
theorem claim_C5_witness :
    (∀ i, i < 2 ^ degM 3 - 1 → lutExp 8 3 i = alphaPow 8 3 i) ∧
    (∀ v, v ≠ 0 → v < 2 ^ degM 3 →
      ∃ i : Nat, i < 2 ^ degM 3 - 1 ∧ lutLog 8 3 v = (i : Int) ∧
        lutExp 8 3 i = v ∧
        ∀ j, j < 2 ^ degM 3 - 1 → lutExp 8 3 j = v → j = i) ∧
    lutLog 8 3 0 = -1 :=
  claim_C5 8 3 (by norm_num) isPrimitive_three (by decide) (by decide)

/-! ### Backend equivalence support -/

theorem lutExp_eq_alphaPow {w POLY : Nat} (hw : 1 ≤ w) (hd1 : 1 ≤ degM POLY)
    (hdw : degM POLY ≤ w) (i : Nat) (hi : i < 2 ^ degM POLY - 1) :
    lutExp w POLY i = alphaPow w POLY i := by
  rw [lutExp, lutState, (lutFold_spec w POLY _).2 i, if_pos hi,
    lfsrVal_eq_alphaPow hw hd1 hdw]

theorem lutLog_data {w POLY : Nat} (hw : 1 ≤ w) (hprim : IsPrimitivePoly POLY)
    (hd1 : 1 ≤ degM POLY) (hdw : degM POLY ≤ w) {v : Nat} (hv0 : v ≠ 0)
    (hvM : v < 2 ^ degM POLY) :
    ∃ i : Nat, i < 2 ^ degM POLY - 1 ∧ lutLog w POLY v = (i : Int) ∧
      alphaPow w POLY i = v := by
  have hinj : ∀ i j, i < 2 ^ degM POLY - 1 → j < 2 ^ degM POLY - 1 →
      lfsrVal w POLY i = lfsrVal w POLY j → i = j := by
    intro i j hi hj he
    apply alphaPow_inj hw hprim hd1 hdw i j hi hj
    rw [← lfsrVal_eq_alphaPow hw hd1 hdw, ← lfsrVal_eq_alphaPow hw hd1 hdw, he]
  obtain ⟨hlog1, _⟩ := lutFold_log w POLY (2 ^ degM POLY - 1) hinj
  obtain ⟨i, hi, hiv⟩ := alphaPow_surj hw hprim hd1 hdw v hv0 hvM
  refine ⟨i, hi, ?_, hiv⟩
  rw [lutLog, lutState, ← hiv, ← lfsrVal_eq_alphaPow hw hd1 hdw]
  exact hlog1 i hi

theorem phi_two_pow_ne {POLY : Nat} (hprim : IsPrimitivePoly POLY) (hd2 : 2 ≤ degM POLY)
    (i d : Nat) (hd0 : 0 < d) (hdQ : d < 2 ^ degM POLY - 1) :
    (phi POLY 2) ^ i ≠ (phi POLY 2) ^ (i + d) := by
  intro h1
  have h2 : phi POLY 2 = Ideal.Quotient.mk (Ideal.span {toPoly POLY}) Polynomial.X := by
    rw [phi, toPoly_two]
  rw [h2, ← map_pow, ← map_pow, Ideal.Quotient.eq, Ideal.mem_span_singleton] at h1
  have hsplit : (Polynomial.X : Polynomial (ZMod 2)) ^ i - Polynomial.X ^ (i + d)
      = Polynomial.X ^ i * (Polynomial.X ^ d + 1) := by
    calc (Polynomial.X : Polynomial (ZMod 2)) ^ i - Polynomial.X ^ (i + d)
        = Polynomial.X ^ i + Polynomial.X ^ (i + d) := by
          rw [sub_eq_add_neg]
          congr 1
          exact (eq_neg_of_add_eq_zero_left (poly_add_self _)).symm
      _ = Polynomial.X ^ i * (Polynomial.X ^ d + 1) := by
          rw [mul_add, mul_one, ← pow_add, add_comm]
  rw [hsplit] at h1
  rcases hprim.1.prime.2.2 _ _ h1 with hc | hc
  · exact not_dvd_X_pow hprim.1 hd2 i hc
  · exact hprim.2 d hd0 hdQ hc

theorem phi_two_pow_Q {w POLY : Nat} (hw : 1 ≤ w) (hprim : IsPrimitivePoly POLY)
    (hd1 : 1 ≤ degM POLY) (hdw : degM POLY ≤ w) (hP2 : POLY ≠ 2) :
    (phi POLY 2) ^ (2 ^ degM POLY - 1) = 1 := by
  by_cases hd2 : 2 ≤ degM POLY
  · have hw2 : 2 ≤ w := by omega
    have hne : alphaPow w POLY (2 ^ degM POLY - 1) ≠ 0 := by
      intro h
      have hphi := phi_alphaPow hw2 hd1 hdw (2 ^ degM POLY - 1)
      rw [h, phi_zero] at hphi
      exact phi_two_pow_ne_zero hprim.1 hd2 _ hphi.symm
    obtain ⟨k, hk, hkv⟩ :=
      alphaPow_surj hw hprim hd1 hdw _ hne (alphaPow_lt hw hd1 hdw _)
    have hphik : (phi POLY 2) ^ k = (phi POLY 2) ^ (2 ^ degM POLY - 1) := by
      rw [← phi_alphaPow hw2 hd1 hdw, ← phi_alphaPow hw2 hd1 hdw, hkv]
    by_cases hk0 : k = 0
    · rw [hk0, pow_zero] at hphik
      exact hphik.symm
    · exfalso
      apply phi_two_pow_ne hprim hd2 k (2 ^ degM POLY - 1 - k) (by omega) (by omega)
      rw [show k + (2 ^ degM POLY - 1 - k) = 2 ^ degM POLY - 1 by omega]
      exact hphik
  · have hM1 : degM POLY = 1 := by omega
    have hP3 : POLY = 3 := by
      rw [degM] at hM1
      have h1 : sizeN POLY = 2 := by omega
      have h2 : POLY < 2 ^ 2 := by
        have := lt_two_pow_sizeN POLY
        rw [h1] at this
        exact this
      have hP0 : POLY ≠ 0 := by
        intro h0
        rw [h0] at h1
        exact absurd h1 (by decide)
      have h3 : 2 ^ (2 - 1) ≤ POLY := by
        have := two_pow_sizeN_sub_one_le hP0
        rw [h1] at this
        exact this
      have h4 : (2 : Nat) ^ 2 = 4 := by norm_num
      have h5 : (2 : Nat) ^ (2 - 1) = 2 := by norm_num
      omega
    subst hP3
    have hphi2 : phi 3 2 = 1 := by
      rw [phi, toPoly_two]
      have hone : (1 : Polynomial (ZMod 2) ⧸ Ideal.span {toPoly 3})
          = Ideal.Quotient.mk (Ideal.span {toPoly 3}) 1 := (map_one _).symm
      rw [hone, Ideal.Quotient.eq, Ideal.mem_span_singleton, toPoly_three]
      have hsub : (Polynomial.X : Polynomial (ZMod 2)) - 1 = Polynomial.X + 1 := by
        rw [sub_eq_add_neg]
        congr 1
        exact (eq_neg_of_add_eq_zero_left (poly_add_self 1)).symm
      rw [hsub]
    rw [hphi2, one_pow]

theorem phi_two_pow_mod {w POLY : Nat} (hw : 1 ≤ w) (hprim : IsPrimitivePoly POLY)
    (hd1 : 1 ≤ degM POLY) (hdw : degM POLY ≤ w) (hP2 : POLY ≠ 2) (n : Nat) :
    (phi POLY 2) ^ (n % (2 ^ degM POLY - 1)) = (phi POLY 2) ^ n := by
  conv => rhs; rw [← Nat.div_add_mod n (2 ^ degM POLY - 1)]
  rw [pow_add, pow_mul, phi_two_pow_Q hw hprim hd1 hdw hP2, one_pow, one_mul]

theorem alpha_pow_nat {w POLY : Nat} (hd1 : 1 ≤ degM POLY) (n : Nat) :
    alpha_pow w POLY (n : Int) = lutExp w POLY (n % (2 ^ degM POLY - 1)) := by
  have hq : ((2 ^ degM POLY : Nat) : Int) - 1 = ((2 ^ degM POLY - 1 : Nat) : Int) := by
    have : (1 : Nat) ≤ 2 ^ degM POLY := Nat.one_le_two_pow
    omega
  simp only [alpha_pow]
  rw [hq]
  congr 1
  have h1 : ((n : Int) % ((2 ^ degM POLY - 1 : Nat) : Int)
        + ((2 ^ degM POLY - 1 : Nat) : Int)) % ((2 ^ degM POLY - 1 : Nat) : Int)
      = (n : Int) % ((2 ^ degM POLY - 1 : Nat) : Int) := by
    have h2 := Int.add_mul_emod_self_left
      ((n : Int) % ((2 ^ degM POLY - 1 : Nat) : Int)) ((2 ^ degM POLY - 1 : Nat) : Int) 1
    rw [mul_one] at h2
    rw [h2, Int.emod_emod_of_dvd _ dvd_rfl]
  rw [h1]
  omega

theorem alpha_pow_sub_nat {w POLY : Nat} (hd1 : 1 ≤ degM POLY) (n : Nat) :
    alpha_pow w POLY ((n : Int) - ((2 ^ degM POLY - 1 : Nat) : Int))
      = lutExp w POLY (n % (2 ^ degM POLY - 1)) := by
  have hq : ((2 ^ degM POLY : Nat) : Int) - 1 = ((2 ^ degM POLY - 1 : Nat) : Int) := by
    have : (1 : Nat) ≤ 2 ^ degM POLY := Nat.one_le_two_pow
    omega
  simp only [alpha_pow]
  rw [hq]
  congr 1
  have h0 : ((n : Int) - ((2 ^ degM POLY - 1 : Nat) : Int))
        % ((2 ^ degM POLY - 1 : Nat) : Int)
      = (n : Int) % ((2 ^ degM POLY - 1 : Nat) : Int) := by
    rw [sub_eq_add_neg,
      show -((2 ^ degM POLY - 1 : Nat) : Int)
        = ((2 ^ degM POLY - 1 : Nat) : Int) * (-1) by ring,
      Int.add_mul_emod_self_left]
  rw [h0]
  have h1 : ((n : Int) % ((2 ^ degM POLY - 1 : Nat) : Int)
        + ((2 ^ degM POLY - 1 : Nat) : Int)) % ((2 ^ degM POLY - 1 : Nat) : Int)
      = (n : Int) % ((2 ^ degM POLY - 1 : Nat) : Int) := by
    have h2 := Int.add_mul_emod_self_left
      ((n : Int) % ((2 ^ degM POLY - 1 : Nat) : Int)) ((2 ^ degM POLY - 1 : Nat) : Int) 1
    rw [mul_one] at h2
    rw [h2, Int.emod_emod_of_dvd _ dvd_rfl]
  rw [h1]
  omega

theorem gfMul_zero_left {w POLY : Nat} (hw : 1 ≤ w) (hd1 : 1 ≤ degM POLY)
    (hdw : degM POLY ≤ w) (x : Nat) (hx : x < 2 ^ degM POLY) :
    gfMul w POLY 0 x = 0 := by
  apply phi_inj hd1 (gfMul_lt _ _ hw hd1 hdw) (Nat.pos_pow_of_pos _ (by omega))
  rw [phi_gfMul 0 x hw hd1 hdw (Nat.pos_pow_of_pos _ (by omega))
    (lt_of_lt_of_le hx (Nat.pow_le_pow_right (by omega) hdw)), phi_zero, zero_mul]

theorem gfMul_zero_right {w POLY : Nat} (hw : 1 ≤ w) (hd1 : 1 ≤ degM POLY)
    (hdw : degM POLY ≤ w) (x : Nat) (hx : x < 2 ^ degM POLY) :
    gfMul w POLY x 0 = 0 := by
  apply phi_inj hd1 (gfMul_lt _ _ hw hd1 hdw) (Nat.pos_pow_of_pos _ (by omega))
  rw [phi_gfMul x 0 hw hd1 hdw
    (lt_of_lt_of_le hx (Nat.pow_le_pow_right (by omega) hdw))
    (Nat.pos_pow_of_pos _ (by omega)), phi_zero, mul_zero]

/-- C1: for a field instantiation `(w, POLY)` with `POLY` primitive (and
odd, as the table backend's validation requires) fitting the storage
width, the computation backend and the table backend agree on `a * b`, on
`a / b` for `b ≠ ZERO`, and on `inverse(a)` for `a ≠ ZERO`, for all
in-range elements. -/
theorem claim_C1 :
    ∀ w POLY a b : Nat, 2 ≤ w → w ≤ 128 → POLY < 2 ^ 128 → POLY % 2 = 1 →
      IsPrimitivePoly POLY → 1 ≤ degM POLY → degM POLY ≤ w →
      a < 2 ^ degM POLY → b < 2 ^ degM POLY →
      lutMul w POLY a b = gfMul w POLY a b ∧
      (b ≠ 0 → lutDiv w POLY a b = gfDiv w POLY a b) ∧
      (a ≠ 0 → lutInverse w POLY a = gfInverse w POLY a) := by
  intro w POLY a b hw2 hw128 hP128 hPodd hprim hd1 hdw haM hbM
  have hw : 1 ≤ w := by omega
  have hirr := hprim.1
  have hP2ne : POLY ≠ 2 := by omega
  have hMw : (2 : Nat) ^ degM POLY ≤ 2 ^ w := Nat.pow_le_pow_right (by omega) hdw
  have hQpos : 0 < 2 ^ degM POLY - 1 := by
    have : (2 : Nat) ^ 1 ≤ 2 ^ degM POLY := Nat.pow_le_pow_right (by omega) hd1
    omega
  have hP2deg := two_le_of_degM_pos hd1
  have hszP : sizeN POLY ≤ degM POLY + 1 := by
    rw [degM]
    have := sizeN_pos (show POLY ≠ 0 by omega)
    omega
  have hPlt2w : POLY < 2 ^ (2 * w) := by
    calc POLY < 2 ^ sizeN POLY := lt_two_pow_sizeN POLY
      _ ≤ 2 ^ (2 * w) := Nat.pow_le_pow_right (by omega) (by omega)
  have hne2w : POLY % 2 ^ (2 * w) ≠ 0 := by
    rw [Nat.mod_eq_of_lt hPlt2w]
    omega
  have hmul : lutMul w POLY a b = gfMul w POLY a b := by
    by_cases hab : a = 0 ∨ b = 0
    · rw [lutMul, if_pos hab]
      rcases hab with h | h
      · subst h
        exact (gfMul_zero_left hw hd1 hdw b hbM).symm
      · subst h
        exact (gfMul_zero_right hw hd1 hdw a haM).symm
    · push_neg at hab
      obtain ⟨ha0, hb0⟩ := hab
      obtain ⟨i, hi, hlogi, hvi⟩ := lutLog_data hw hprim hd1 hdw ha0 haM
      obtain ⟨j, hj, hlogj, hvj⟩ := lutLog_data hw hprim hd1 hdw hb0 hbM
      rw [lutMul, if_neg (by push_neg; exact ⟨ha0, hb0⟩), hlogi, hlogj,
        show (i : Int) + (j : Int) = ((i + j : Nat) : Int) by push_cast; ring,
        alpha_pow_nat hd1,
        lutExp_eq_alphaPow hw hd1 hdw _ (Nat.mod_lt _ hQpos)]
      apply phi_inj hd1 (alphaPow_lt hw hd1 hdw _) (gfMul_lt a b hw hd1 hdw)
      rw [phi_alphaPow hw2 hd1 hdw,
        phi_gfMul a b hw hd1 hdw (lt_of_lt_of_le haM hMw) (lt_of_lt_of_le hbM hMw),
        ← hvi, ← hvj, phi_alphaPow hw2 hd1 hdw, phi_alphaPow hw2 hd1 hdw, ← pow_add,
        phi_two_pow_mod hw hprim hd1 hdw hP2ne]
  refine ⟨hmul, ?_, ?_⟩
  · intro hb0
    obtain ⟨tb, htbs, htbM, htbphi⟩ :=
      gfInverse_correct b hw hw128 hP128 hirr hd1 hdw hb0 hbM
    have hgfd : gfDiv w POLY a b = some (gfMul w POLY a tb) := by
      rw [gfDiv, htbs, Option.some_bind, gfMulQ, if_neg hne2w]
    by_cases ha0 : a = 0
    · subst ha0
      rw [lutDiv, if_neg hb0, if_pos rfl, hgfd, gfMul_zero_left hw hd1 hdw tb htbM]
    · obtain ⟨i, hi, hlogi, hvi⟩ := lutLog_data hw hprim hd1 hdw ha0 haM
      obtain ⟨j, hj, hlogj, hvj⟩ := lutLog_data hw hprim hd1 hdw hb0 hbM
      rw [lutDiv, if_neg hb0, if_neg ha0, hlogi, hlogj, hgfd,
        show (i : Int) - (j : Int)
          = ((i + (2 ^ degM POLY - 1) - j : Nat) : Int)
            - ((2 ^ degM POLY - 1 : Nat) : Int) by omega,
        alpha_pow_sub_nat hd1,
        lutExp_eq_alphaPow hw hd1 hdw _ (Nat.mod_lt _ hQpos)]
      congr 1
      apply phi_inj hd1 (alphaPow_lt hw hd1 hdw _) (gfMul_lt a tb hw hd1 hdw)
      have hphir : phi POLY
          (alphaPow w POLY ((i + (2 ^ degM POLY - 1) - j) % (2 ^ degM POLY - 1)))
          = (phi POLY 2) ^ (i + (2 ^ degM POLY - 1) - j) := by
        rw [phi_alphaPow hw2 hd1 hdw, phi_two_pow_mod hw hprim hd1 hdw hP2ne]
      rw [hphir,
        phi_gfMul a tb hw hd1 hdw (lt_of_lt_of_le haM hMw) (lt_of_lt_of_le htbM hMw)]
      have hb2 : phi POLY b = (phi POLY 2) ^ j := by
        rw [← hvj, phi_alphaPow hw2 hd1 hdw]
      have ha2 : phi POLY a = (phi POLY 2) ^ i := by
        rw [← hvi, phi_alphaPow hw2 hd1 hdw]
      have hQQ : (phi POLY 2) ^ (i + (2 ^ degM POLY - 1) - j) * phi POLY b
          = phi POLY a := by
        rw [hb2, ha2, ← pow_add,
          show i + (2 ^ degM POLY - 1) - j + j = i + (2 ^ degM POLY - 1) by omega,
          pow_add, phi_two_pow_Q hw hprim hd1 hdw hP2ne, mul_one]
      calc (phi POLY 2) ^ (i + (2 ^ degM POLY - 1) - j)
          = (phi POLY 2) ^ (i + (2 ^ degM POLY - 1) - j)
              * (phi POLY tb * phi POLY b) := by rw [htbphi, mul_one]
        _ = ((phi POLY 2) ^ (i + (2 ^ degM POLY - 1) - j) * phi POLY b)
              * phi POLY tb := by ring
        _ = phi POLY a * phi POLY tb := by rw [hQQ]
  · intro ha0
    obtain ⟨i, hi, hlog, hvi⟩ := lutLog_data hw hprim hd1 hdw ha0 haM
    obtain ⟨t, hts, htM, htphi⟩ :=
      gfInverse_correct a hw hw128 hP128 hirr hd1 hdw ha0 haM
    rw [lutInverse, if_neg ha0, hlog, hts,
      show (((2 ^ degM POLY : Nat) : Int) - 1) - (i : Int)
        = ((2 ^ degM POLY - 1 - i : Nat) : Int) by
          have : (1 : Nat) ≤ 2 ^ degM POLY := Nat.one_le_two_pow
          omega,
      alpha_pow_nat hd1, lutExp_eq_alphaPow hw hd1 hdw _ (Nat.mod_lt _ hQpos)]
    congr 1
    apply phi_inj hd1 (alphaPow_lt hw hd1 hdw _) htM
    have hphir : phi POLY
        (alphaPow w POLY ((2 ^ degM POLY - 1 - i) % (2 ^ degM POLY - 1)))
        = (phi POLY 2) ^ (2 ^ degM POLY - 1 - i) := by
      rw [phi_alphaPow hw2 hd1 hdw, phi_two_pow_mod hw hprim hd1 hdw hP2ne]
    rw [hphir]
    have ha2 : phi POLY a = (phi POLY 2) ^ i := by
      rw [← hvi, phi_alphaPow hw2 hd1 hdw]
    have h2 : (phi POLY 2) ^ (2 ^ degM POLY - 1 - i) * phi POLY a = 1 := by
      rw [ha2, ← pow_add, show 2 ^ degM POLY - 1 - i + i = 2 ^ degM POLY - 1 by omega]
      exact phi_two_pow_Q hw hprim hd1 hdw hP2ne
    calc (phi POLY 2) ^ (2 ^ degM POLY - 1 - i)
        = (phi POLY 2) ^ (2 ^ degM POLY - 1 - i) * (phi POLY t * phi POLY a) := by
          rw [htphi, mul_one]
      _ = phi POLY t * ((phi POLY 2) ^ (2 ^ degM POLY - 1 - i) * phi POLY a) := by ring
      _ = phi POLY t := by rw [h2, mul_one]

/-- Witness for C1 at `(w, POLY, a, b) = (8, 0x3, 1, 1)`. -/
theorem claim_C1_witness :
    lutMul 8 3 1 1 = gfMul 8 3 1 1 ∧
    ((1 : Nat) ≠ 0 → lutDiv 8 3 1 1 = gfDiv 8 3 1 1) ∧
    ((1 : Nat) ≠ 0 → lutInverse 8 3 1 = gfInverse 8 3 1) :=
  claim_C1 8 3 1 1 (by norm_num) (by norm_num) (by norm_num) (by norm_num)
    isPrimitive_three (by decide) (by decide) (by decide) (by decide)

theorem logBij_of_checks (w POLY : Nat)
    (h1 : ∀ v, v < 2 ^ degM POLY → 1 ≤ v →
      0 ≤ lutLog w POLY v ∧ lutLog w POLY v < ((2 ^ degM POLY - 1 : Nat) : Int) ∧
      lutExp w POLY (lutLog w POLY v).toNat = v)
    (h2 : ∀ i, i < 2 ^ degM POLY - 1 →
      1 ≤ lutExp w POLY i ∧ lutExp w POLY i < 2 ^ degM POLY ∧
      lutLog w POLY (lutExp w POLY i) = (i : Int)) :
    LogBij w POLY := by
  refine ⟨?_, ?_, ?_⟩
  · intro v hv1 hv2
    exact ⟨(h1 v hv2 hv1).1, (h1 v hv2 hv1).2.1⟩
  · intro v v' hv1 hv2 hv1' hv2' he
    have e1 := (h1 v hv2 hv1).2.2
    have e2 := (h1 v' hv2' hv1').2.2
    rw [← e1, ← e2, he]
  · intro i hi
    obtain ⟨g1, g2, g3⟩ := h2 i hi
    exact ⟨lutExp w POLY i, g1, g2, g3⟩

set_option maxRecDepth 1000000 in
set_option maxHeartbeats 16000000 in
/-- C7: the table-backend validation passes for the eight primitive
polynomials the test suite instantiates, their log tables restricted to
nonzero elements are bijections onto `[0, NUM_ELEM - 1)`, and validation
fails for `0x4` (zero is a root), `0x5` (one is a root) and the
irreducible-but-not-primitive `0x15` over an 8-bit table. -/
theorem claim_C7 :
    (lutValidate 16 3 = true ∧ lutValidate 16 7 = true ∧ lutValidate 16 11 = true ∧
      lutValidate 16 19 = true ∧ lutValidate 8 37 = true ∧ lutValidate 8 67 = true ∧
      lutValidate 8 131 = true ∧ lutValidate 8 285 = true) ∧
    (LogBij 16 3 ∧ LogBij 16 7 ∧ LogBij 16 11 ∧ LogBij 16 19 ∧
      LogBij 8 37 ∧ LogBij 8 67 ∧ LogBij 8 131 ∧ LogBij 8 285) ∧
    (lutValidate 8 4 = false ∧ lutValidate 8 5 = false ∧ lutValidate 8 21 = false) :=
  ⟨⟨by decide, by decide, by decide, by decide, by decide, by decide, by decide, by decide⟩,
   ⟨logBij_of_checks 16 3 (by decide) (by decide),
    logBij_of_checks 16 7 (by decide) (by decide),
    logBij_of_checks 16 11 (by decide) (by decide),
    logBij_of_checks 16 19 (by decide) (by decide),
    logBij_of_checks 8 37 (by decide) (by decide),
    logBij_of_checks 8 67 (by decide) (by decide),
    logBij_of_checks 8 131 (by decide) (by decide),
    logBij_of_checks 8 285 (by decide) (by decide)⟩,
   ⟨by decide, by decide, by decide⟩⟩
